import Mathlib

/-!
# BlockBlastBot: placement engine, heuristic evaluator and search

A shallow embedding of `src/game.go`.

* The board is a Go `uint64`; it is modelled as a `Nat`, and every shift that builds a
  mask is reduced modulo `2 ^ 64` (Go shifts the bit out when the count is 64 or more).
* Go `int` is 64 bits wide (the constant `-1000000000000` of `FindBestMove` does not fit
  32 bits). An `int` is an `Int`, and the operations on scores and on the positions of
  `ToGameBoard` wrap around (`wrapInt`); the loop counters, the neighbour coordinates and
  the perimeter count of `Penalize` and the bonus `50 * rowsRemoved` of `PlacePiece`, which
  stay below 1000, are computed exactly.
* A slice is a `List`; the loops of `ToGameBoard` read a list up to the largest length a
  slice of cells or rows can have (`maxSlice`).
* A Go run-time panic (negative shift count, index out of range) is modelled by the
  outer `Option` of a result being `none`.
* A method with a pointer receiver that mutates the receiver returns the receiver after
  the call next to its result.
* The 1500 workers of `FindBestMove` share the receiver (read only), the queue `Jobs` and
  the slice `ValidJobs` (both under a mutex); a worker writes only objects it allocated
  itself. A run is therefore determined by the order in which the jobs are finished:
  `FindBestMoveIn schedule` takes that order as a rearrangement of `Jobs`, and what is
  claimed of every run is proved for every rearrangement. `FindBestMove` is the run in
  which the jobs are finished in queue order.
* For the frame of `FindBestMove` the worker is also given on a store of `GameState`
  objects (`PlacePieceAt` .. `FindBestMoveAt`), proved to agree with the pure worker.
-/

namespace BlockBlast

/-- Go `type Piece [][]bool`. -/
abbrev Piece := List (List Bool)

/-- Go `type Postion struct { X int; Y int }`. -/
structure Postion where
  X : Int
  Y : Int
deriving DecidableEq

/-- Go `type GameState struct { Board uint64; Pieces []Piece; Score int }`. -/
structure GameState where
  Board : Nat
  Pieces : List Piece
  Score : Int
deriving DecidableEq

/-- Go `type Move struct`; the piece pointer is modelled by the piece it points to. -/
structure Move where
  Piece : Piece
  PieceIndex : Nat
  To : Postion
deriving DecidableEq

/-- Go `type Job struct`. -/
structure Job where
  OrderIndex : Int
  FirstPos : Postion
  SecondPos : Postion
  ThirdPos : Postion
  Score : Int
deriving DecidableEq

/-- The value an `int` operation yields when its exact result is `z`: wrap-around to the
64-bit range from `-2 ^ 63` to `2 ^ 63 - 1`. -/
def wrapInt (z : Int) : Int := (z + 2 ^ 63) % 2 ^ 64 - 2 ^ 63

/-- Go `a + b` on `int`. -/
def addInt (a b : Int) : Int := wrapInt (a + b)

/-- Go `a - b` on `int`. -/
def subInt (a b : Int) : Int := wrapInt (a - b)

/-- Go `a * b` on `int`. -/
def mulInt (a b : Int) : Int := wrapInt (a * b)

/-- The values of type `int`. -/
def isInt (z : Int) : Prop := -2 ^ 63 ≤ z ∧ z < 2 ^ 63

instance (z : Int) : Decidable (isInt z) := by
  unfold isInt; infer_instance

/-- The largest length of a slice of cells or of rows: the Go runtime allocates at most
`2 ^ 48` bytes for one object. -/
def maxSlice : Nat := 2 ^ 48

/-- The pairs (index, element) visited by `for i, v := range s` over a slice of cells or of
rows. A list longer than `maxSlice` stands for no slice; it is read up to there. -/
def ranged {α : Type} (s : List α) : List (Nat × α) := (s.take maxSlice).enum

/-- The `uint64` value of `1 << pos` for a non-negative count `pos`. -/
def oneShl (pos : Nat) : Nat := (1 <<< pos) % 2 ^ 64

/-- The `uint64` value of `1 << pos` for an `int` count: a negative count panics. -/
def shl1 (pos : Int) : Option Nat :=
  if pos < 0 then none else some (oneShl pos.toNat)

/-- Go `a &^ m` on `uint64`. -/
def andNot (a m : Nat) : Nat := a &&& (m ^^^ (2 ^ 64 - 1))

/-- The inner loop of `FromBoard` over one row. -/
def fromRow (y : Nat) (row : List Bool) (board : Nat) : Nat :=
  row.enum.foldl (fun acc c => if c.2 then acc ||| oneShl (y * 8 + c.1) else acc) board

/-- `GameState.FromBoard`: only `Board` is written. -/
def FromBoard (gs : GameState) (b : List (List Bool)) : GameState :=
  { gs with Board := b.enum.foldl (fun acc r => fromRow r.1 r.2 acc) 0 }

/-- The local `pos := (y+i)*8 + (x + j)` of `ToGameBoard`, in `int` arithmetic. -/
def cellPos (x y : Int) (i j : Nat) : Int :=
  addInt (mulInt (addInt y i) 8) (addInt x j)

/-- The inner loop of `ToGameBoard` over one row `i` of the piece. -/
def toRow (x y : Int) (i : Nat) (row : List Bool) (board : Nat) : Option Nat :=
  (ranged row).foldlM
    (fun acc c => if c.2 then (shl1 (cellPos x y i c.1)).map (fun m => acc ||| m)
      else some acc) board

/-- `Piece.ToGameBoard`. A negative position (met only after an overflow) panics. -/
def ToGameBoard (p : Piece) (x y : Int) : Option Nat :=
  (ranged p).foldlM (fun acc r => toRow x y r.1 r.2 acc) 0

/-- The count of true cells in a row (the inner loop of `getBounds`). -/
def rowWidth (row : List Bool) : Nat :=
  row.foldl (fun width cell => if cell then width + 1 else width) 0

/-- `Piece.getBounds`: `(maxWidth, maxHeight)`. -/
def getBounds (p : Piece) : Nat × Nat :=
  (p.foldl (fun maxWidth row => if rowWidth row > maxWidth then rowWidth row else maxWidth) 0,
   p.length)

/-- The values taken by `dy` and by `dx` in `Penalize`. -/
def offsets : List Int := [-1, 0, 1]

/-- The test `(dy == 0 && dx == 0) || (dy != 0 && dx != 0)`: self and diagonals. -/
def skipOffset (dx dy : Int) : Bool := (dy == 0 && dx == 0) || (dy != 0 && dx != 0)

/-- The test `nx < 0 || nx >= 8 || ny < 0 || ny >= 8`. -/
def outOfBounds (nx ny : Int) : Bool :=
  decide (nx < 0) || decide (nx ≥ 8) || decide (ny < 0) || decide (ny ≥ 8)

/-- The flag `fullNeighbors` after the two offset loops of `Penalize` (empty-block branch). -/
def fullNeighbors (board : Nat) (x y : Nat) : Bool :=
  offsets.all fun dy => offsets.all fun dx =>
    if skipOffset dx dy then true
    else if outOfBounds (x + dx) (y + dy) then true
    else board &&& oneShl (((y : Int) + dy) * 8 + ((x : Int) + dx)).toNat != 0

/-- The flag `emptyNeighbors` after the two offset loops of `Penalize` (full-block branch). -/
def emptyNeighbors (board : Nat) (x y : Nat) : Bool :=
  offsets.all fun dy => offsets.all fun dx =>
    if skipOffset dx dy then true
    else if outOfBounds (x + dx) (y + dy) then true
    else board &&& oneShl (((y : Int) + dy) * 8 + ((x : Int) + dx)).toNat == 0

/-- The body of the first cell loop of `Penalize` at cell `(x, y)`. -/
def isolationStep (board : Nat) (y : Nat) (score : Int) (x : Nat) : Int :=
  if board &&& oneShl (y * 8 + x) == 0 then
    if fullNeighbors board x y then subInt score 5 else score
  else
    if emptyNeighbors board x y then subInt score 10 else score

/-- The first pair of loops of `Penalize`, threading the score. -/
def isolationPass (board : Nat) (score : Int) : Int :=
  (List.range 8).foldl (fun s y => (List.range 8).foldl (isolationStep board y) s) score

/-- The body of the offset loops of the perimeter count at cell `(x, y)`. -/
def perimeterCell (board : Nat) (x y : Nat) (perimeter : Int) : Int :=
  offsets.foldl (fun p dy => offsets.foldl (fun p dx =>
    if skipOffset dx dy then p
    else if outOfBounds (x + dx) (y + dy) then p + 1
    else if board &&& oneShl (((y : Int) + dy) * 8 + ((x : Int) + dx)).toNat == 0 then p + 1
    else p) p) perimeter

/-- The local `perimeter` after the second pair of loops of `Penalize`; it counts at most
4 per cell, so it stays below 257. -/
def perimeter (board : Nat) : Int :=
  (List.range 8).foldl (fun p y => (List.range 8).foldl (fun p x =>
    if board &&& oneShl (y * 8 + x) != 0 then perimeterCell board x y p else p) p) 0

/-- `GameState.Penalize`: the receiver after the call. -/
def Penalize (gs : GameState) : GameState :=
  { gs with Score := subInt (isolationPass gs.Board gs.Score) (perimeter gs.Board) }

/-- What a call of `PlacePiece` leaves behind: the receiver after the call, and the
returned state (`none` when the call returns `nil` and an error). -/
structure PlaceResult where
  receiver : GameState
  newState : Option GameState
deriving DecidableEq

/-- The flag `fullRow` after the inner loop over `x` for row `y`. -/
def fullRow (board : Nat) (y : Nat) : Bool :=
  (List.range 8).all fun x => board &&& oneShl (y * 8 + x) != 0

/-- The flag `fullCol` after the inner loop over `y` for column `x`. -/
def fullCol (board : Nat) (x : Nat) : Bool :=
  (List.range 8).all fun y => board &&& oneShl (y * 8 + x) != 0

/-- The slice `removingPieces` after the row loop and the column loop. -/
def removingPieces (board : Nat) : List Nat :=
  (List.range 8).foldl (fun acc x => if fullCol board x then acc ++ [x + 8] else acc)
    ((List.range 8).foldl (fun acc y => if fullRow board y then acc ++ [y] else acc) [])

/-- The loop clearing row `index`. -/
def clearRow (board : Nat) (index : Nat) : Nat :=
  (List.range 8).foldl (fun b x => andNot b (oneShl (index * 8 + x))) board

/-- The loop clearing column `colIndex`. -/
def clearCol (board : Nat) (colIndex : Nat) : Nat :=
  (List.range 8).foldl (fun b y => andNot b (oneShl (y * 8 + colIndex))) board

/-- The variables written by the removal loop of `PlacePiece`: the receiver's score,
the counter `rowsRemoved` and the new state's board. -/
structure Removal where
  Score : Int
  rowsRemoved : Int
  Board : Nat
deriving DecidableEq

/-- One iteration of the removal loop of `PlacePiece`; the counter `rowsRemoved` goes from
1 to at most 17. -/
def removeStep (acc : Removal) (index : Nat) : Removal :=
  if index < 8 then
    { Score := addInt acc.Score (50 * acc.rowsRemoved)
      rowsRemoved := acc.rowsRemoved + 1
      Board := clearRow acc.Board index }
  else
    { Score := addInt acc.Score (50 * acc.rowsRemoved)
      rowsRemoved := acc.rowsRemoved + 1
      Board := clearCol acc.Board (index - 8) }

/-- The removal loop of `PlacePiece` run on the board `board` (already holding the piece),
with the receiver's score `score`. -/
def removeLines (score : Int) (board : Nat) : Removal :=
  (removingPieces board).foldl removeStep { Score := score, rowsRemoved := 1, Board := board }

/-- `GameState.PlacePiece`. The outer `Option` is `none` when `ToGameBoard` panics. -/
def PlacePiece (gs : GameState) (piece : Piece) (pos : Postion) : Option PlaceResult :=
  match ToGameBoard piece pos.X pos.Y with
  | none => none
  | some pieceInt =>
    if gs.Board &&& pieceInt != 0 then
      some { receiver := gs, newState := none }
    else
      let acc := removeLines gs.Score (gs.Board ||| pieceInt)
      some { receiver := { gs with Score := acc.Score }
             newState := some { Board := acc.Board, Pieces := gs.Pieces, Score := gs.Score } }

/-- Go `var Order = [6][3]int`. -/
def Order : List (List Nat) :=
  [[0, 1, 2], [0, 2, 1], [1, 0, 2], [1, 2, 0], [2, 0, 1], [2, 1, 0]]

/-- The index expression `Order[i]` for an `int` index: out of range panics. -/
def orderAt (i : Int) : Option (List Nat) :=
  if i < 0 then none else Order[i.toNat]?

/-- The positions `(x, y)` with `0 <= x <= 8 - w`, `0 <= y <= 8 - h`, `x` in the outer loop. -/
def positions (bounds : Nat × Nat) : List Postion :=
  (List.range (9 - bounds.1)).flatMap fun (x : Nat) =>
    (List.range (9 - bounds.2)).map fun (y : Nat) => { X := (x : Int), Y := (y : Int) }

/-- The six nested coordinate loops of `FindBestMove` for the order row of index `i`. -/
def jobsFor (i : Nat) (b1 b2 b3 : Nat × Nat) : List Job :=
  (positions b1).flatMap fun p1 => (positions b2).flatMap fun p2 => (positions b3).map fun p3 =>
    { OrderIndex := (i : Int), FirstPos := p1, SecondPos := p2, ThirdPos := p3, Score := 0 }

/-- One iteration of the loop over `Order`: the jobs of one order row. -/
def jobsOfOrder (pieces : List Piece) (i : Nat) (order : List Nat) : Option (List Job) := do
  let i0 ← order[0]?
  let i1 ← order[1]?
  let i2 ← order[2]?
  let p1 ← pieces[i0]?
  let p2 ← pieces[i1]?
  let p3 ← pieces[i2]?
  pure (jobsFor i (getBounds p1) (getBounds p2) (getBounds p3))

/-- The slice `Jobs` built by the enumeration loops of `FindBestMove`. -/
def enumerate (gs : GameState) : Option (List Job) :=
  Order.enum.foldlM (fun jobs r => (jobsOfOrder gs.Pieces r.1 r.2).map (fun js => jobs ++ js)) []

/-- The position a worker uses for the placement number `pieceIndex` of a job. -/
def jobPos (job : Job) (pieceIndex : Nat) : Postion :=
  if pieceIndex = 0 then job.FirstPos
  else if pieceIndex = 1 then job.SecondPos
  else if pieceIndex = 2 then job.ThirdPos
  else { X := 0, Y := 0 }

/-- The piece `gs.Pieces[Order[ThisJob.OrderIndex][pieceIndex]]`. -/
def jobPiece (gs : GameState) (job : Job) (pieceIndex : Nat) : Option Piece := do
  let order ← orderAt job.OrderIndex
  let idx ← order[pieceIndex]?
  gs.Pieces[idx]?

/-- One iteration of a worker's placement loop on `CurrBoard`: `some none` when the job
is given up (collision), `some (some s)` with the next `CurrBoard` otherwise. -/
def placeStep (gs : GameState) (job : Job) (curr : GameState) (pieceIndex : Nat) :
    Option (Option GameState) :=
  match jobPiece gs job pieceIndex with
  | none => none
  | some piece =>
    match ToGameBoard piece (jobPos job pieceIndex).X (jobPos job pieceIndex).Y with
    | none => none
    | some m =>
      if m &&& curr.Board != 0 then some none
      else
        match PlacePiece curr piece (jobPos job pieceIndex) with
        | none => none
        | some r => some r.newState

/-- A worker's placement loop over the remaining values of `pieceIndex`. -/
def placeAll (gs : GameState) (job : Job) : List Nat → GameState → Option (Option GameState)
  | [], curr => some (some curr)
  | k :: ks, curr =>
    match placeStep gs job curr k with
    | none => none
    | some none => some none
    | some (some next) => placeAll gs job ks next

/-- The private state a worker starts a job from: the pieces are a fresh slice of
`len(gs.Pieces)` nil pieces. -/
def startState (gs : GameState) : GameState :=
  { Board := gs.Board, Pieces := List.replicate gs.Pieces.length [], Score := gs.Score }

/-- What a worker does with one job: `some none` when the job is invalid, `some (some j)`
with the scored job appended to `ValidJobs` otherwise. The pointer test `CurrBoard == gs`
never holds, `CurrBoard` being freshly allocated. -/
def evalJob (gs : GameState) (job : Job) : Option (Option Job) :=
  match placeAll gs job [0, 1, 2] (startState gs) with
  | none => none
  | some none => some none
  | some (some final) => some (some { job with Score := (Penalize final).Score })

/-- The slice `ValidJobs` when the workers finish the jobs in the order of the list: a
worker appends its job, scored, when all three placements went through. A job's result
depends on `gs` and on the job alone. -/
def collect (gs : GameState) : List Job → Option (List Job)
  | [] => some []
  | job :: jobs =>
    match evalJob gs job with
    | none => none
    | some none => collect gs jobs
    | some (some scored) => (collect gs jobs).map (fun rest => scored :: rest)

/-- The initial value of `bestJob`. -/
def placeholder : Job :=
  { OrderIndex := -1, FirstPos := { X := 0, Y := 0 }, SecondPos := { X := 0, Y := 0 },
    ThirdPos := { X := 0, Y := 0 }, Score := -1000000 }

/-- One iteration of the selection loop. -/
def selectStep (bestJob job : Job) : Job :=
  if job.Score > -1000000 then
    if job.Score > bestJob.Score then job else bestJob
  else bestJob

/-- The value of `bestJob` after the selection loop over `ValidJobs`. -/
def selectBest (validJobs : List Job) : Job :=
  validJobs.foldl selectStep placeholder

/-- The three moves built from `bestJob`. -/
def reconstruct (gs : GameState) (bestJob : Job) : Option (List Move) := do
  let pieceOrder ← orderAt bestJob.OrderIndex
  let i0 ← pieceOrder[0]?
  let i1 ← pieceOrder[1]?
  let i2 ← pieceOrder[2]?
  let p0 ← gs.Pieces[i0]?
  let p1 ← gs.Pieces[i1]?
  let p2 ← gs.Pieces[i2]?
  pure [{ Piece := p0, PieceIndex := i0, To := bestJob.FirstPos },
        { Piece := p1, PieceIndex := i1, To := bestJob.SecondPos },
        { Piece := p2, PieceIndex := i2, To := bestJob.ThirdPos }]

/-- The part of `FindBestMove` after the workers have finished, on the slice `ValidJobs`. -/
def selectMoves (gs : GameState) (validJobs : List Job) : Option (Option (List Move)) :=
  if validJobs.length = 0 then some none
  else (reconstruct gs (selectBest validJobs)).map some

/-- `GameState.FindBestMove` when the workers finish the jobs in the order `schedule Jobs`,
a rearrangement of the queue `Jobs`: `none` is a run-time panic, `some none` the result
`nil`, `some (some moves)` a move list. -/
def FindBestMoveIn (schedule : List Job → List Job) (gs : GameState) :
    Option (Option (List Move)) :=
  match enumerate gs with
  | none => none
  | some jobs =>
    match collect gs (schedule jobs) with
    | none => none
    | some validJobs => selectMoves gs validJobs

/-- `GameState.FindBestMove`, the worker pool run as one sequential pass over `Jobs`:
`none` is a run-time panic, `some none` the result `nil`, `some (some moves)` a move list. -/
def FindBestMove (gs : GameState) : Option (Option (List Move)) :=
  match enumerate gs with
  | none => none
  | some jobs =>
    match collect gs jobs with
    | none => none
    | some validJobs => selectMoves gs validJobs

/-! ## Notions of the specification -/

/-- Whether cell `p` lies on the line `index` of `removingPieces` (rows 0..7, columns 8..15). -/
def onLine (index p : Nat) : Bool :=
  if index < 8 then p / 8 == index else p % 8 == index - 8

/-- Row `y` is full: all 8 of its bits are set. -/
def rowIsFull (board : Nat) (y : Nat) : Prop :=
  ∀ x, x < 8 → board.testBit (y * 8 + x) = true

/-- Column `x` is full: all 8 of its bits are set. -/
def colIsFull (board : Nat) (x : Nat) : Prop :=
  ∀ y, y < 8 → board.testBit (y * 8 + x) = true

instance (board y : Nat) : Decidable (rowIsFull board y) := by
  unfold rowIsFull; infer_instance

instance (board x : Nat) : Decidable (colIsFull board x) := by
  unfold colIsFull; infer_instance

/-- The number of full lines of a board: full rows plus full columns. -/
def fullLineCount (board : Nat) : Nat :=
  ((List.range 8).filter fun y => decide (rowIsFull board y)).length
    + ((List.range 8).filter fun x => decide (colIsFull board x)).length

/-- The bonus `50 * 1 + 50 * 2 + ... + 50 * m` of `m` lines cleared in one placement. -/
def lineBonus (m : Nat) : Int :=
  ((List.range m).map fun (k : Nat) => 50 * ((k : Int) + 1)).sum

/-- The four orthogonal directions. -/
inductive Direction where
  | up
  | down
  | left
  | right
deriving DecidableEq, Fintype

/-- The column offset of a direction. -/
def Direction.dx : Direction → Int
  | .up => 0
  | .down => 0
  | .left => -1
  | .right => 1

/-- The row offset of a direction. -/
def Direction.dy : Direction → Int
  | .up => -1
  | .down => 1
  | .left => 0
  | .right => 0

/-- Cell `(x, y)` lies on the 8x8 board. -/
def inBounds (x y : Int) : Prop := 0 ≤ x ∧ x < 8 ∧ 0 ≤ y ∧ y < 8

instance (x y : Int) : Decidable (inBounds x y) := by
  unfold inBounds; infer_instance

/-- Cell `(x, y)` is occupied: bit `y * 8 + x` of the board is set. -/
def occupied (board : Nat) (x y : Int) : Prop := board.testBit (y * 8 + x).toNat = true

instance (board : Nat) (x y : Int) : Decidable (occupied board x y) := by
  unfold occupied; infer_instance

/-- An empty cell all of whose in-bounds orthogonal neighbours are occupied. -/
def isolatedEmpty (board : Nat) (c : Fin 8 × Fin 8) : Prop :=
  ¬ occupied board c.1.val c.2.val ∧
    ∀ d : Direction, inBounds (c.1.val + d.dx) (c.2.val + d.dy) →
      occupied board (c.1.val + d.dx) (c.2.val + d.dy)

instance (board : Nat) (c : Fin 8 × Fin 8) : Decidable (isolatedEmpty board c) := by
  unfold isolatedEmpty; infer_instance

/-- An occupied cell all of whose in-bounds orthogonal neighbours are empty. -/
def isolatedFull (board : Nat) (c : Fin 8 × Fin 8) : Prop :=
  occupied board c.1.val c.2.val ∧
    ∀ d : Direction, inBounds (c.1.val + d.dx) (c.2.val + d.dy) →
      ¬ occupied board (c.1.val + d.dx) (c.2.val + d.dy)

instance (board : Nat) (c : Fin 8 × Fin 8) : Decidable (isolatedFull board c) := by
  unfold isolatedFull; infer_instance

/-- A pair (occupied cell, direction) whose neighbour in that direction is out of bounds
or empty: one unit of perimeter. -/
def exposed (board : Nat) (cd : (Fin 8 × Fin 8) × Direction) : Prop :=
  occupied board cd.1.1.val cd.1.2.val ∧
    (¬ inBounds (cd.1.1.val + cd.2.dx) (cd.1.2.val + cd.2.dy) ∨
      ¬ occupied board (cd.1.1.val + cd.2.dx) (cd.1.2.val + cd.2.dy))

instance (board : Nat) (cd : (Fin 8 × Fin 8) × Direction) : Decidable (exposed board cd) := by
  unfold exposed; infer_instance

/-- The penalty of a board in the words of the specification: 5 per isolated empty cell,
10 per isolated occupied cell and 1 per unit of perimeter. Cells are pairs `(x, y)`. -/
def penalty (board : Nat) : Int :=
  5 * ((Finset.univ.filter (isolatedEmpty board)).card : Int)
    + 10 * ((Finset.univ.filter (isolatedFull board)).card : Int)
    + ((Finset.univ.filter (exposed board)).card : Int)

/-- Cell `(i, j)` of a piece (row `i`, column `j`) is filled. -/
def filled (p : List (List Bool)) (i j : Nat) : Bool := ((p[i]?.getD [])[j]?).getD false

/-- A piece is left-packed: in each row the true cells form a prefix of the row. -/
def leftPacked (p : List (List Bool)) : Prop :=
  ∀ i j k, k ≤ j → filled p i j = true → filled p i k = true

/-- The number of set bits of a `uint64`. -/
def popCount (m : Nat) : Nat :=
  ((Finset.range 64).filter fun q => m.testBit q = true).card

/-- A bound on the length of the rows of a piece. -/
def maxLen (p : List (List Bool)) : Nat :=
  p.foldr (fun row m => max row.length m) 0

/-- The set of the filled cells `(i, j)` of a piece. -/
def filledCells (p : List (List Bool)) : Finset (Nat × Nat) :=
  ((Finset.range p.length) ×ˢ (Finset.range (maxLen p))).filter
    fun c => filled p c.1 c.2 = true

/-- A piece the Go runtime can hold: at most `maxSlice` rows of at most `maxSlice` cells. -/
def isPiece (p : Piece) : Prop := p.length ≤ maxSlice ∧ ∀ row ∈ p, row.length ≤ maxSlice

instance (p : Piece) : Decidable (isPiece p) := by
  unfold isPiece; infer_instance

/-- The bounding box of a piece, anchored at `pos`, fits on the board: `0 <= x <= 8 - w`
and `0 <= y <= 8 - h` with `(w, h)` the bounds of the piece. -/
def fits (bounds : Nat × Nat) (pos : Postion) : Prop :=
  0 ≤ pos.X ∧ pos.X ≤ 8 - (bounds.1 : Int) ∧ 0 ≤ pos.Y ∧ pos.Y ≤ 8 - (bounds.2 : Int)

instance (bounds : Nat × Nat) (pos : Postion) : Decidable (fits bounds pos) := by
  unfold fits; infer_instance

/-! ## The worker on a store of objects

`FindBestMove` and `PlacePiece` work through pointers to `GameState` objects. The store
lists the objects by address: address 0 is the receiver `gs` of `FindBestMove`, every
allocation appends an object. A worker reads the object at address 0 and writes objects
it has allocated itself, so the jobs are run one after the other, in the order in which
they are finished; what a job does on a store that holds objects of other workers is
covered by `evalJobAt` on an arbitrary store. -/

/-- The `GameState` objects by address. -/
abbrev Store := List GameState

/-- `PlacePiece` called through the pointer `recv`: the receiver object is updated in
place, the returned state is a new object and the result is its address (`none` for the
return `nil` with an error). The outer `Option` is `none` on a panic. -/
def PlacePieceAt (store : Store) (recv : Nat) (piece : Piece) (pos : Postion) :
    Option (Store × Option Nat) :=
  match store[recv]? with
  | none => none
  | some gs =>
    match PlacePiece gs piece pos with
    | none => none
    | some r =>
      match r.newState with
      | none => some (store.set recv r.receiver, none)
      | some ns => some (store.set recv r.receiver ++ [ns], some store.length)

/-- One iteration of a worker's placement loop, `curr` the address held by `CurrBoard`:
the piece is read from the object at address 0, a collision seen by the worker writes the
score `-1000000000000` into `CurrBoard`. -/
def placeStepAt (store : Store) (job : Job) (curr : Nat) (pieceIndex : Nat) :
    Option (Store × Option Nat) :=
  match store[0]? with
  | none => none
  | some gs =>
    match jobPiece gs job pieceIndex with
    | none => none
    | some piece =>
      match store[curr]? with
      | none => none
      | some currBoard =>
        match ToGameBoard piece (jobPos job pieceIndex).X (jobPos job pieceIndex).Y with
        | none => none
        | some m =>
          if m &&& currBoard.Board != 0 then
            some (store.set curr { currBoard with Score := -1000000000000 }, none)
          else PlacePieceAt store curr piece (jobPos job pieceIndex)

/-- A worker's placement loop on the store. -/
def placeAllAt (job : Job) : List Nat → Store → Nat → Option (Store × Option Nat)
  | [], store, curr => some (store, some curr)
  | k :: ks, store, curr =>
    match placeStepAt store job curr k with
    | none => none
    | some (store1, none) => some (store1, none)
    | some (store1, some next) => placeAllAt job ks store1 next

/-- What a worker does with one job on the store: `CurrBoard` is a new object copied from
the object at address 0; the test `CurrBoard == gs` compares addresses; `Penalize` updates
the final object in place. -/
def evalJobAt (store : Store) (job : Job) : Option (Store × Option Job) :=
  match store[0]? with
  | none => none
  | some gs =>
    match placeAllAt job [0, 1, 2] (store ++ [startState gs]) store.length with
    | none => none
    | some (store1, none) => some (store1, none)
    | some (store1, some final) =>
      if final = 0 then some (store1, none)
      else
        match store1[final]? with
        | none => none
        | some finalState =>
          some (store1.set final (Penalize finalState),
            some { job with Score := (Penalize finalState).Score })

/-- The jobs finished in the order of the list, on the store, each starting from the store
the previous one left: the final store and `ValidJobs`. -/
def collectAt : Store → List Job → Option (Store × List Job)
  | store, [] => some (store, [])
  | store, job :: jobs =>
    match evalJobAt store job with
    | none => none
    | some (store1, none) => collectAt store1 jobs
    | some (store1, some scored) =>
      (collectAt store1 jobs).map (fun r => (r.1, scored :: r.2))

/-- `FindBestMove` on the store that holds the receiver `gs` at address 0, the workers
finishing the jobs in the order `schedule Jobs`: the final store and the result. -/
def FindBestMoveAt (schedule : List Job → List Job) (gs : GameState) :
    Option (Store × Option (List Move)) :=
  match enumerate gs with
  | none => none
  | some jobs =>
    match collectAt [gs] (schedule jobs) with
    | none => none
    | some (store, validJobs) =>
      match store[0]? with
      | none => none
      | some gs1 => (selectMoves gs1 validJobs).map (fun r => (store, r))

/-! ## Auxiliary notions and example inputs -/

/-- A board coordinate met in the enumeration: between 0 and 8. -/
def coord (z : Int) : Prop := 0 ≤ z ∧ z ≤ 8

/-- The shape of the jobs built by the enumeration: an order index in 0..5 and
coordinates between 0 and 8. -/
def enumerated (job : Job) : Prop :=
  0 ≤ job.OrderIndex ∧ job.OrderIndex < 6 ∧
    coord job.FirstPos.X ∧ coord job.FirstPos.Y ∧
    coord job.SecondPos.X ∧ coord job.SecondPos.Y ∧
    coord job.ThirdPos.X ∧ coord job.ThirdPos.Y

/-- An example piece: the square of 8 rows of 8 true cells. -/
def fullBlock : Piece := List.replicate 8 (List.replicate 8 true)

/-- An example state: the empty board with three `fullBlock` pieces and a given score. -/
def blockState (score : Int) : GameState :=
  { Board := 0, Pieces := [fullBlock, fullBlock, fullBlock], Score := score }

/-- The moves of the first job of `blockState`: the pieces 0, 1, 2 in turn at `(0, 0)`. -/
def blockMoves : List Move :=
  [{ Piece := fullBlock, PieceIndex := 0, To := { X := 0, Y := 0 } },
   { Piece := fullBlock, PieceIndex := 1, To := { X := 0, Y := 0 } },
   { Piece := fullBlock, PieceIndex := 2, To := { X := 0, Y := 0 } }]

/-- The moves of the last job of `blockState`: the pieces 2, 1, 0 in turn at `(0, 0)`. -/
def blockMovesRev : List Move :=
  [{ Piece := fullBlock, PieceIndex := 2, To := { X := 0, Y := 0 } },
   { Piece := fullBlock, PieceIndex := 1, To := { X := 0, Y := 0 } },
   { Piece := fullBlock, PieceIndex := 0, To := { X := 0, Y := 0 } }]

/-- An example state: cells 0..6 of row 0 occupied, three single-cell pieces, score 0. -/
def lineState : GameState :=
  { Board := 0x7F, Pieces := [[[true]], [[true]], [[true]]], Score := 0 }

/-- An example job on `lineState`: piece 0 completes row 0 at `(7, 0)`, then pieces 1 and 2
go to `(0, 0)` and `(1, 0)`. -/
def lineJob : Job :=
  { OrderIndex := 0, FirstPos := { X := 7, Y := 0 }, SecondPos := { X := 0, Y := 0 },
    ThirdPos := { X := 1, Y := 0 }, Score := 0 }

/-- An example state: `lineState` with the smallest `int` as its score. -/
def lowState : GameState :=
  { Board := 0x7F, Pieces := [[[true]], [[true]], [[true]]], Score := -9223372036854775808 }

/-- An example state: the fully occupied board with three copies of the piece
`[[false, true]]`, whose only filled cell is in column 1. -/
def shiftedState : GameState :=
  { Board := 2 ^ 64 - 1, Pieces := [[[false, true]], [[false, true]], [[false, true]]],
    Score := 0 }

/-- An example job on `shiftedState`: every piece at `(7, 7)`. -/
def shiftedJob : Job :=
  { OrderIndex := 0, FirstPos := { X := 7, Y := 7 }, SecondPos := { X := 7, Y := 7 },
    ThirdPos := { X := 7, Y := 7 }, Score := 0 }

/-- An example state: the empty board with three single-cell pieces and score 0. -/
def singleState : GameState :=
  { Board := 0, Pieces := [[[true]], [[true]], [[true]]], Score := 0 }

/-- The index `y * 8 + x` of the cell a position points at. -/
def cellIndex (pos : Postion) : Nat := (pos.Y * 8 + pos.X).toNat

/-- An example job on `singleState`: the cells `(0, 0)`, `(1, 0)`, `(2, 0)` in turn. -/
def singleJob : Job :=
  { OrderIndex := 0, FirstPos := { X := 0, Y := 0 }, SecondPos := { X := 1, Y := 0 },
    ThirdPos := { X := 2, Y := 0 }, Score := 0 }

/-- The six jobs of `blockState`: one per order row, every piece at `(0, 0)`. -/
def blockJobs : List Job :=
  (List.range 6).map fun (o : Nat) =>
    { OrderIndex := (o : Int), FirstPos := { X := 0, Y := 0 }, SecondPos := { X := 0, Y := 0 },
      ThirdPos := { X := 0, Y := 0 }, Score := 0 }

/-- The store after `FindBestMove` on `blockState 0`: the starting state at address 0,
then for each of the six jobs the three intermediate objects, each holding the bonus 6800
of the 16 lines its placement cleared, and the final object of score 0. -/
def blockStore : Store :=
  blockState 0 ::
    (List.replicate 6
      [{ Board := 0, Pieces := [[], [], []], Score := 6800 },
       { Board := 0, Pieces := [[], [], []], Score := 6800 },
       { Board := 0, Pieces := [[], [], []], Score := 6800 },
       { Board := 0, Pieces := [[], [], []], Score := 0 }]).flatten

/-- An example grid: 8 rows of 8 cells, only the cell `(x, y) = (0, 0)` occupied. -/
def cornerGrid : List (List Bool) :=
  (true :: List.replicate 7 false) :: List.replicate 7 (List.replicate 8 false)

/-! ## Wrap-around arithmetic -/

theorem wrapInt_eq (z : Int) :
    wrapInt z = (z + 9223372036854775808) % 18446744073709551616 - 9223372036854775808 := by
  unfold wrapInt
  norm_num

theorem isInt_iff (z : Int) :
    isInt z ↔ -9223372036854775808 ≤ z ∧ z < 9223372036854775808 := by
  unfold isInt
  norm_num

theorem isInt_wrapInt (z : Int) : isInt (wrapInt z) := by
  rw [isInt_iff, wrapInt_eq]
  omega

theorem wrapInt_of_isInt {z : Int} (h : isInt z) : wrapInt z = z := by
  rw [isInt_iff] at h
  rw [wrapInt_eq]
  omega

theorem wrapInt_wrapInt (z : Int) : wrapInt (wrapInt z) = wrapInt z :=
  wrapInt_of_isInt (isInt_wrapInt z)

theorem wrapInt_add_left (a b : Int) : wrapInt (wrapInt a + b) = wrapInt (a + b) := by
  simp only [wrapInt_eq]
  omega

theorem wrapInt_sub_left (a b : Int) : wrapInt (wrapInt a - b) = wrapInt (a - b) := by
  simp only [wrapInt_eq]
  omega

/-- The position computed by `ToGameBoard` is the exact position, wrapped once. -/
theorem cellPos_eq (x y : Int) (i j : Nat) :
    cellPos x y i j = wrapInt ((y + (i : Int)) * 8 + (x + (j : Int))) := by
  unfold cellPos addInt mulInt
  simp only [wrapInt_eq]
  omega

/-- Where the exact position is an `int`, it is the position computed. -/
theorem cellPos_of_isInt (x y : Int) (i j : Nat)
    (h : isInt ((y + (i : Int)) * 8 + (x + (j : Int)))) :
    cellPos x y i j = (y + (i : Int)) * 8 + (x + (j : Int)) := by
  rw [cellPos_eq, wrapInt_of_isInt h]

theorem mem_ranged {α : Type} (s : List α) (i : Nat) (a : α) :
    (i, a) ∈ ranged s ↔ i < maxSlice ∧ s[i]? = some a := by
  unfold ranged
  rw [List.mk_mem_enum_iff_getElem?, List.getElem?_take]
  by_cases h : i < maxSlice
  · simp [h]
  · simp [h]

/-! ## Bit-level lemmas and the removal loop -/

theorem oneShl_eq {p : Nat} (h : p < 64) : oneShl p = 2 ^ p := by
  unfold oneShl
  rw [Nat.one_shiftLeft]
  exact Nat.mod_eq_of_lt (Nat.pow_lt_pow_right (by decide) h)

theorem and_two_pow_eq (b p : Nat) : b &&& 2 ^ p = if b.testBit p then 2 ^ p else 0 := by
  apply Nat.eq_of_testBit_eq
  intro i
  rw [Nat.testBit_and, Nat.testBit_two_pow]
  by_cases hpi : p = i
  · subst hpi
    by_cases hb : b.testBit p = true
    · simp [hb, Nat.testBit_two_pow_self]
    · simp [hb]
  · by_cases hb : b.testBit p = true
    · simp [hb, hpi, Nat.testBit_two_pow]
    · simp [hb, hpi]

theorem and_oneShl_eq_zero {b p : Nat} (h : p < 64) :
    (b &&& oneShl p == 0) = !b.testBit p := by
  rw [oneShl_eq h, and_two_pow_eq]
  by_cases hb : b.testBit p = true
  · have : (2 : Nat) ^ p ≠ 0 := by positivity
    simp [hb, this]
  · simp [hb]

theorem and_oneShl_ne_zero {b p : Nat} (h : p < 64) :
    (b &&& oneShl p != 0) = b.testBit p := by
  have := and_oneShl_eq_zero (b := b) h
  cases hb : b.testBit p <;> simp_all [bne]

theorem testBit_andNot_oneShl {a p : Nat} (i : Nat) (h : p < 64) (hi : i < 64) :
    (andNot a (oneShl p)).testBit i = (a.testBit i && decide (p ≠ i)) := by
  unfold andNot
  rw [oneShl_eq h, Nat.testBit_and, Nat.testBit_xor, Nat.testBit_two_pow,
    Nat.testBit_two_pow_sub_one]
  by_cases hpi : p = i <;> simp [hpi, hi]

/-- Clearing a list of cells one after the other. -/
theorem testBit_foldl_andNot (f : Nat → Nat) (l : List Nat) (b i : Nat) (hi : i < 64)
    (hf : ∀ a ∈ l, f a < 64) :
    (l.foldl (fun b a => andNot b (oneShl (f a))) b).testBit i
      = (b.testBit i && l.all (fun a => decide (f a ≠ i))) := by
  induction l generalizing b with
  | nil => simp
  | cons a t ih =>
    rw [List.foldl_cons, ih _ (fun c hc => hf c (List.mem_cons_of_mem _ hc)),
      testBit_andNot_oneShl i (hf a (List.mem_cons_self _ _)) hi, List.all_cons, Bool.and_assoc]

theorem fullRow_iff (b : Nat) {y : Nat} (hy : y < 8) :
    fullRow b y = true ↔ ∀ x, x < 8 → b.testBit (y * 8 + x) = true := by
  unfold fullRow
  rw [List.all_eq_true]
  constructor
  · intro h x hx
    have := h x (List.mem_range.mpr hx)
    rwa [and_oneShl_ne_zero (by omega)] at this
  · intro h x hx
    have hx8 := List.mem_range.mp hx
    rw [and_oneShl_ne_zero (by omega)]
    exact h x hx8

theorem fullCol_iff (b : Nat) {x : Nat} (hx : x < 8) :
    fullCol b x = true ↔ ∀ y, y < 8 → b.testBit (y * 8 + x) = true := by
  unfold fullCol
  rw [List.all_eq_true]
  constructor
  · intro h y hy
    have := h y (List.mem_range.mpr hy)
    rwa [and_oneShl_ne_zero (by omega)] at this
  · intro h y hy
    have hy8 := List.mem_range.mp hy
    rw [and_oneShl_ne_zero (by omega)]
    exact h y hy8

theorem foldl_append_if {α β : Type} (p : α → Bool) (f : α → β) (l : List α) (init : List β) :
    l.foldl (fun acc a => if p a then acc ++ [f a] else acc) init
      = init ++ (l.filter p).map f := by
  induction l generalizing init with
  | nil => simp
  | cons a t ih =>
    rw [List.foldl_cons, ih]
    by_cases hp : p a = true
    · simp [hp, List.filter_cons]
    · simp [hp, List.filter_cons]

theorem removingPieces_eq (b : Nat) :
    removingPieces b
      = (List.range 8).filter (fullRow b) ++ ((List.range 8).filter (fullCol b)).map (· + 8) := by
  unfold removingPieces
  rw [foldl_append_if (fullCol b) (· + 8), foldl_append_if (fullRow b) (fun y => y)]
  simp


theorem testBit_clearRow (b : Nat) {index p : Nat} (hidx : index < 8) (hp : p < 64) :
    (clearRow b index).testBit p = (b.testBit p && !(p / 8 == index)) := by
  unfold clearRow
  rw [testBit_foldl_andNot (fun x => index * 8 + x) _ _ _ hp
    (fun a ha => by have := List.mem_range.mp ha; show index * 8 + a < 64; omega)]
  congr 1
  by_cases h : p / 8 = index
  · have hmem : p % 8 ∈ List.range 8 := List.mem_range.mpr (Nat.mod_lt _ (by decide))
    have : (List.range 8).all (fun a => decide (index * 8 + a ≠ p)) = false := by
      rw [List.all_eq_false]
      exact ⟨p % 8, hmem, by simp; omega⟩
    rw [this]
    simp [h]
  · have : (List.range 8).all (fun a => decide (index * 8 + a ≠ p)) = true := by
      rw [List.all_eq_true]
      intro a ha
      have := List.mem_range.mp ha
      simp
      omega
    rw [this]
    simp [h]

theorem testBit_clearCol (b : Nat) {colIndex p : Nat} (hidx : colIndex < 8) (hp : p < 64) :
    (clearCol b colIndex).testBit p = (b.testBit p && !(p % 8 == colIndex)) := by
  unfold clearCol
  rw [testBit_foldl_andNot (fun y => y * 8 + colIndex) _ _ _ hp
    (fun a ha => by have := List.mem_range.mp ha; show a * 8 + colIndex < 64; omega)]
  congr 1
  by_cases h : p % 8 = colIndex
  · have hmem : p / 8 ∈ List.range 8 := List.mem_range.mpr (by omega)
    have : (List.range 8).all (fun a => decide (a * 8 + colIndex ≠ p)) = false := by
      rw [List.all_eq_false]
      exact ⟨p / 8, hmem, by simp; omega⟩
    rw [this]
    simp [h]
  · have : (List.range 8).all (fun a => decide (a * 8 + colIndex ≠ p)) = true := by
      rw [List.all_eq_true]
      intro a ha
      have := List.mem_range.mp ha
      simp
      omega
    rw [this]
    simp [h]

theorem testBit_removeStep (acc : Removal) {index p : Nat} (hidx : index < 16) (hp : p < 64) :
    (removeStep acc index).Board.testBit p = (acc.Board.testBit p && !onLine index p) := by
  unfold removeStep onLine
  by_cases h : index < 8
  · simp only [h, if_true]
    exact testBit_clearRow _ h hp
  · simp only [h, if_false]
    exact testBit_clearCol _ (by omega) hp

theorem testBit_foldl_removeStep (l : List Nat) (acc : Removal) {p : Nat} (hp : p < 64)
    (hl : ∀ a ∈ l, a < 16) :
    (l.foldl removeStep acc).Board.testBit p
      = (acc.Board.testBit p && l.all (fun index => !onLine index p)) := by
  induction l generalizing acc with
  | nil => simp
  | cons a t ih =>
    rw [List.foldl_cons, ih _ (fun c hc => hl c (List.mem_cons_of_mem _ hc)),
      testBit_removeStep acc (hl a (List.mem_cons_self _ _)) hp, List.all_cons, Bool.and_assoc]

/-- The score and the counter after the removal loop over `l`: every step adds with
wrap-around, so the steps add up to one wrapped sum. -/
theorem score_foldl_removeStep (l : List Nat) (acc : Removal) :
    (l.foldl removeStep acc).Score
        = (if l = [] then acc.Score
            else wrapInt (acc.Score + 50 * (l.length * acc.rowsRemoved)
              + 25 * (l.length * (l.length - 1 : Int))))
      ∧ (l.foldl removeStep acc).rowsRemoved = acc.rowsRemoved + l.length := by
  induction l generalizing acc with
  | nil => simp
  | cons a t ih =>
    rw [List.foldl_cons]
    obtain ⟨h1, h2⟩ := ih (removeStep acc a)
    have hs : (removeStep acc a).Score = wrapInt (acc.Score + 50 * acc.rowsRemoved) := by
      unfold removeStep; split <;> rfl
    have hr : (removeStep acc a).rowsRemoved = acc.rowsRemoved + 1 := by
      unfold removeStep; split <;> rfl
    rw [h1, h2, hs, hr, if_neg (List.cons_ne_nil a t)]
    constructor
    · by_cases ht : t = []
      · subst ht
        simp
      · rw [if_neg ht, add_assoc (wrapInt _), wrapInt_add_left]
        congr 1
        simp only [List.length_cons]
        push_cast
        ring
    · simp only [List.length_cons]; push_cast; ring

theorem removingPieces_lt (b : Nat) : ∀ a ∈ removingPieces b, a < 16 := by
  intro a ha
  rw [removingPieces_eq] at ha
  simp only [List.mem_append, List.mem_filter, List.mem_range, List.mem_map] at ha
  rcases ha with ⟨h, _⟩ | ⟨c, ⟨h, _⟩, rfl⟩ <;> omega

theorem all_removingPieces (b : Nat) {p : Nat} (hp : p < 64) :
    (removingPieces b).all (fun index => !onLine index p)
      = (!fullRow b (p / 8) && !fullCol b (p % 8)) := by
  rw [removingPieces_eq, List.all_append]
  congr 1
  · by_cases h : fullRow b (p / 8) = true
    · rw [h]
      simp only [Bool.not_true]
      rw [List.all_eq_false]
      refine ⟨p / 8, ?_, ?_⟩
      · simp only [List.mem_filter, List.mem_range]
        exact ⟨by omega, h⟩
      · have : p / 8 < 8 := by omega
        simp [onLine, this]
    · simp only [h, Bool.not_false]
      rw [List.all_eq_true]
      intro a ha
      simp only [List.mem_filter, List.mem_range] at ha
      have : p / 8 ≠ a := by
        intro heq
        rw [heq] at h
        exact h ha.2
      simp [onLine, ha.1, this]
  · by_cases h : fullCol b (p % 8) = true
    · rw [h]
      simp only [Bool.not_true]
      rw [List.all_eq_false]
      refine ⟨p % 8 + 8, ?_, ?_⟩
      · simp only [List.mem_map, List.mem_filter, List.mem_range]
        exact ⟨p % 8, ⟨by omega, h⟩, rfl⟩
      · simp [onLine]
    · simp only [h, Bool.not_false]
      rw [List.all_eq_true]
      intro a ha
      simp only [List.mem_map, List.mem_filter, List.mem_range] at ha
      obtain ⟨c, ⟨hc, hfc⟩, rfl⟩ := ha
      have : p % 8 ≠ c := by
        intro heq
        rw [heq] at h
        exact h hfc
      simp [onLine, this]

/-- The board left by the removal loop, bit by bit. -/
theorem testBit_removeLines (score : Int) (b : Nat) {p : Nat} (hp : p < 64) :
    (removeLines score b).Board.testBit p
      = (b.testBit p && !fullRow b (p / 8) && !fullCol b (p % 8)) := by
  unfold removeLines
  rw [testBit_foldl_removeStep _ _ hp (removingPieces_lt b), all_removingPieces b hp,
    Bool.and_assoc]

theorem foldlM_option_inv {α β : Type} (f : β → α → Option β) (P : β → Prop)
    (hf : ∀ b a b', P b → f b a = some b' → P b') (l : List α) :
    ∀ b r, P b → l.foldlM f b = some r → P r := by
  induction l with
  | nil =>
    intro b r hb h
    simp only [List.foldlM_nil] at h
    cases h
    exact hb
  | cons a t ih =>
    intro b r hb h
    rw [List.foldlM_cons] at h
    cases hfa : f b a with
    | none => rw [hfa] at h; cases h
    | some b' =>
      rw [hfa] at h
      exact ih b' r (hf b a b' hb hfa) h

theorem oneShl_lt (p : Nat) : oneShl p < 2 ^ 64 := Nat.mod_lt _ (by positivity)

theorem toRow_lt (x y : Int) (i : Nat) (row : List Bool) (b r : Nat) (hb : b < 2 ^ 64)
    (h : toRow x y i row b = some r) : r < 2 ^ 64 := by
  unfold toRow at h
  refine foldlM_option_inv _ (fun n => n < 2 ^ 64) ?_ _ b r hb h
  intro acc c acc' hacc hstep
  by_cases hc : c.2 = true
  · simp only [hc, if_true] at hstep
    unfold shl1 at hstep
    split at hstep
    · cases hstep
    · simp only [Option.map_some', Option.some.injEq] at hstep
      rw [← hstep]
      exact Nat.or_lt_two_pow hacc (oneShl_lt _)
  · simp only [hc] at hstep
    cases hstep
    exact hacc

/-- A mask returned by `ToGameBoard` is a `uint64`. -/
theorem ToGameBoard_lt (p : Piece) (x y : Int) (M : Nat) (h : ToGameBoard p x y = some M) :
    M < 2 ^ 64 := by
  unfold ToGameBoard at h
  refine foldlM_option_inv _ (fun n => n < 2 ^ 64) ?_ _ 0 M (by positivity) h
  intro acc r acc' hacc hstep
  exact toRow_lt x y r.1 r.2 acc acc' hacc hstep

theorem andNot_le (a m : Nat) : andNot a m ≤ a := Nat.and_le_left

theorem removeStep_board_le (acc : Removal) (index : Nat) :
    (removeStep acc index).Board ≤ acc.Board := by
  have key : ∀ (f : Nat → Nat) (l : List Nat) (b : Nat),
      l.foldl (fun b a => andNot b (oneShl (f a))) b ≤ b := by
    intro f l
    induction l with
    | nil => intro b; exact Nat.le_refl _
    | cons a t ih =>
      intro b
      rw [List.foldl_cons]
      exact Nat.le_trans (ih _) (andNot_le _ _)
  unfold removeStep
  split
  · exact key _ _ _
  · exact key _ _ _

theorem foldl_removeStep_board_le (l : List Nat) (acc : Removal) :
    (l.foldl removeStep acc).Board ≤ acc.Board := by
  induction l generalizing acc with
  | nil => exact Nat.le_refl _
  | cons a t ih =>
    rw [List.foldl_cons]
    exact Nat.le_trans (ih _) (removeStep_board_le acc a)

theorem removeLines_board_lt (score : Int) (b : Nat) (hb : b < 2 ^ 64) :
    (removeLines score b).Board < 2 ^ 64 :=
  Nat.lt_of_le_of_lt (foldl_removeStep_board_le _ _) hb

theorem PlacePiece_of_free (gs : GameState) (piece : Piece) (pos : Postion) (M : Nat)
    (hM : ToGameBoard piece pos.X pos.Y = some M) (hfree : gs.Board &&& M = 0) :
    PlacePiece gs piece pos
      = some { receiver := { gs with Score := (removeLines gs.Score (gs.Board ||| M)).Score }
               newState := some { Board := (removeLines gs.Score (gs.Board ||| M)).Board
                                  Pieces := gs.Pieces, Score := gs.Score } } := by
  unfold PlacePiece
  rw [hM]
  simp [hfree]

theorem PlacePiece_of_collision (gs : GameState) (piece : Piece) (pos : Postion) (M : Nat)
    (hM : ToGameBoard piece pos.X pos.Y = some M) (hcol : gs.Board &&& M ≠ 0) :
    PlacePiece gs piece pos = some { receiver := gs, newState := none } := by
  unfold PlacePiece
  rw [hM]
  simp [hcol]

theorem fullRow_eq_decide (b : Nat) {y : Nat} (hy : y < 8) :
    fullRow b y = decide (rowIsFull b y) := by
  rw [Bool.eq_iff_iff, fullRow_iff b hy, decide_eq_true_iff]
  rfl

theorem fullCol_eq_decide (b : Nat) {x : Nat} (hx : x < 8) :
    fullCol b x = decide (colIsFull b x) := by
  rw [Bool.eq_iff_iff, fullCol_iff b hx, decide_eq_true_iff]
  rfl

/-- The board left by the removal loop, cell by cell. -/
theorem removeLines_cell (score : Int) (b : Nat) {x y : Nat} (hx : x < 8) (hy : y < 8) :
    (removeLines score b).Board.testBit (y * 8 + x) = true
      ↔ b.testBit (y * 8 + x) = true ∧ ¬ rowIsFull b y ∧ ¬ colIsFull b x := by
  have hp : y * 8 + x < 64 := by omega
  have hdiv : (y * 8 + x) / 8 = y := by omega
  have hmod : (y * 8 + x) % 8 = x := by omega
  rw [testBit_removeLines score b hp, hdiv, hmod, fullRow_eq_decide b hy,
    fullCol_eq_decide b hx]
  simp [and_assoc]

/-- What a successful call of `PlacePiece` computed. -/
theorem PlacePiece_success_inv (gs : GameState) (piece : Piece) (pos : Postion)
    (r : PlaceResult) (ns : GameState) (h : PlacePiece gs piece pos = some r)
    (hns : r.newState = some ns) :
    ∃ M, ToGameBoard piece pos.X pos.Y = some M ∧ gs.Board &&& M = 0 ∧
      ns.Board = (removeLines gs.Score (gs.Board ||| M)).Board ∧
      ns.Pieces = gs.Pieces ∧ ns.Score = gs.Score ∧
      r.receiver = { gs with Score := (removeLines gs.Score (gs.Board ||| M)).Score } := by
  cases hM : ToGameBoard piece pos.X pos.Y with
  | none =>
    unfold PlacePiece at h
    rw [hM] at h
    cases h
  | some M =>
    by_cases hcol : gs.Board &&& M = 0
    · rw [PlacePiece_of_free gs piece pos M hM hcol] at h
      cases h
      cases hns
      exact ⟨M, rfl, hcol, rfl, rfl, rfl, rfl⟩
    · rw [PlacePiece_of_collision gs piece pos M hM hcol] at h
      cases h
      cases hns

theorem removingPieces_length (b : Nat) : (removingPieces b).length = fullLineCount b := by
  rw [removingPieces_eq, List.length_append, List.length_map]
  unfold fullLineCount
  congr 2
  · apply List.filter_congr
    intro y hy
    exact fullRow_eq_decide b (List.mem_range.mp hy)
  · apply List.filter_congr
    intro x hx
    exact fullCol_eq_decide b (List.mem_range.mp hx)

theorem lineBonus_eq (m : Nat) : lineBonus m = 25 * (m : Int) * ((m : Int) + 1) := by
  unfold lineBonus
  induction m with
  | zero => simp
  | succ n ih =>
    rw [List.range_succ, List.map_append, List.sum_append, ih]
    simp only [List.map_cons, List.map_nil, List.sum_cons, List.sum_nil]
    push_cast
    ring

/-- The score left by the removal loop: untouched without a full line, else the wrapped
sum of the score and the bonus. -/
theorem removeLines_score (score : Int) (b : Nat) :
    (removeLines score b).Score
      = if fullLineCount b = 0 then score
        else wrapInt (score + lineBonus (fullLineCount b)) := by
  unfold removeLines
  rw [(score_foldl_removeStep _ _).1]
  have hnil : removingPieces b = [] ↔ fullLineCount b = 0 := by
    rw [← removingPieces_length, List.length_eq_zero]
  by_cases h0 : fullLineCount b = 0
  · rw [if_pos (hnil.mpr h0), if_pos h0]
  · rw [if_neg (fun h => h0 (hnil.mp h)), if_neg h0, removingPieces_length, lineBonus_eq]
    congr 1
    simp only
    ring

/-- The score left by the removal loop when the score it starts from is an `int`. -/
theorem removeLines_score_wrap (score : Int) (b : Nat) (hs : isInt score) :
    (removeLines score b).Score = wrapInt (score + lineBonus (fullLineCount b)) := by
  rw [removeLines_score]
  by_cases h0 : fullLineCount b = 0
  · rw [if_pos h0, h0]
    have : lineBonus 0 = 0 := rfl
    rw [this, add_zero, wrapInt_of_isInt hs]
  · rw [if_neg h0]

/-- The board left by the removal loop does not depend on the score. -/
theorem removeLines_board_score (s t : Int) (b : Nat) :
    (removeLines s b).Board = (removeLines t b).Board := by
  unfold removeLines
  have key : ∀ (l : List Nat) (a c : Removal), a.Board = c.Board →
      (l.foldl removeStep a).Board = (l.foldl removeStep c).Board := by
    intro l
    induction l with
    | nil => intro a c h; exact h
    | cons i t ih =>
      intro a c h
      rw [List.foldl_cons, List.foldl_cons]
      apply ih
      unfold removeStep
      split <;> simp [h]
  exact key _ _ _ rfl

theorem fullLineCount_le (b : Nat) : fullLineCount b ≤ 16 := by
  unfold fullLineCount
  have h1 := List.length_filter_le (fun y => decide (rowIsFull b y)) (List.range 8)
  have h2 := List.length_filter_le (fun x => decide (colIsFull b x)) (List.range 8)
  simp only [List.length_range] at h1 h2
  omega

/-- The bonus of one placement lies between 0 and 6800. -/
theorem lineBonus_bounds (b : Nat) :
    0 ≤ lineBonus (fullLineCount b) ∧ lineBonus (fullLineCount b) ≤ 6800 := by
  have h := fullLineCount_le b
  rw [lineBonus_eq]
  have h0 : (0 : Int) ≤ (fullLineCount b : Int) := Int.ofNat_nonneg _
  have h16 : (fullLineCount b : Int) ≤ 16 := by omega
  constructor
  · positivity
  · nlinarith

theorem testBit_oneShl (n q : Nat) :
    (oneShl n).testBit q = (decide (q < 64) && decide (n = q)) := by
  unfold oneShl
  rw [Nat.one_shiftLeft, Nat.testBit_mod_two_pow, Nat.testBit_two_pow]

theorem filled_iff (p : List (List Bool)) (i j : Nat) :
    filled p i j = true ↔ ∃ row, (i, row) ∈ p.enum ∧ (j, true) ∈ row.enum := by
  unfold filled
  simp only [List.mk_mem_enum_iff_getElem?]
  cases hp : p[i]? with
  | none => simp
  | some row =>
    cases hr : row[j]? with
    | none => simp [hr]
    | some c => simp [hr]

theorem maxSlice_eq : maxSlice = 281474976710656 := by
  unfold maxSlice
  norm_num

theorem filled_iff_ranged (p : List (List Bool)) (i j : Nat) :
    (i < maxSlice ∧ j < maxSlice ∧ filled p i j = true)
      ↔ ∃ row, (i, row) ∈ ranged p ∧ (j, true) ∈ ranged row := by
  simp only [mem_ranged]
  rw [filled_iff]
  simp only [List.mk_mem_enum_iff_getElem?]
  constructor
  · rintro ⟨h1, h2, row, h3, h4⟩
    exact ⟨row, ⟨h1, h3⟩, h2, h4⟩
  · rintro ⟨row, ⟨h1, h3⟩, h2, h4⟩
    exact ⟨h1, h2, row, h3, h4⟩

/-- The cells set by the loop of `ToGameBoard` over one row, as bits of the result, when
no filled cell has a negative position. -/
theorem foldlM_cells (g : Nat → Int) (l : List (Nat × Bool))
    (hg : ∀ c ∈ l, c.2 = true → 0 ≤ g c.1) (b : Nat) :
    ∃ r, l.foldlM (fun acc c => if c.2 then (shl1 (g c.1)).map (fun m => acc ||| m)
        else some acc) b = some r ∧
      ∀ q, r.testBit q = true ↔
        b.testBit q = true ∨ (q < 64 ∧ ∃ c ∈ l, c.2 = true ∧ g c.1 = (q : Int)) := by
  induction l generalizing b with
  | nil =>
    refine ⟨b, rfl, ?_⟩
    intro q
    simp
  | cons a t ih =>
    rw [List.foldlM_cons]
    by_cases hc : a.2 = true
    · have ha := hg a (List.mem_cons_self _ _) hc
      have hs : shl1 (g a.1) = some (oneShl (g a.1).toNat) := by
        unfold shl1
        rw [if_neg (by omega)]
      simp only [hc, if_true, hs, Option.map_some', Option.some_bind, Option.bind_eq_bind]
      obtain ⟨r, hr, hbits⟩ := ih (fun c hc => hg c (List.mem_cons_of_mem _ hc))
        (b ||| oneShl (g a.1).toNat)
      refine ⟨r, hr, ?_⟩
      intro q
      rw [hbits q, Nat.testBit_or, Bool.or_eq_true, testBit_oneShl]
      simp only [Bool.and_eq_true, decide_eq_true_eq, List.mem_cons, exists_eq_or_imp]
      have hq : (g a.1).toNat = q ↔ g a.1 = (q : Int) := by omega
      rw [hq]
      constructor
      · rintro ((h | ⟨h1, h2⟩) | ⟨h1, h2⟩)
        · exact Or.inl h
        · exact Or.inr ⟨h1, Or.inl ⟨hc, h2⟩⟩
        · exact Or.inr ⟨h1, Or.inr h2⟩
      · rintro (h | ⟨h1, (⟨_, h2⟩ | h2)⟩)
        · exact Or.inl (Or.inl h)
        · exact Or.inl (Or.inr ⟨h1, h2⟩)
        · exact Or.inr ⟨h1, h2⟩
    · simp only [hc, Option.some_bind, Option.bind_eq_bind]
      obtain ⟨r, hr, hbits⟩ := ih (fun c hc => hg c (List.mem_cons_of_mem _ hc)) b
      refine ⟨r, hr, ?_⟩
      intro q
      rw [hbits q]
      simp only [List.mem_cons, exists_eq_or_imp, hc, Bool.false_eq_true, false_and, false_or]

/-- A filled cell with a negative position makes the loop over its row panic. -/
theorem foldlM_cells_none (g : Nat → Int) (l : List (Nat × Bool))
    (hg : ∃ c ∈ l, c.2 = true ∧ g c.1 < 0) (b : Nat) :
    l.foldlM (fun acc c => if c.2 then (shl1 (g c.1)).map (fun m => acc ||| m)
        else some acc) b = none := by
  induction l generalizing b with
  | nil =>
    obtain ⟨c, hc, _⟩ := hg
    cases hc
  | cons a t ih =>
    rw [List.foldlM_cons]
    by_cases hneg : a.2 = true ∧ g a.1 < 0
    · have hs : shl1 (g a.1) = none := by
        unfold shl1
        rw [if_pos hneg.2]
      simp [hneg.1, hs]
    · have ht : ∃ c ∈ t, c.2 = true ∧ g c.1 < 0 := by
        obtain ⟨c, hc, hc2⟩ := hg
        rcases List.mem_cons.mp hc with rfl | hc
        · exact absurd hc2 hneg
        · exact ⟨c, hc, hc2⟩
      cases hstep : (if a.2 = true then (shl1 (g a.1)).map (fun m => b ||| m) else some b) with
      | none => rfl
      | some b' => exact ih ht b'

theorem toRow_bits (x y : Int) (i : Nat) (row : List Bool) (b : Nat)
    (h : ∀ j, j < maxSlice → row[j]? = some true → 0 ≤ cellPos x y i j) :
    ∃ r, toRow x y i row b = some r ∧
      ∀ q, r.testBit q = true ↔
        b.testBit q = true ∨
          (q < 64 ∧ ∃ j, (j, true) ∈ ranged row ∧ cellPos x y i j = (q : Int)) := by
  obtain ⟨r, hr, hbits⟩ := foldlM_cells (fun j => cellPos x y i j) (ranged row)
    (fun c hc hc2 => by
      have hmem : (c.1, true) ∈ ranged row := by
        rw [← hc2]
        exact hc
      rw [mem_ranged] at hmem
      exact h c.1 hmem.1 hmem.2) b
  refine ⟨r, hr, ?_⟩
  intro q
  rw [hbits q]
  constructor
  · rintro (h | ⟨h1, c, hc, hc2, hq⟩)
    · exact Or.inl h
    · refine Or.inr ⟨h1, c.1, ?_, hq⟩
      rw [← hc2]
      exact hc
  · rintro (h | ⟨h1, j, hj, hq⟩)
    · exact Or.inl h
    · exact Or.inr ⟨h1, (j, true), hj, rfl, hq⟩

theorem toRow_none (x y : Int) (i : Nat) (row : List Bool) (b : Nat) (j : Nat)
    (hj : (j, true) ∈ ranged row) (hneg : cellPos x y i j < 0) :
    toRow x y i row b = none :=
  foldlM_cells_none (fun j => cellPos x y i j) (ranged row) ⟨(j, true), hj, rfl, hneg⟩ b

theorem foldlM_rows (x y : Int) (l : List (Nat × List Bool)) (b : Nat)
    (h : ∀ r ∈ l, ∀ j, (j, true) ∈ ranged r.2 → 0 ≤ cellPos x y r.1 j) :
    ∃ M, l.foldlM (fun acc r => toRow x y r.1 r.2 acc) b = some M ∧
      ∀ q, M.testBit q = true ↔
        b.testBit q = true ∨
          (q < 64 ∧ ∃ r ∈ l, ∃ j, (j, true) ∈ ranged r.2 ∧ cellPos x y r.1 j = (q : Int)) := by
  induction l generalizing b with
  | nil =>
    refine ⟨b, rfl, ?_⟩
    intro q
    simp
  | cons a t ih =>
    obtain ⟨r, hr, hrbits⟩ := toRow_bits x y a.1 a.2 b
      (fun j hj hrow => h a (List.mem_cons_self _ _) j ((mem_ranged _ _ _).mpr ⟨hj, hrow⟩))
    obtain ⟨M, hM, hMbits⟩ := ih r (fun r hr => h r (List.mem_cons_of_mem _ hr))
    refine ⟨M, ?_, ?_⟩
    · rw [List.foldlM_cons, hr]
      exact hM
    · intro q
      rw [hMbits q, hrbits q]
      simp only [List.mem_cons, exists_eq_or_imp]
      constructor
      · rintro ((h | ⟨h1, h2⟩) | ⟨h1, h2⟩)
        · exact Or.inl h
        · exact Or.inr ⟨h1, Or.inl h2⟩
        · exact Or.inr ⟨h1, Or.inr h2⟩
      · rintro (h | ⟨h1, (h2 | h2)⟩)
        · exact Or.inl (Or.inl h)
        · exact Or.inl (Or.inr ⟨h1, h2⟩)
        · exact Or.inr ⟨h1, h2⟩

theorem foldlM_rows_none (x y : Int) (l : List (Nat × List Bool)) (b : Nat)
    (h : ∃ r ∈ l, ∃ j, (j, true) ∈ ranged r.2 ∧ cellPos x y r.1 j < 0) :
    l.foldlM (fun acc r => toRow x y r.1 r.2 acc) b = none := by
  induction l generalizing b with
  | nil =>
    obtain ⟨r, hr, _⟩ := h
    cases hr
  | cons a t ih =>
    rw [List.foldlM_cons]
    cases hstep : toRow x y a.1 a.2 b with
    | none => rfl
    | some b' =>
      have ht : ∃ r ∈ t, ∃ j, (j, true) ∈ ranged r.2 ∧ cellPos x y r.1 j < 0 := by
        obtain ⟨r, hr, j, hj, hneg⟩ := h
        rcases List.mem_cons.mp hr with rfl | hr
        · rw [toRow_none x y r.1 r.2 b j hj hneg] at hstep
          cases hstep
        · exact ⟨r, hr, j, hj, hneg⟩
      exact ih b' ht

/-- The mask of `ToGameBoard` when no filled cell has a negative position, bit by bit:
bit `q` is set iff `q < 64` and `q` is the position of a filled cell. -/
theorem ToGameBoard_some (p : Piece) (x y : Int)
    (h : ∀ i j, i < maxSlice → j < maxSlice → filled p i j = true → 0 ≤ cellPos x y i j) :
    ∃ M, ToGameBoard p x y = some M ∧
      ∀ q, M.testBit q = true ↔
        q < 64 ∧ ∃ i j, i < maxSlice ∧ j < maxSlice ∧ filled p i j = true ∧
          cellPos x y i j = (q : Int) := by
  obtain ⟨M, hM, hbits⟩ := foldlM_rows x y (ranged p) 0
    (fun r hr j hj => by
      obtain ⟨hi, hj', hf⟩ := (filled_iff_ranged p r.1 j).mpr ⟨r.2, hr, hj⟩
      exact h r.1 j hi hj' hf)
  refine ⟨M, hM, ?_⟩
  intro q
  rw [hbits q]
  simp only [Nat.zero_testBit, Bool.false_eq_true, false_or]
  constructor
  · rintro ⟨h1, r, hr, j, hj, hq⟩
    obtain ⟨hi, hj', hf⟩ := (filled_iff_ranged p r.1 j).mpr ⟨r.2, hr, hj⟩
    exact ⟨h1, r.1, j, hi, hj', hf, hq⟩
  · rintro ⟨h1, i, j, hi, hj, hf, hq⟩
    obtain ⟨row, hrow, hj'⟩ := (filled_iff_ranged p i j).mp ⟨hi, hj, hf⟩
    exact ⟨h1, (i, row), hrow, j, hj', hq⟩

/-- A filled cell with a negative position makes `ToGameBoard` panic. -/
theorem ToGameBoard_none (p : Piece) (x y : Int) (i j : Nat) (hi : i < maxSlice)
    (hj : j < maxSlice) (hf : filled p i j = true) (hneg : cellPos x y i j < 0) :
    ToGameBoard p x y = none := by
  obtain ⟨row, hrow, hj'⟩ := (filled_iff_ranged p i j).mp ⟨hi, hj, hf⟩
  exact foldlM_rows_none x y (ranged p) 0 ⟨(i, row), hrow, j, hj', hneg⟩

/-- For coordinates from 0 to 8 the position of a cell is computed without overflow. -/
theorem cellPos_coord (x y : Int) (hx : 0 ≤ x) (hx8 : x ≤ 8) (hy : 0 ≤ y) (hy8 : y ≤ 8)
    (i j : Nat) (hi : i < maxSlice) (hj : j < maxSlice) :
    cellPos x y i j = (y + (i : Int)) * 8 + (x + (j : Int)) := by
  apply cellPos_of_isInt
  rw [isInt_iff]
  rw [maxSlice_eq] at hi hj
  omega

/-- The mask of `ToGameBoard` at coordinates from 0 to 8, bit by bit: bit `q` is set iff
`q < 64` and `q` is the position `(y + i) * 8 + (x + j)` of a filled cell `(i, j)`. -/
theorem ToGameBoard_bits (p : Piece) (x y : Int) (hx : 0 ≤ x) (hx8 : x ≤ 8) (hy : 0 ≤ y)
    (hy8 : y ≤ 8) :
    ∃ M, ToGameBoard p x y = some M ∧
      ∀ q, M.testBit q = true ↔
        q < 64 ∧ ∃ i j, filled p i j = true ∧
          ((y + (i : Int)) * 8 + (x + (j : Int))).toNat = q := by
  obtain ⟨M, hM, hbits⟩ := ToGameBoard_some p x y (fun i j hi hj _ => by
    rw [cellPos_coord x y hx hx8 hy hy8 i j hi hj]
    have h1 : (0 : Int) ≤ (i : Int) := Int.ofNat_nonneg _
    have h2 : (0 : Int) ≤ (j : Int) := Int.ofNat_nonneg _
    omega)
  refine ⟨M, hM, ?_⟩
  intro q
  rw [hbits q]
  constructor
  · rintro ⟨h1, i, j, hi, hj, hf, hq⟩
    rw [cellPos_coord x y hx hx8 hy hy8 i j hi hj] at hq
    exact ⟨h1, i, j, hf, by omega⟩
  · rintro ⟨h1, i, j, hf, hq⟩
    have hi : i < maxSlice := by
      rw [maxSlice_eq]
      omega
    have hj : j < maxSlice := by
      rw [maxSlice_eq]
      omega
    refine ⟨h1, i, j, hi, hj, hf, ?_⟩
    rw [cellPos_coord x y hx hx8 hy hy8 i j hi hj]
    omega

/-- At coordinates from 0 to 8 no shift count is negative: `ToGameBoard` returns. -/
theorem ToGameBoard_isSome (p : Piece) (x y : Int) (hx : 0 ≤ x) (hx8 : x ≤ 8) (hy : 0 ≤ y)
    (hy8 : y ≤ 8) : ∃ M, ToGameBoard p x y = some M := by
  obtain ⟨M, hM, _⟩ := ToGameBoard_bits p x y hx hx8 hy hy8
  exact ⟨M, hM⟩

theorem filled_lt (p : List (List Bool)) (i j : Nat) (h : filled p i j = true) :
    i < p.length ∧ ∃ row, p[i]? = some row ∧ j < row.length ∧ row[j]? = some true := by
  obtain ⟨row, hrow, hj⟩ := (filled_iff p i j).mp h
  rw [List.mk_mem_enum_iff_getElem?] at hrow hj
  obtain ⟨hi, _⟩ := List.getElem?_eq_some.mp hrow
  obtain ⟨hjl, _⟩ := List.getElem?_eq_some.mp hj
  exact ⟨hi, row, hrow, hjl, hj⟩

theorem length_le_maxLen (p : List (List Bool)) (i : Nat) (row : List Bool)
    (h : p[i]? = some row) : row.length ≤ maxLen p := by
  induction p generalizing i with
  | nil => simp at h
  | cons a t ih =>
    unfold maxLen
    rw [List.foldr_cons]
    cases i with
    | zero =>
      simp only [List.getElem?_cons_zero, Option.some.injEq] at h
      rw [h]
      exact Nat.le_max_left _ _
    | succ k =>
      simp only [List.getElem?_cons_succ] at h
      exact Nat.le_trans (ih k h) (Nat.le_max_right _ _)

/-- The set `filledCells` holds exactly the filled cells. -/
theorem mem_filledCells (p : List (List Bool)) (c : Nat × Nat) :
    c ∈ filledCells p ↔ filled p c.1 c.2 = true := by
  unfold filledCells
  rw [Finset.mem_filter, Finset.mem_product, Finset.mem_range, Finset.mem_range]
  constructor
  · exact fun h => h.2
  · intro h
    obtain ⟨hi, row, hrow, hj, _⟩ := filled_lt p c.1 c.2 h
    exact ⟨⟨hi, Nat.lt_of_lt_of_le hj (length_le_maxLen p c.1 row hrow)⟩, h⟩

theorem rowWidth_eq_count (row : List Bool) : rowWidth row = row.count true := by
  unfold rowWidth
  have key : ∀ (l : List Bool) (n : Nat),
      l.foldl (fun width cell => if cell then width + 1 else width) n = n + l.count true := by
    intro l
    induction l with
    | nil => intro n; simp
    | cons a t ih =>
      intro n
      rw [List.foldl_cons, ih]
      cases a
      · simp
      · simp
        omega
  rw [key]
  simp

theorem prefix_le_count (row : List Bool) (j : Nat)
    (h : ∀ k, k ≤ j → row[k]? = some true) : j + 1 ≤ row.count true := by
  induction j generalizing row with
  | zero =>
    cases row with
    | nil => have := h 0 (Nat.le_refl _); simp at this
    | cons a t =>
      have := h 0 (Nat.le_refl _)
      simp only [List.getElem?_cons_zero, Option.some.injEq] at this
      rw [this]
      simp
  | succ n ih =>
    cases row with
    | nil => have := h 0 (Nat.zero_le _); simp at this
    | cons a t =>
      have h0 := h 0 (Nat.zero_le _)
      simp only [List.getElem?_cons_zero, Option.some.injEq] at h0
      have ht : ∀ k, k ≤ n → t[k]? = some true := by
        intro k hk
        have := h (k + 1) (by omega)
        simpa using this
      have := ih t ht
      rw [h0]
      simp
      omega

theorem rowWidth_le_getBounds (p : List (List Bool)) (i : Nat) (row : List Bool)
    (h : p[i]? = some row) : rowWidth row ≤ (getBounds p).1 := by
  unfold getBounds
  simp only
  have key : ∀ (l : List (List Bool)) (init : Nat),
      init ≤ l.foldl (fun maxWidth row => if rowWidth row > maxWidth then rowWidth row
          else maxWidth) init ∧
      ∀ r ∈ l, rowWidth r ≤ l.foldl (fun maxWidth row => if rowWidth row > maxWidth
          then rowWidth row else maxWidth) init := by
    intro l
    induction l with
    | nil => intro init; simp
    | cons a t ih =>
      intro init
      rw [List.foldl_cons]
      obtain ⟨h1, h2⟩ := ih (if rowWidth a > init then rowWidth a else init)
      constructor
      · refine Nat.le_trans ?_ h1
        split <;> omega
      · intro r hr
        rcases List.mem_cons.mp hr with rfl | hr
        · refine Nat.le_trans ?_ h1
          split <;> omega
        · exact h2 r hr
  exact (key p 0).2 row (List.getElem?_mem h)

/-- A filled cell of a left-packed piece lies inside the box of `getBounds`. -/
theorem filled_in_bounds (p : List (List Bool)) (hp : leftPacked p) (i j : Nat)
    (h : filled p i j = true) : j < (getBounds p).1 ∧ i < (getBounds p).2 := by
  obtain ⟨hi, row, hrow, _, _⟩ := filled_lt p i j h
  refine ⟨?_, hi⟩
  have hpre : ∀ k, k ≤ j → row[k]? = some true := by
    intro k hk
    obtain ⟨_, row2, hrow2, _, hk2⟩ := filled_lt p i k (hp i j k hk h)
    rw [hrow] at hrow2
    cases hrow2
    exact hk2
  have h1 := prefix_le_count row j hpre
  have h2 := rowWidth_le_getBounds p i row hrow
  rw [rowWidth_eq_count] at h2
  omega

/-- The cells of a piece the runtime can hold are all read by `ToGameBoard`. -/
theorem filled_lt_maxSlice (p : Piece) (hp : isPiece p) (i j : Nat)
    (h : filled p i j = true) : i < maxSlice ∧ j < maxSlice := by
  obtain ⟨hi, row, hrow, hj, _⟩ := filled_lt p i j h
  have hmem : row ∈ p := List.getElem?_mem hrow
  have h1 := hp.1
  have h2 := hp.2 row hmem
  omega

/-- The cells set by the loop of `FromBoard` over one row, as bits of the result. -/
theorem foldl_cells (g : Nat → Nat) (l : List (Nat × Bool)) (b : Nat) :
    ∀ q, (l.foldl (fun acc c => if c.2 then acc ||| oneShl (g c.1) else acc) b).testBit q = true
      ↔ b.testBit q = true ∨ (q < 64 ∧ ∃ c ∈ l, c.2 = true ∧ g c.1 = q) := by
  induction l generalizing b with
  | nil => intro q; simp
  | cons a t ih =>
    intro q
    rw [List.foldl_cons, ih]
    by_cases hc : a.2 = true
    · simp only [hc, if_true, Nat.testBit_or, Bool.or_eq_true, testBit_oneShl,
        Bool.and_eq_true, decide_eq_true_eq, List.mem_cons, exists_eq_or_imp, true_and]
      constructor
      · rintro ((h | ⟨h1, h2⟩) | ⟨h1, h2⟩)
        · exact Or.inl h
        · exact Or.inr ⟨h1, Or.inl h2⟩
        · exact Or.inr ⟨h1, Or.inr h2⟩
      · rintro (h | ⟨h1, (h2 | h2)⟩)
        · exact Or.inl (Or.inl h)
        · exact Or.inl (Or.inr ⟨h1, h2⟩)
        · exact Or.inr ⟨h1, h2⟩
    · simp only [hc, Bool.false_eq_true, if_false, List.mem_cons, exists_eq_or_imp,
        false_and, false_or]

theorem fromRow_bits (y : Nat) (row : List Bool) (b : Nat) (q : Nat) :
    (fromRow y row b).testBit q = true
      ↔ b.testBit q = true ∨ (q < 64 ∧ ∃ x, (x, true) ∈ row.enum ∧ y * 8 + x = q) := by
  unfold fromRow
  rw [foldl_cells (fun x => y * 8 + x)]
  constructor
  · rintro (h | ⟨h1, c, hc, hc2, hq⟩)
    · exact Or.inl h
    · refine Or.inr ⟨h1, c.1, ?_, hq⟩
      rw [← hc2]
      exact hc
  · rintro (h | ⟨h1, x, hx, hq⟩)
    · exact Or.inl h
    · exact Or.inr ⟨h1, (x, true), hx, rfl, hq⟩

theorem foldl_fromRow_bits (l : List (Nat × List Bool)) (b : Nat) (q : Nat) :
    (l.foldl (fun acc r => fromRow r.1 r.2 acc) b).testBit q = true
      ↔ b.testBit q = true ∨
        (q < 64 ∧ ∃ r ∈ l, ∃ x, (x, true) ∈ r.2.enum ∧ r.1 * 8 + x = q) := by
  induction l generalizing b with
  | nil => simp
  | cons a t ih =>
    rw [List.foldl_cons, ih, fromRow_bits]
    simp only [List.mem_cons, exists_eq_or_imp]
    constructor
    · rintro ((h | ⟨h1, h2⟩) | ⟨h1, h2⟩)
      · exact Or.inl h
      · exact Or.inr ⟨h1, Or.inl h2⟩
      · exact Or.inr ⟨h1, Or.inr h2⟩
    · rintro (h | ⟨h1, (h2 | h2)⟩)
      · exact Or.inl (Or.inl h)
      · exact Or.inl (Or.inr ⟨h1, h2⟩)
      · exact Or.inr ⟨h1, h2⟩

/-- The board written by `FromBoard`, bit by bit. -/
theorem FromBoard_bits (gs : GameState) (b : List (List Bool)) (q : Nat) :
    (FromBoard gs b).Board.testBit q = true
      ↔ q < 64 ∧ ∃ y x, filled b y x = true ∧ y * 8 + x = q := by
  unfold FromBoard
  simp only
  rw [foldl_fromRow_bits]
  simp only [Nat.zero_testBit, Bool.false_eq_true, false_or]
  constructor
  · rintro ⟨h1, r, hr, x, hx, hq⟩
    exact ⟨h1, r.1, x, (filled_iff b r.1 x).mpr ⟨r.2, hr, hx⟩, hq⟩
  · rintro ⟨h1, y, x, hf, hq⟩
    obtain ⟨row, hrow, hx⟩ := (filled_iff b y x).mp hf
    exact ⟨h1, (y, row), hrow, x, hx, hq⟩

/-! ## The heuristic evaluator -/

theorem outOfBounds_eq (nx ny : Int) : outOfBounds nx ny = !decide (inBounds nx ny) := by
  unfold outOfBounds inBounds
  rw [Bool.eq_iff_iff]
  simp only [Bool.or_eq_true, decide_eq_true_eq, Bool.not_eq_true', decide_eq_false_iff_not]
  omega

theorem toNat_lt_of_inBounds {nx ny : Int} (h : inBounds nx ny) : (ny * 8 + nx).toNat < 64 := by
  unfold inBounds at h
  omega

/-- The test of one neighbour in the empty-block branch of `Penalize`. -/
theorem neighbour_full_iff (b : Nat) (nx ny : Int) :
    (if outOfBounds nx ny then true else b &&& oneShl (ny * 8 + nx).toNat != 0) = true
      ↔ (inBounds nx ny → occupied b nx ny) := by
  rw [outOfBounds_eq]
  by_cases h : inBounds nx ny
  · simp only [h, decide_True, Bool.not_true, Bool.false_eq_true, if_false, true_implies]
    rw [and_oneShl_ne_zero (toNat_lt_of_inBounds h)]
    rfl
  · simp [h]

/-- The test of one neighbour in the full-block branch of `Penalize`. -/
theorem neighbour_empty_iff (b : Nat) (nx ny : Int) :
    (if outOfBounds nx ny then true else b &&& oneShl (ny * 8 + nx).toNat == 0) = true
      ↔ (inBounds nx ny → ¬ occupied b nx ny) := by
  rw [outOfBounds_eq]
  by_cases h : inBounds nx ny
  · simp only [h, decide_True, Bool.not_true, Bool.false_eq_true, if_false, true_implies]
    rw [and_oneShl_eq_zero (toNat_lt_of_inBounds h)]
    unfold occupied
    simp
  · simp [h]

theorem forall_direction (P : Direction → Prop) :
    (∀ d, P d) ↔ P .up ∧ P .left ∧ P .right ∧ P .down := by
  constructor
  · intro h
    exact ⟨h _, h _, h _, h _⟩
  · rintro ⟨h1, h2, h3, h4⟩ d
    cases d <;> assumption

theorem fullNeighbors_iff (b x y : Nat) :
    fullNeighbors b x y = true
      ↔ ∀ d : Direction, inBounds ((x : Int) + d.dx) ((y : Int) + d.dy) →
          occupied b ((x : Int) + d.dx) ((y : Int) + d.dy) := by
  rw [forall_direction]
  simp only [Direction.dx, Direction.dy]
  rw [← neighbour_full_iff, ← neighbour_full_iff, ← neighbour_full_iff, ← neighbour_full_iff]
  unfold fullNeighbors offsets
  simp [skipOffset, and_assoc]

theorem emptyNeighbors_iff (b x y : Nat) :
    emptyNeighbors b x y = true
      ↔ ∀ d : Direction, inBounds ((x : Int) + d.dx) ((y : Int) + d.dy) →
          ¬ occupied b ((x : Int) + d.dx) ((y : Int) + d.dy) := by
  rw [forall_direction]
  simp only [Direction.dx, Direction.dy]
  rw [← neighbour_empty_iff, ← neighbour_empty_iff, ← neighbour_empty_iff,
    ← neighbour_empty_iff]
  unfold emptyNeighbors offsets
  simp [skipOffset, and_assoc]

/-- A loop whose steps subtract with wrap-around subtracts the sum, wrapped once. -/
theorem foldl_range_sub (n : Nat) (f : Int → Nat → Int) (g : Fin n → Int)
    (hf : ∀ s (i : Fin n), wrapInt (f s i.val) = wrapInt (s - g i)) (s : Int) :
    wrapInt ((List.range n).foldl f s) = wrapInt (s - ∑ i : Fin n, g i) := by
  induction n generalizing s with
  | zero => simp
  | succ k ih =>
    rw [List.range_succ, List.foldl_append, Fin.sum_univ_castSucc]
    simp only [List.foldl_cons, List.foldl_nil]
    have hlast := hf (List.foldl f s (List.range k)) (Fin.last k)
    rw [Fin.val_last] at hlast
    rw [hlast, ← wrapInt_sub_left,
      ih (fun i => g i.castSucc) (fun s i => hf s i.castSucc), wrapInt_sub_left]
    congr 1
    ring

theorem foldl_range_add (n : Nat) (f : Int → Nat → Int) (g : Fin n → Int)
    (hf : ∀ s (i : Fin n), f s i.val = s + g i) (s : Int) :
    (List.range n).foldl f s = s + ∑ i : Fin n, g i := by
  induction n generalizing s with
  | zero => simp
  | succ k ih =>
    rw [List.range_succ, List.foldl_append, ih (fun i => g i.castSucc) (fun s i => hf s i.castSucc),
      Fin.sum_univ_castSucc]
    simp only [List.foldl_cons, List.foldl_nil]
    have hlast := hf (List.foldl f s (List.range k)) (Fin.last k)
    rw [ih (fun i => g i.castSucc) (fun s i => hf s i.castSucc)] at hlast
    rw [Fin.val_last] at hlast
    rw [hlast]
    ring

theorem occupied_iff_and_ne (b : Nat) (x y : Fin 8) :
    (b &&& oneShl (y.val * 8 + x.val) == 0) = !decide (occupied b x.val y.val) := by
  have hx := x.isLt
  have hy := y.isLt
  rw [and_oneShl_eq_zero (by omega)]
  unfold occupied
  have : ((y.val : Int) * 8 + (x.val : Int)).toNat = y.val * 8 + x.val := by omega
  simp only [this]
  cases b.testBit (y.val * 8 + x.val) <;> simp

theorem fullNeighbors_eq_decide (b x y : Nat) :
    fullNeighbors b x y
      = decide (∀ d : Direction, inBounds ((x : Int) + d.dx) ((y : Int) + d.dy) →
          occupied b ((x : Int) + d.dx) ((y : Int) + d.dy)) := by
  rw [Bool.eq_iff_iff, fullNeighbors_iff, decide_eq_true_iff]

theorem emptyNeighbors_eq_decide (b x y : Nat) :
    emptyNeighbors b x y
      = decide (∀ d : Direction, inBounds ((x : Int) + d.dx) ((y : Int) + d.dy) →
          ¬ occupied b ((x : Int) + d.dx) ((y : Int) + d.dy)) := by
  rw [Bool.eq_iff_iff, emptyNeighbors_iff, decide_eq_true_iff]

/-- What the first cell loop of `Penalize` subtracts at one cell. -/
theorem isolationStep_eq (b : Nat) (x y : Fin 8) (s : Int) :
    wrapInt (isolationStep b y.val s x.val)
      = wrapInt (s - (5 * (if isolatedEmpty b (x, y) then 1 else 0)
              + 10 * (if isolatedFull b (x, y) then 1 else 0))) := by
  unfold isolationStep isolatedEmpty isolatedFull subInt
  rw [occupied_iff_and_ne, fullNeighbors_eq_decide, emptyNeighbors_eq_decide]
  by_cases hocc : occupied b x.val y.val
  · simp only [hocc, decide_True, Bool.not_true, Bool.false_eq_true, if_false, if_true,
      not_true_eq_false,
      false_and, true_and, decide_eq_true_eq]
    split_ifs
    · rw [wrapInt_wrapInt]
      congr 1
    · congr 1
      ring
  · simp only [hocc, decide_False, Bool.not_false, if_true, if_false, not_false_eq_true,
      false_and, true_and, decide_eq_true_eq]
    split_ifs
    · rw [wrapInt_wrapInt]
      congr 1
    · congr 1
      ring

theorem neighbour_exposed (b : Nat) (nx ny : Int) (p : Int) :
    (if outOfBounds nx ny then p + 1
      else if b &&& oneShl (ny * 8 + nx).toNat == 0 then p + 1 else p)
      = p + (if ¬ inBounds nx ny ∨ ¬ occupied b nx ny then 1 else 0) := by
  rw [outOfBounds_eq]
  by_cases h : inBounds nx ny
  · rw [and_oneShl_eq_zero (toNat_lt_of_inBounds h)]
    by_cases ho : occupied b nx ny
    · have hb : b.testBit (ny * 8 + nx).toNat = true := ho
      simp [h, ho, hb]
    · have hb : b.testBit (ny * 8 + nx).toNat = false := by
        unfold occupied at ho
        simpa using ho
      simp [h, ho, hb]
  · simp [h]

theorem sum_direction (g : Direction → Int) :
    ∑ d : Direction, g d = g .up + g .left + g .right + g .down := by
  have : (Finset.univ : Finset Direction) = {.up, .left, .right, .down} := by decide
  rw [this]
  simp [Finset.sum_insert]
  ring

/-- What the offset loops of the perimeter count add at one cell. -/
theorem perimeterCell_eq (b : Nat) (x y : Nat) (p : Int) :
    perimeterCell b x y p
      = p + ∑ d : Direction,
          (if ¬ inBounds ((x : Int) + d.dx) ((y : Int) + d.dy)
              ∨ ¬ occupied b ((x : Int) + d.dx) ((y : Int) + d.dy) then 1 else 0) := by
  rw [sum_direction]
  simp only [Direction.dx, Direction.dy]
  unfold perimeterCell offsets
  simp only [List.foldl_cons, List.foldl_nil, skipOffset]
  simp only [neighbour_exposed]
  simp
  ring

/-- The first pair of loops of `Penalize` as a sum over the cells. -/
theorem isolationPass_eq (b : Nat) (s : Int) :
    wrapInt (isolationPass b s)
      = wrapInt (s - ∑ y : Fin 8, ∑ x : Fin 8,
          (5 * (if isolatedEmpty b (x, y) then 1 else 0)
            + 10 * (if isolatedFull b (x, y) then 1 else 0))) := by
  unfold isolationPass
  apply foldl_range_sub 8
  intro s y
  apply foldl_range_sub 8
  intro s x
  exact isolationStep_eq b x y s

/-- The second pair of loops of `Penalize` as a sum over the cells. -/
theorem perimeter_eq (b : Nat) :
    perimeter b
      = ∑ y : Fin 8, ∑ x : Fin 8, ∑ d : Direction,
          (if exposed b ((x, y), d) then 1 else 0) := by
  unfold perimeter
  rw [foldl_range_add 8 _ (fun y : Fin 8 => ∑ x : Fin 8, ∑ d : Direction,
    (if exposed b ((x, y), d) then 1 else 0))]
  · simp
  · intro s y
    apply foldl_range_add 8
    intro s x
    have htest : (b &&& oneShl (y.val * 8 + x.val) != 0) = decide (occupied b x.val y.val) := by
      have := occupied_iff_and_ne b x y
      simp only [bne, this, Bool.not_not]
    rw [htest, perimeterCell_eq]
    unfold exposed
    by_cases hocc : occupied b x.val y.val
    · simp [hocc]
    · simp [hocc]

/-- The penalty of the specification is what the two pairs of loops count. -/
theorem penalty_eq (b : Nat) :
    penalty b
      = (∑ y : Fin 8, ∑ x : Fin 8,
          (5 * (if isolatedEmpty b (x, y) then 1 else 0)
            + 10 * (if isolatedFull b (x, y) then 1 else 0))) + perimeter b := by
  rw [perimeter_eq]
  unfold penalty
  rw [Finset.natCast_card_filter, Finset.natCast_card_filter, Finset.natCast_card_filter,
    Fintype.sum_prod_type_right, Fintype.sum_prod_type_right,
    Fintype.sum_prod_type, Fintype.sum_prod_type_right]
  simp only [Finset.sum_add_distrib, Finset.mul_sum]

/-- The score left by `Penalize` is the score less the penalty of the specification, in
`int` arithmetic. -/
theorem penalize_amount (b : Nat) (s : Int) :
    subInt (isolationPass b s) (perimeter b) = wrapInt (s - penalty b) := by
  unfold subInt
  rw [← wrapInt_sub_left, isolationPass_eq, wrapInt_sub_left, penalty_eq]
  congr 1
  ring

/-- The penalty of the specification is at least 0 and at most `64 * 10 + 64 * 4`. -/
theorem penalty_bounds (board : Nat) : 0 ≤ penalty board ∧ penalty board ≤ 896 := by
  unfold penalty
  have hA : (Finset.univ.filter (isolatedEmpty board)).card
      ≤ (Finset.univ.filter fun c : Fin 8 × Fin 8 => ¬ occupied board c.1.val c.2.val).card := by
    apply Finset.card_le_card
    intro c hc
    rw [Finset.mem_filter] at hc ⊢
    exact ⟨hc.1, hc.2.1⟩
  have hB : (Finset.univ.filter (isolatedFull board)).card
      ≤ (Finset.univ.filter fun c : Fin 8 × Fin 8 => occupied board c.1.val c.2.val).card := by
    apply Finset.card_le_card
    intro c hc
    rw [Finset.mem_filter] at hc ⊢
    exact ⟨hc.1, hc.2.1⟩
  have hsum := Finset.filter_card_add_filter_neg_card_eq_card
    (s := (Finset.univ : Finset (Fin 8 × Fin 8)))
    (fun c : Fin 8 × Fin 8 => occupied board c.1.val c.2.val)
  have hcells : (Finset.univ : Finset (Fin 8 × Fin 8)).card = 64 := by
    rw [Finset.card_univ, Fintype.card_prod, Fintype.card_fin]
  have hE : (Finset.univ.filter (exposed board)).card
      ≤ (Finset.univ : Finset ((Fin 8 × Fin 8) × Direction)).card := Finset.card_filter_le _ _
  have hdir : Fintype.card Direction = 4 := by decide
  have hpairs : (Finset.univ : Finset ((Fin 8 × Fin 8) × Direction)).card = 256 := by
    rw [Finset.card_univ, Fintype.card_prod, Fintype.card_prod, Fintype.card_fin, hdir]
  rw [hcells] at hsum
  rw [hpairs] at hE
  have h1 : ((Finset.univ.filter (isolatedEmpty board)).card : Int)
      + ((Finset.univ.filter (isolatedFull board)).card : Int) ≤ 64 := by
    have : (Finset.univ.filter (isolatedEmpty board)).card
        + (Finset.univ.filter (isolatedFull board)).card ≤ 64 := by omega
    exact_mod_cast this
  have h2 : ((Finset.univ.filter (exposed board)).card : Int) ≤ 256 := by exact_mod_cast hE
  have h3 : (0 : Int) ≤ ((Finset.univ.filter (isolatedEmpty board)).card : Int) :=
    Int.ofNat_nonneg _
  have h4 : (0 : Int) ≤ ((Finset.univ.filter (isolatedFull board)).card : Int) :=
    Int.ofNat_nonneg _
  have h5 : (0 : Int) ≤ ((Finset.univ.filter (exposed board)).card : Int) :=
    Int.ofNat_nonneg _
  constructor <;> omega

/-- The score `Penalize` leaves, in `int` arithmetic. -/
theorem Penalize_score (gs : GameState) :
    (Penalize gs).Score = wrapInt (gs.Score - penalty gs.Board) :=
  penalize_amount gs.Board gs.Score

/-- The subtraction of a penalty does not wrap when the difference is an `int`. -/
theorem wrapInt_sub_penalty (s : Int) (b : Nat) (hs : isInt s)
    (hlow : -2 ^ 63 ≤ s - penalty b) : wrapInt (s - penalty b) = s - penalty b := by
  apply wrapInt_of_isInt
  have hb := penalty_bounds b
  rw [isInt_iff] at hs ⊢
  norm_num at hlow
  omega

/-- Below the smallest `int` the difference wraps to the top of the range. -/
theorem wrapInt_sub_penalty_low (s : Int) (b : Nat) (hs : isInt s)
    (hlow : s - penalty b < -2 ^ 63) :
    wrapInt (s - penalty b) = s - penalty b + 2 ^ 64 := by
  have hb := penalty_bounds b
  rw [isInt_iff] at hs
  norm_num at hlow
  rw [wrapInt_eq]
  norm_num
  omega

/-- The penalty of the board `3`, two neighbouring cells in a corner: perimeter 6. -/
theorem penalty_three : penalty 3 = 6 := by
  have h := Penalize_score { Board := 3, Pieces := [], Score := 0 }
  have hcode : (Penalize { Board := 3, Pieces := [], Score := 0 }).Score = -6 := by decide
  have hb := penalty_bounds 3
  rw [hcode, wrapInt_eq] at h
  simp only at h
  omega

/-! ## The search -/

theorem selectStep_eq (best job : Job) :
    selectStep best job = if job.Score > -1000000 ∧ job.Score > best.Score then job else best := by
  unfold selectStep
  by_cases h1 : job.Score > -1000000 <;> by_cases h2 : job.Score > best.Score <;> simp [h1, h2]

/-- The selection loop started from `best`: it keeps `best` when no job beats it, and
otherwise ends on the first job of maximal score. -/
theorem foldl_selectStep (l : List Job) (best : Job) (hbest : -1000000 ≤ best.Score) :
    (l.foldl selectStep best = best ∧ ∀ j ∈ l, j.Score ≤ best.Score) ∨
    ∃ (i : Nat) (r : Job), l[i]? = some r ∧ l.foldl selectStep best = r ∧ best.Score < r.Score ∧
      (∀ j ∈ l, j.Score ≤ r.Score) ∧ ∀ (k : Nat) (j : Job), k < i → l[k]? = some j → j.Score < r.Score := by
  induction l generalizing best with
  | nil => left; simp
  | cons a t ih =>
    rw [List.foldl_cons, selectStep_eq]
    by_cases ha : a.Score > best.Score
    · have ha' : a.Score > -1000000 := by omega
      rw [if_pos ⟨ha', ha⟩]
      rcases ih a (by omega) with ⟨hr, hall⟩ | ⟨i, r, hi, hr, hlt, hall, hfirst⟩
      · right
        refine ⟨0, a, by simp, hr, ha, ?_, ?_⟩
        · intro j hj
          rcases List.mem_cons.mp hj with rfl | hj
          · exact Int.le_refl _
          · exact hall j hj
        · intro k j hk
          omega
      · right
        refine ⟨i + 1, r, by simpa using hi, hr, by omega, ?_, ?_⟩
        · intro j hj
          rcases List.mem_cons.mp hj with rfl | hj
          · omega
          · exact hall j hj
        · intro k j hk hkj
          cases k with
          | zero =>
            simp only [List.getElem?_cons_zero, Option.some.injEq] at hkj
            rw [← hkj]
            exact hlt
          | succ k =>
            simp only [List.getElem?_cons_succ] at hkj
            exact hfirst k j (by omega) hkj
    · rw [if_neg (fun h => ha h.2)]
      rcases ih best hbest with ⟨hr, hall⟩ | ⟨i, r, hi, hr, hlt, hall, hfirst⟩
      · left
        refine ⟨hr, ?_⟩
        intro j hj
        rcases List.mem_cons.mp hj with rfl | hj
        · omega
        · exact hall j hj
      · right
        refine ⟨i + 1, r, by simpa using hi, hr, hlt, ?_, ?_⟩
        · intro j hj
          rcases List.mem_cons.mp hj with rfl | hj
          · omega
          · exact hall j hj
        · intro k j hk hkj
          cases k with
          | zero =>
            simp only [List.getElem?_cons_zero, Option.some.injEq] at hkj
            rw [← hkj]
            omega
          | succ k =>
            simp only [List.getElem?_cons_succ] at hkj
            exact hfirst k j (by omega) hkj

/-- The selection loop over `ValidJobs`: the placeholder survives when no score exceeds
the sentinel, and otherwise the first job of maximal score is selected. -/
theorem selectBest_cases (valid : List Job) :
    (selectBest valid = placeholder ∧ ∀ j ∈ valid, j.Score ≤ -1000000) ∨
    ∃ (i : Nat) (r : Job), valid[i]? = some r ∧ selectBest valid = r ∧ -1000000 < r.Score ∧
      (∀ j ∈ valid, j.Score ≤ r.Score) ∧
      ∀ (k : Nat) (j : Job), k < i → valid[k]? = some j → j.Score < r.Score := by
  unfold selectBest
  exact foldl_selectStep valid placeholder (by decide)

theorem enumerate_of_three (gs : GameState) (a b c : Piece) (h : gs.Pieces = [a, b, c]) :
    enumerate gs = some
      (jobsFor 0 (getBounds a) (getBounds b) (getBounds c)
        ++ jobsFor 1 (getBounds a) (getBounds c) (getBounds b)
        ++ jobsFor 2 (getBounds b) (getBounds a) (getBounds c)
        ++ jobsFor 3 (getBounds b) (getBounds c) (getBounds a)
        ++ jobsFor 4 (getBounds c) (getBounds a) (getBounds b)
        ++ jobsFor 5 (getBounds c) (getBounds b) (getBounds a)) := by
  unfold enumerate
  rw [h]
  rfl

theorem mem_positions_coord (bounds : Nat × Nat) (p : Postion) (h : p ∈ positions bounds) :
    coord p.X ∧ coord p.Y := by
  unfold positions at h
  simp only [List.mem_flatMap, List.mem_map, List.mem_range] at h
  obtain ⟨x, hx, y, hy, rfl⟩ := h
  unfold coord
  refine ⟨⟨Int.ofNat_nonneg _, ?_⟩, ⟨Int.ofNat_nonneg _, ?_⟩⟩
  · show (x : Int) ≤ 8
    omega
  · show (y : Int) ≤ 8
    omega

theorem mem_jobsFor (i : Nat) (b1 b2 b3 : Nat × Nat) (job : Job) (hi : i < 6)
    (h : job ∈ jobsFor i b1 b2 b3) : enumerated job ∧ job.Score = 0 := by
  unfold jobsFor at h
  simp only [List.mem_flatMap, List.mem_map] at h
  obtain ⟨p1, h1, p2, h2, p3, h3, rfl⟩ := h
  have n1 := mem_positions_coord _ _ h1
  have n2 := mem_positions_coord _ _ h2
  have n3 := mem_positions_coord _ _ h3
  refine ⟨⟨Int.ofNat_nonneg _, ?_, n1.1, n1.2, n2.1, n2.2, n3.1, n3.2⟩, rfl⟩
  show (i : Int) < 6
  omega

theorem three_pieces (gs : GameState) (hlen : gs.Pieces.length = 3) :
    ∃ a b c, gs.Pieces = [a, b, c] := by
  match hp : gs.Pieces, hlen with
  | [a, b, c], _ => exact ⟨a, b, c, rfl⟩

theorem enumerate_isSome_of_three (gs : GameState) (a b c : Piece) (h : gs.Pieces = [a, b, c]) :
    enumerate gs = some
      (jobsFor 0 (getBounds a) (getBounds b) (getBounds c)
        ++ jobsFor 1 (getBounds a) (getBounds c) (getBounds b)
        ++ jobsFor 2 (getBounds b) (getBounds a) (getBounds c)
        ++ jobsFor 3 (getBounds b) (getBounds c) (getBounds a)
        ++ jobsFor 4 (getBounds c) (getBounds a) (getBounds b)
        ++ jobsFor 5 (getBounds c) (getBounds b) (getBounds a)) ∧
    ∀ job ∈ jobsFor 0 (getBounds a) (getBounds b) (getBounds c)
        ++ jobsFor 1 (getBounds a) (getBounds c) (getBounds b)
        ++ jobsFor 2 (getBounds b) (getBounds a) (getBounds c)
        ++ jobsFor 3 (getBounds b) (getBounds c) (getBounds a)
        ++ jobsFor 4 (getBounds c) (getBounds a) (getBounds b)
        ++ jobsFor 5 (getBounds c) (getBounds b) (getBounds a), enumerated job := by
  refine ⟨enumerate_of_three gs a b c h, ?_⟩
  intro job hjob
  simp only [List.mem_append] at hjob
  rcases hjob with ((((hj | hj) | hj) | hj) | hj) | hj
  · exact (mem_jobsFor 0 _ _ _ job (by decide) hj).1
  · exact (mem_jobsFor 1 _ _ _ job (by decide) hj).1
  · exact (mem_jobsFor 2 _ _ _ job (by decide) hj).1
  · exact (mem_jobsFor 3 _ _ _ job (by decide) hj).1
  · exact (mem_jobsFor 4 _ _ _ job (by decide) hj).1
  · exact (mem_jobsFor 5 _ _ _ job (by decide) hj).1

/-- With three pieces the enumeration returns, and every job it builds is `enumerated`. -/
theorem enumerate_isSome (gs : GameState) (hlen : gs.Pieces.length = 3) :
    ∃ jobs, enumerate gs = some jobs ∧ ∀ job ∈ jobs, enumerated job := by
  obtain ⟨a, b, c, h⟩ := three_pieces gs hlen
  exact ⟨_, enumerate_isSome_of_three gs a b c h⟩

/-- The rows of `Order`: each is a permutation of `[0, 1, 2]`. -/
theorem orderAt_some (i : Int) (row : List Nat) (h : orderAt i = some row) :
    0 ≤ i ∧ i < 6 ∧ ∃ i0 i1 i2, row = [i0, i1, i2] ∧ [i0, i1, i2].Perm [0, 1, 2]
      ∧ i0 < 3 ∧ i1 < 3 ∧ i2 < 3 := by
  unfold orderAt at h
  split at h
  · cases h
  · rename_i hneg
    have h0 : 0 ≤ i := by omega
    obtain ⟨n, rfl⟩ := Int.eq_ofNat_of_zero_le h0
    simp only [Int.toNat_ofNat] at h
    have hn : n < 6 := by
      by_contra hge
      have : Order[n]? = none := by
        apply List.getElem?_eq_none
        simp only [Order, List.length_cons, List.length_nil]
        omega
      rw [this] at h
      cases h
    refine ⟨h0, by omega, ?_⟩
    interval_cases n <;> simp only [Order, List.getElem?_cons_zero, List.getElem?_cons_succ,
      Option.some.injEq] at h <;> subst h
    · exact ⟨0, 1, 2, rfl, by decide, by decide, by decide, by decide⟩
    · exact ⟨0, 2, 1, rfl, by decide, by decide, by decide, by decide⟩
    · exact ⟨1, 0, 2, rfl, by decide, by decide, by decide, by decide⟩
    · exact ⟨1, 2, 0, rfl, by decide, by decide, by decide, by decide⟩
    · exact ⟨2, 0, 1, rfl, by decide, by decide, by decide, by decide⟩
    · exact ⟨2, 1, 0, rfl, by decide, by decide, by decide, by decide⟩

theorem orderAt_isSome (i : Int) (h0 : 0 ≤ i) (h6 : i < 6) : ∃ row, orderAt i = some row := by
  obtain ⟨n, rfl⟩ := Int.eq_ofNat_of_zero_le h0
  have hn : n < 6 := by omega
  unfold orderAt
  rw [if_neg (by omega)]
  simp only [Int.toNat_ofNat]
  interval_cases n <;> exact ⟨_, rfl⟩

theorem PlacePiece_returns (gs : GameState) (piece : Piece) (pos : Postion)
    (M : Nat) (hM : ToGameBoard piece pos.X pos.Y = some M) :
    ∃ r, PlacePiece gs piece pos = some r ∧ (r.newState = none ↔ gs.Board &&& M ≠ 0) := by
  by_cases hcol : gs.Board &&& M = 0
  · exact ⟨_, PlacePiece_of_free gs piece pos M hM hcol, by simp [hcol]⟩
  · exact ⟨_, PlacePiece_of_collision gs piece pos M hM hcol, by simp [hcol]⟩

theorem jobPiece_isSome (gs : GameState) (hlen : gs.Pieces.length = 3) (job : Job)
    (hjob : enumerated job) (k : Nat) (hk : k < 3) : ∃ piece, jobPiece gs job k = some piece := by
  obtain ⟨row, hrow⟩ := orderAt_isSome job.OrderIndex hjob.1 hjob.2.1
  obtain ⟨_, _, i0, i1, i2, rfl, _, h0, h1, h2⟩ := orderAt_some _ _ hrow
  obtain ⟨a, b, c, hp⟩ := three_pieces gs hlen
  unfold jobPiece
  rw [hrow, hp]
  interval_cases k
  · interval_cases i0 <;> exact ⟨_, rfl⟩
  · interval_cases i1 <;> exact ⟨_, rfl⟩
  · interval_cases i2 <;> exact ⟨_, rfl⟩

theorem jobPos_coord (job : Job) (hjob : enumerated job) (k : Nat) :
    coord (jobPos job k).X ∧ coord (jobPos job k).Y := by
  obtain ⟨_, _, h1, h2, h3, h4, h5, h6⟩ := hjob
  unfold jobPos
  split_ifs
  · exact ⟨h1, h2⟩
  · exact ⟨h3, h4⟩
  · exact ⟨h5, h6⟩
  · exact ⟨⟨Int.le_refl _, by decide⟩, ⟨Int.le_refl _, by decide⟩⟩

/-- A placement of an enumerated job does not panic. -/
theorem placeStep_isSome (gs : GameState) (hlen : gs.Pieces.length = 3) (job : Job)
    (hjob : enumerated job) (curr : GameState) (k : Nat) (hk : k < 3) :
    ∃ r, placeStep gs job curr k = some r := by
  obtain ⟨piece, hpiece⟩ := jobPiece_isSome gs hlen job hjob k hk
  obtain ⟨hx, hy⟩ := jobPos_coord job hjob k
  obtain ⟨M, hM⟩ := ToGameBoard_isSome piece _ _ hx.1 hx.2 hy.1 hy.2
  unfold placeStep
  rw [hpiece]
  simp only [hM]
  by_cases hcol : M &&& curr.Board != 0
  · rw [if_pos hcol]
    exact ⟨_, rfl⟩
  · rw [if_neg hcol]
    obtain ⟨r, hr, _⟩ := PlacePiece_returns curr piece (jobPos job k) M hM
    rw [hr]
    exact ⟨_, rfl⟩

/-- What a placement that went through did. -/
theorem placeStep_success_inv (gs : GameState) (job : Job) (curr next : GameState) (k : Nat)
    (h : placeStep gs job curr k = some (some next)) :
    ∃ piece r, jobPiece gs job k = some piece ∧
      PlacePiece curr piece (jobPos job k) = some r ∧ r.newState = some next := by
  unfold placeStep at h
  cases hpiece : jobPiece gs job k with
  | none => rw [hpiece] at h; cases h
  | some piece =>
    rw [hpiece] at h
    cases hM : ToGameBoard piece (jobPos job k).X (jobPos job k).Y with
    | none => simp only [hM] at h; cases h
    | some M =>
      simp only [hM] at h
      split at h
      · cases h
      · cases hr : PlacePiece curr piece (jobPos job k) with
        | none => rw [hr] at h; cases h
        | some r =>
          rw [hr] at h
          simp only [Option.some.injEq] at h
          exact ⟨piece, r, rfl, hr, h⟩

theorem placeAll_isSome (gs : GameState) (hlen : gs.Pieces.length = 3) (job : Job)
    (hjob : enumerated job) (ks : List Nat) (hks : ∀ k ∈ ks, k < 3) (curr : GameState) :
    ∃ r, placeAll gs job ks curr = some r := by
  induction ks generalizing curr with
  | nil => exact ⟨_, rfl⟩
  | cons k t ih =>
    obtain ⟨r, hr⟩ := placeStep_isSome gs hlen job hjob curr k (hks k (List.mem_cons_self _ _))
    unfold placeAll
    rw [hr]
    cases r with
    | none => exact ⟨_, rfl⟩
    | some next => exact ih (fun k hk => hks k (List.mem_cons_of_mem _ hk)) next

theorem evalJob_isSome (gs : GameState) (hlen : gs.Pieces.length = 3) (job : Job)
    (hjob : enumerated job) : ∃ r, evalJob gs job = some r := by
  obtain ⟨r, hr⟩ := placeAll_isSome gs hlen job hjob [0, 1, 2]
    (by intro k hk; simp at hk; omega) (startState gs)
  unfold evalJob
  rw [hr]
  cases r with
  | none => exact ⟨_, rfl⟩
  | some final => exact ⟨_, rfl⟩

theorem evalJob_some_iff (gs : GameState) (job scored : Job) :
    evalJob gs job = some (some scored) ↔
      ∃ final, placeAll gs job [0, 1, 2] (startState gs) = some (some final) ∧
        scored = { job with Score := (Penalize final).Score } := by
  unfold evalJob
  cases h : placeAll gs job [0, 1, 2] (startState gs) with
  | none => simp
  | some r =>
    cases r with
    | none => simp
    | some final =>
      simp only [Option.some.injEq, exists_eq_left']
      exact eq_comm

theorem collect_isSome (gs : GameState) (jobs : List Job)
    (h : ∀ job ∈ jobs, ∃ r, evalJob gs job = some r) : ∃ valid, collect gs jobs = some valid := by
  induction jobs with
  | nil => exact ⟨_, rfl⟩
  | cons job t ih =>
    obtain ⟨r, hr⟩ := h job (List.mem_cons_self _ _)
    obtain ⟨valid, hvalid⟩ := ih (fun j hj => h j (List.mem_cons_of_mem _ hj))
    unfold collect
    rw [hr]
    cases r with
    | none => exact ⟨valid, hvalid⟩
    | some scored =>
      simp only [hvalid, Option.map_some']
      exact ⟨_, rfl⟩

/-- The jobs in `ValidJobs` are the scored versions of the jobs that went through, in the
order of the job list. -/
theorem collect_eq (gs : GameState) (jobs valid : List Job) (h : collect gs jobs = some valid) :
    valid = jobs.filterMap (fun job => (evalJob gs job).join) := by
  induction jobs generalizing valid with
  | nil =>
    simp only [collect, Option.some.injEq] at h
    rw [← h]
    rfl
  | cons job t ih =>
    unfold collect at h
    cases hr : evalJob gs job with
    | none => rw [hr] at h; cases h
    | some r =>
      rw [hr] at h
      cases r with
      | none =>
        simp only at h
        rw [List.filterMap_cons, hr]
        exact ih valid h
      | some scored =>
        simp only at h
        cases hrest : collect gs t with
        | none => rw [hrest] at h; cases h
        | some rest =>
          rw [hrest] at h
          simp only [Option.map_some', Option.some.injEq] at h
          rw [List.filterMap_cons, hr, ← h, ih rest hrest]
          rfl

theorem mem_collect (gs : GameState) (jobs valid : List Job) (h : collect gs jobs = some valid)
    (scored : Job) :
    scored ∈ valid ↔ ∃ job ∈ jobs, ∃ final,
      placeAll gs job [0, 1, 2] (startState gs) = some (some final) ∧
        scored = { job with Score := (Penalize final).Score } := by
  rw [collect_eq gs jobs valid h, List.mem_filterMap]
  constructor
  · rintro ⟨job, hjob, hj⟩
    refine ⟨job, hjob, (evalJob_some_iff gs job scored).mp ?_⟩
    cases he : evalJob gs job with
    | none => rw [he] at hj; cases hj
    | some r =>
      rw [he] at hj
      cases r with
      | none => cases hj
      | some s =>
        simp only [Option.join, Option.some_bind, id_eq, Option.some.injEq] at hj
        rw [hj]
  · rintro ⟨job, hjob, hfinal⟩
    refine ⟨job, hjob, ?_⟩
    rw [(evalJob_some_iff gs job scored).mpr hfinal]
    rfl

/-- What `reconstruct` returns when it returns. -/
theorem reconstruct_inv (gs : GameState) (best : Job) (moves : List Move)
    (h : reconstruct gs best = some moves) :
    ∃ (i0 i1 i2 : Nat) (p0 p1 p2 : Piece),
      orderAt best.OrderIndex = some [i0, i1, i2] ∧ [i0, i1, i2].Perm [0, 1, 2] ∧
      gs.Pieces[i0]? = some p0 ∧ gs.Pieces[i1]? = some p1 ∧ gs.Pieces[i2]? = some p2 ∧
      moves = [{ Piece := p0, PieceIndex := i0, To := best.FirstPos },
               { Piece := p1, PieceIndex := i1, To := best.SecondPos },
               { Piece := p2, PieceIndex := i2, To := best.ThirdPos }] := by
  unfold reconstruct at h
  cases hrow : orderAt best.OrderIndex with
  | none => rw [hrow] at h; cases h
  | some row =>
    obtain ⟨_, _, i0, i1, i2, rfl, hperm, _, _, _⟩ := orderAt_some _ _ hrow
    rw [hrow] at h
    simp only [Option.bind_eq_bind, Option.some_bind, List.getElem?_cons_zero,
      List.getElem?_cons_succ] at h
    cases h0 : gs.Pieces[i0]? with
    | none => rw [h0] at h; cases h
    | some p0 =>
      cases h1 : gs.Pieces[i1]? with
      | none => rw [h0, h1] at h; cases h
      | some p1 =>
        cases h2 : gs.Pieces[i2]? with
        | none => rw [h0, h1, h2] at h; cases h
        | some p2 =>
          rw [h0, h1, h2] at h
          simp only [Option.some_bind, pure, Option.some.injEq] at h
          exact ⟨i0, i1, i2, p0, p1, p2, rfl, hperm, h0, h1, h2, h.symm⟩

theorem reconstruct_isSome (gs : GameState) (hlen : gs.Pieces.length = 3) (best : Job)
    (h0 : 0 ≤ best.OrderIndex) (h6 : best.OrderIndex < 6) :
    ∃ moves, reconstruct gs best = some moves := by
  obtain ⟨row, hrow⟩ := orderAt_isSome best.OrderIndex h0 h6
  obtain ⟨_, _, i0, i1, i2, rfl, _, hi0, hi1, hi2⟩ := orderAt_some _ _ hrow
  obtain ⟨a, b, c, hp⟩ := three_pieces gs hlen
  unfold reconstruct
  rw [hrow, hp]
  interval_cases i0 <;> interval_cases i1 <;> interval_cases i2 <;> exact ⟨_, rfl⟩

theorem selectMoves_eq_nil_iff (gs : GameState) (valid : List Job) :
    selectMoves gs valid = some none ↔ valid = [] := by
  unfold selectMoves
  constructor
  · intro h
    by_cases hv : valid.length = 0
    · exact List.length_eq_zero.mp hv
    · rw [if_neg hv] at h
      cases hr : reconstruct gs (selectBest valid) with
      | none => rw [hr] at h; cases h
      | some m => rw [hr] at h; cases h
  · intro h
    rw [h]
    rfl

theorem FindBestMove_eq (gs : GameState) (jobs valid : List Job)
    (hjobs : enumerate gs = some jobs) (hvalid : collect gs jobs = some valid) :
    FindBestMove gs = selectMoves gs valid := by
  unfold FindBestMove
  rw [hjobs]
  simp only [hvalid]

theorem enumerated_of_scored (job : Job) (s : Int) (h : enumerated job) :
    enumerated { job with Score := s } := h

/-- A successful placement depends on the board of the receiver only. -/
theorem PlacePiece_board_congr (a b : GameState) (piece : Piece) (pos : Postion)
    (r : PlaceResult) (ns : GameState) (hab : b.Board = a.Board)
    (h : PlacePiece a piece pos = some r) (hns : r.newState = some ns) :
    ∃ r2 ns2, PlacePiece b piece pos = some r2 ∧ r2.newState = some ns2 ∧
      ns2.Board = ns.Board := by
  obtain ⟨M, hM, hfree, hboard, _, _, _⟩ := PlacePiece_success_inv a piece pos r ns h hns
  rw [← hab] at hfree
  refine ⟨_, _, PlacePiece_of_free b piece pos M hM hfree, rfl, ?_⟩
  rw [hboard, hab]
  exact removeLines_board_score _ _ _

theorem jobPiece_of_order (gs : GameState) (job : Job) (i0 i1 i2 : Nat)
    (h : orderAt job.OrderIndex = some [i0, i1, i2]) :
    jobPiece gs job 0 = gs.Pieces[i0]? ∧ jobPiece gs job 1 = gs.Pieces[i1]? ∧
      jobPiece gs job 2 = gs.Pieces[i2]? := by
  unfold jobPiece
  rw [h]
  exact ⟨rfl, rfl, rfl⟩

/-- The three placements of a job that went through. -/
theorem placeAll_success_inv (gs : GameState) (job : Job) (curr final : GameState)
    (h : placeAll gs job [0, 1, 2] curr = some (some final)) :
    ∃ p0 p1 p2 r1 s1 r2 s2 r3,
      jobPiece gs job 0 = some p0 ∧ jobPiece gs job 1 = some p1 ∧ jobPiece gs job 2 = some p2 ∧
      PlacePiece curr p0 job.FirstPos = some r1 ∧ r1.newState = some s1 ∧
      PlacePiece s1 p1 job.SecondPos = some r2 ∧ r2.newState = some s2 ∧
      PlacePiece s2 p2 job.ThirdPos = some r3 ∧ r3.newState = some final := by
  unfold placeAll at h
  cases h1 : placeStep gs job curr 0 with
  | none => rw [h1] at h; cases h
  | some o1 =>
    cases o1 with
    | none => rw [h1] at h; cases h
    | some s1 =>
      rw [h1] at h
      simp only at h
      unfold placeAll at h
      cases h2 : placeStep gs job s1 1 with
      | none => rw [h2] at h; cases h
      | some o2 =>
        cases o2 with
        | none => rw [h2] at h; cases h
        | some s2 =>
          rw [h2] at h
          simp only at h
          unfold placeAll at h
          cases h3 : placeStep gs job s2 2 with
          | none => rw [h3] at h; cases h
          | some o3 =>
            cases o3 with
            | none => rw [h3] at h; cases h
            | some s3 =>
              rw [h3] at h
              simp only [placeAll, Option.some.injEq] at h
              subst h
              obtain ⟨p0, r1, hp0, hr1, hs1⟩ := placeStep_success_inv gs job curr s1 0 h1
              obtain ⟨p1, r2, hp1, hr2, hs2⟩ := placeStep_success_inv gs job s1 s2 1 h2
              obtain ⟨p2, r3, hp2, hr3, hs3⟩ := placeStep_success_inv gs job s2 s3 2 h3
              exact ⟨p0, p1, p2, r1, s1, r2, s2, r3, hp0, hp1, hp2, hr1, hs1, hr2, hs2,
                hr3, hs3⟩

/-- The score kept by the selection loop: the sentinel or the largest score, whichever is
greater. -/
theorem selectBest_score (valid : List Job) :
    -1000000 ≤ (selectBest valid).Score ∧
    (∀ j ∈ valid, j.Score ≤ (selectBest valid).Score) ∧
    ((selectBest valid).Score = -1000000 ∨ ∃ j ∈ valid, j.Score = (selectBest valid).Score) := by
  rcases selectBest_cases valid with ⟨hph, hall⟩ | ⟨i, r, hi, hr, hlt, hmax, _⟩
  · rw [hph]
    exact ⟨by decide, hall, Or.inl rfl⟩
  · rw [hr]
    exact ⟨by omega, hmax, Or.inr ⟨r, List.getElem?_mem hi, rfl⟩⟩

theorem selectBest_score_le_of_subset (l1 l2 : List Job) (h : ∀ j ∈ l1, j ∈ l2) :
    (selectBest l1).Score ≤ (selectBest l2).Score := by
  obtain ⟨_, _, h1⟩ := selectBest_score l1
  obtain ⟨h2, h3, _⟩ := selectBest_score l2
  rcases h1 with h1 | ⟨j, hj, hjs⟩
  · omega
  · rw [← hjs]
    exact h3 j (h j hj)

theorem placeStep_score (gs : GameState) (job : Job) (curr next : GameState) (k : Nat)
    (h : placeStep gs job curr k = some (some next)) :
    next.Score = curr.Score ∧ next.Pieces = curr.Pieces := by
  obtain ⟨piece, r, _, hr, hns⟩ := placeStep_success_inv gs job curr next k h
  obtain ⟨_, _, _, _, hp, hs, _⟩ := PlacePiece_success_inv curr piece _ r next hr hns
  exact ⟨hs, hp⟩

/-- The state a job ends on carries the score the worker started from: no bonus. -/
theorem placeAll_score (gs : GameState) (job : Job) (ks : List Nat) (curr final : GameState)
    (h : placeAll gs job ks curr = some (some final)) :
    final.Score = curr.Score ∧ final.Pieces = curr.Pieces := by
  induction ks generalizing curr with
  | nil =>
    simp only [placeAll, Option.some.injEq] at h
    rw [h]
    exact ⟨rfl, rfl⟩
  | cons k t ih =>
    unfold placeAll at h
    cases hstep : placeStep gs job curr k with
    | none => rw [hstep] at h; cases h
    | some o =>
      cases o with
      | none => rw [hstep] at h; cases h
      | some next =>
        rw [hstep] at h
        obtain ⟨h1, h2⟩ := placeStep_score gs job curr next k hstep
        obtain ⟨h3, h4⟩ := ih next h
        exact ⟨h3.trans h1, h4.trans h2⟩

/-- The score attached to a valid job: the starting score minus the penalty of the final
board of the job, in `int` arithmetic. -/
theorem scored_score (gs : GameState) (jobs valid : List Job)
    (hvalid : collect gs jobs = some valid) (scored : Job) (hs : scored ∈ valid) :
    ∃ job ∈ jobs, ∃ final,
      placeAll gs job [0, 1, 2] (startState gs) = some (some final) ∧
      scored = { job with Score := wrapInt (gs.Score - penalty final.Board) } := by
  obtain ⟨job, hjob, final, hfinal, heq⟩ := (mem_collect gs jobs valid hvalid scored).mp hs
  refine ⟨job, hjob, final, hfinal, ?_⟩
  rw [heq]
  have hsc := (placeAll_score gs job _ _ final hfinal).1
  rw [Penalize_score, hsc]
  rfl

/-- With a starting score from 0 up, an `int`, a valid job scores above `-1000000`. -/
theorem scored_above (gs : GameState) (jobs valid : List Job)
    (hvalid : collect gs jobs = some valid) (hscore : 0 ≤ gs.Score) (hint : gs.Score < 2 ^ 63)
    (scored : Job) (hs : scored ∈ valid) : -1000000 < scored.Score := by
  obtain ⟨job, _, final, _, heq⟩ := scored_score gs jobs valid hvalid scored hs
  have hb := penalty_bounds final.Board
  have hw : wrapInt (gs.Score - penalty final.Board) = gs.Score - penalty final.Board := by
    apply wrapInt_sub_penalty
    · rw [isInt_iff]
      norm_num at hint
      omega
    · norm_num
      omega
  rw [heq]
  show -1000000 < wrapInt (gs.Score - penalty final.Board)
  rw [hw]
  omega

/-- When the jobs are worked off without a panic, no job panics. -/
theorem collect_some_inv (gs : GameState) (jobs valid : List Job)
    (h : collect gs jobs = some valid) : ∀ job ∈ jobs, ∃ r, evalJob gs job = some r := by
  induction jobs generalizing valid with
  | nil =>
    intro job hjob
    cases hjob
  | cons a t ih =>
    unfold collect at h
    cases hr : evalJob gs a with
    | none => rw [hr] at h; cases h
    | some r =>
      rw [hr] at h
      have hrest : ∃ rest, collect gs t = some rest := by
        cases r with
        | none => exact ⟨valid, h⟩
        | some scored =>
          simp only at h
          cases hc : collect gs t with
          | none => rw [hc] at h; cases h
          | some rest => exact ⟨rest, rfl⟩
      obtain ⟨rest, hrest⟩ := hrest
      intro job hjob
      rcases List.mem_cons.mp hjob with rfl | hjob
      · exact ⟨r, hr⟩
      · exact ih rest hrest job hjob

/-- The order in which the jobs are finished permutes `ValidJobs` and nothing more. -/
theorem collect_perm (gs : GameState) (jobs done valid : List Job) (hperm : done.Perm jobs)
    (h : collect gs jobs = some valid) :
    ∃ valid1, collect gs done = some valid1 ∧ valid1.Perm valid := by
  obtain ⟨valid1, h1⟩ := collect_isSome gs done
    (fun job hjob => collect_some_inv gs jobs valid h job (hperm.subset hjob))
  refine ⟨valid1, h1, ?_⟩
  rw [collect_eq gs jobs valid h, collect_eq gs done valid1 h1]
  exact hperm.filterMap _

/-- When the enumeration returns, the pieces 0, 1 and 2 exist and the jobs are those of
the six order rows. -/
theorem enumerate_some_inv (gs : GameState) (jobs : List Job) (h : enumerate gs = some jobs) :
    ∃ a b c, gs.Pieces[0]? = some a ∧ gs.Pieces[1]? = some b ∧ gs.Pieces[2]? = some c ∧
      jobs = jobsFor 0 (getBounds a) (getBounds b) (getBounds c)
        ++ jobsFor 1 (getBounds a) (getBounds c) (getBounds b)
        ++ jobsFor 2 (getBounds b) (getBounds a) (getBounds c)
        ++ jobsFor 3 (getBounds b) (getBounds c) (getBounds a)
        ++ jobsFor 4 (getBounds c) (getBounds a) (getBounds b)
        ++ jobsFor 5 (getBounds c) (getBounds b) (getBounds a) := by
  unfold enumerate at h
  cases h0 : gs.Pieces[0]? with
  | none =>
    simp [Order, List.enum, List.enumFrom, jobsOfOrder, h0] at h
  | some a =>
    cases h1 : gs.Pieces[1]? with
    | none =>
      simp [Order, List.enum, List.enumFrom, jobsOfOrder, h0, h1] at h
    | some b =>
      cases h2 : gs.Pieces[2]? with
      | none =>
        simp [Order, List.enum, List.enumFrom, jobsOfOrder, h0, h1, h2] at h
      | some c =>
        simp [Order, List.enum, List.enumFrom, jobsOfOrder, h0, h1, h2] at h
        refine ⟨a, b, c, rfl, rfl, rfl, ?_⟩
        rw [← h]
        simp only [List.append_assoc]

theorem enumerated_of_enumerate (gs : GameState) (jobs : List Job)
    (h : enumerate gs = some jobs) : ∀ job ∈ jobs, enumerated job := by
  obtain ⟨a, b, c, _, _, _, rfl⟩ := enumerate_some_inv gs jobs h
  intro job hjob
  simp only [List.mem_append] at hjob
  rcases hjob with ((((hj | hj) | hj) | hj) | hj) | hj
  · exact (mem_jobsFor 0 _ _ _ job (by decide) hj).1
  · exact (mem_jobsFor 1 _ _ _ job (by decide) hj).1
  · exact (mem_jobsFor 2 _ _ _ job (by decide) hj).1
  · exact (mem_jobsFor 3 _ _ _ job (by decide) hj).1
  · exact (mem_jobsFor 4 _ _ _ job (by decide) hj).1
  · exact (mem_jobsFor 5 _ _ _ job (by decide) hj).1

theorem reconstruct_isSome_of (gs : GameState) (a b c : Piece)
    (h0 : gs.Pieces[0]? = some a) (h1 : gs.Pieces[1]? = some b) (h2 : gs.Pieces[2]? = some c)
    (best : Job) (hlo : 0 ≤ best.OrderIndex) (hhi : best.OrderIndex < 6) :
    ∃ moves, reconstruct gs best = some moves := by
  obtain ⟨row, hrow⟩ := orderAt_isSome best.OrderIndex hlo hhi
  obtain ⟨_, _, i0, i1, i2, rfl, _, hi0, hi1, hi2⟩ := orderAt_some _ _ hrow
  have hpiece : ∀ i, i < 3 → ∃ p, gs.Pieces[i]? = some p := by
    intro i hi
    interval_cases i
    · exact ⟨a, h0⟩
    · exact ⟨b, h1⟩
    · exact ⟨c, h2⟩
  obtain ⟨p0, hp0⟩ := hpiece i0 hi0
  obtain ⟨p1, hp1⟩ := hpiece i1 hi1
  obtain ⟨p2, hp2⟩ := hpiece i2 hi2
  unfold reconstruct
  rw [hrow]
  simp only [Option.bind_eq_bind, Option.some_bind, List.getElem?_cons_zero,
    List.getElem?_cons_succ, hp0, hp1, hp2]
  exact ⟨_, rfl⟩

theorem FindBestMoveIn_eq (schedule : List Job → List Job) (gs : GameState)
    (jobs valid : List Job) (hjobs : enumerate gs = some jobs)
    (hvalid : collect gs (schedule jobs) = some valid) :
    FindBestMoveIn schedule gs = selectMoves gs valid := by
  unfold FindBestMoveIn
  rw [hjobs]
  simp only [hvalid]

/-- What a run of `FindBestMoveIn` that returns went through. -/
theorem FindBestMoveIn_inv (schedule : List Job → List Job) (gs : GameState)
    (result : Option (List Move)) (h : FindBestMoveIn schedule gs = some result) :
    ∃ jobs valid, enumerate gs = some jobs ∧ collect gs (schedule jobs) = some valid ∧
      selectMoves gs valid = some result := by
  cases hjobs : enumerate gs with
  | none => unfold FindBestMoveIn at h; rw [hjobs] at h; cases h
  | some jobs =>
    cases hvalid : collect gs (schedule jobs) with
    | none => unfold FindBestMoveIn at h; rw [hjobs] at h; simp only [hvalid] at h; cases h
    | some valid =>
      rw [FindBestMoveIn_eq schedule gs jobs valid hjobs hvalid] at h
      exact ⟨jobs, valid, rfl, hvalid, h⟩

/-- With a starting score from 0 up and a valid job, whatever the order `done` in which
jobs of the enumeration were finished, the selection ends on a job of `ValidJobs` and its
moves are returned. -/
theorem selectMoves_of_valid (gs : GameState) (jobs done valid : List Job)
    (hjobs : enumerate gs = some jobs) (hdone : ∀ job ∈ done, job ∈ jobs)
    (hvalid : collect gs done = some valid)
    (hne : valid ≠ []) (hscore : 0 ≤ gs.Score) (hint : gs.Score < 2 ^ 63) :
    selectBest valid ∈ valid ∧ -1000000 < (selectBest valid).Score ∧
      0 ≤ (selectBest valid).OrderIndex ∧ (selectBest valid).OrderIndex < 6 ∧
      ∃ moves, reconstruct gs (selectBest valid) = some moves ∧
        selectMoves gs valid = some (some moves) := by
  obtain ⟨j, hj⟩ := List.exists_mem_of_ne_nil valid hne
  have hjs : -1000000 < j.Score := scored_above gs done valid hvalid hscore hint j hj
  rcases selectBest_cases valid with ⟨_, hall⟩ | ⟨i, r, hi, hr, hlt, _, _⟩
  · have := hall j hj
    omega
  · have hmem : selectBest valid ∈ valid := by
      rw [hr]
      exact List.getElem?_mem hi
    obtain ⟨job, hjob, final, _, heq⟩ := (mem_collect gs done valid hvalid _).mp hmem
    have hshape : enumerated (selectBest valid) := by
      rw [heq]
      exact enumerated_of_scored job _
        (enumerated_of_enumerate gs jobs hjobs job (hdone job hjob))
    obtain ⟨a, b, c, h0, h1, h2, _⟩ := enumerate_some_inv gs jobs hjobs
    obtain ⟨moves, hmoves⟩ :=
      reconstruct_isSome_of gs a b c h0 h1 h2 _ hshape.1 hshape.2.1
    refine ⟨hmem, by rw [hr]; exact hlt, hshape.1, hshape.2.1, moves, hmoves, ?_⟩
    unfold selectMoves
    have hlen : ¬ valid.length = 0 := fun h0 => hne (List.length_eq_zero.mp h0)
    rw [if_neg hlen, hmoves]
    rfl

theorem flatMap_map_eq_product {α β γ : Type} (l1 : List α) (l2 : List β) (g : α → β → γ) :
    (l1.flatMap fun a => l2.map (g a)) = (l1.product l2).map (fun p => g p.1 p.2) := by
  unfold List.product
  rw [List.map_flatMap]
  congr 1
  funext a
  rw [List.map_map]
  rfl

theorem positions_eq (bounds : Nat × Nat) :
    positions bounds
      = ((List.range (9 - bounds.1)).product (List.range (9 - bounds.2))).map
          (fun p => ({ X := (p.1 : Int), Y := (p.2 : Int) } : Postion)) := by
  unfold positions
  exact flatMap_map_eq_product _ _ _

theorem mem_positions_iff (bounds : Nat × Nat) (pos : Postion) :
    pos ∈ positions bounds ↔ fits bounds pos := by
  rw [positions_eq]
  simp only [List.mem_map, Prod.exists, List.pair_mem_product, List.mem_range]
  unfold fits
  constructor
  · rintro ⟨x, y, ⟨hx, hy⟩, rfl⟩
    simp only
    omega
  · rintro ⟨h1, h2, h3, h4⟩
    refine ⟨pos.X.toNat, pos.Y.toNat, ⟨by omega, by omega⟩, ?_⟩
    cases pos with
    | mk X Y =>
      simp only [Postion.mk.injEq]
      simp only at h1 h3
      exact ⟨Int.toNat_of_nonneg h1, Int.toNat_of_nonneg h3⟩

theorem jobsFor_eq (i : Nat) (b1 b2 b3 : Nat × Nat) :
    jobsFor i b1 b2 b3
      = ((positions b1).product ((positions b2).product (positions b3))).map
          (fun t => ({ OrderIndex := (i : Int), FirstPos := t.1, SecondPos := t.2.1,
                       ThirdPos := t.2.2, Score := 0 } : Job)) := by
  unfold jobsFor
  have inner : ∀ p1 : Postion,
      ((positions b2).flatMap fun p2 => (positions b3).map fun p3 =>
        ({ OrderIndex := (i : Int), FirstPos := p1, SecondPos := p2, ThirdPos := p3,
           Score := 0 } : Job))
      = ((positions b2).product (positions b3)).map
          (fun q => ({ OrderIndex := (i : Int), FirstPos := p1, SecondPos := q.1,
                       ThirdPos := q.2, Score := 0 } : Job)) :=
    fun p1 => flatMap_map_eq_product _ _ _
  simp only [inner]
  exact flatMap_map_eq_product (positions b1) ((positions b2).product (positions b3))
    (fun p1 q => ({ OrderIndex := (i : Int), FirstPos := p1, SecondPos := q.1,
                    ThirdPos := q.2, Score := 0 } : Job))

theorem mem_jobsFor_iff (i : Nat) (b1 b2 b3 : Nat × Nat) (job : Job) :
    job ∈ jobsFor i b1 b2 b3 ↔
      job.OrderIndex = (i : Int) ∧ job.Score = 0 ∧
        fits b1 job.FirstPos ∧ fits b2 job.SecondPos ∧ fits b3 job.ThirdPos := by
  rw [jobsFor_eq]
  simp only [List.mem_map, Prod.exists, List.pair_mem_product, mem_positions_iff]
  constructor
  · rintro ⟨p1, p2, p3, ⟨h1, h2, h3⟩, rfl⟩
    exact ⟨rfl, rfl, h1, h2, h3⟩
  · rintro ⟨ho, hs, h1, h2, h3⟩
    refine ⟨job.FirstPos, job.SecondPos, job.ThirdPos, ⟨h1, h2, h3⟩, ?_⟩
    cases job
    simp only at ho hs
    simp only [Job.mk.injEq, true_and, and_true]
    exact ⟨ho.symm, hs.symm⟩

/-- A piece with a filled cell inside its box width, at a position where the box fits,
collides with the fully occupied board. -/
theorem mask_hits_full_board (piece : Piece) (pos : Postion) (i j : Nat)
    (hf : filled piece i j = true) (hj : j < (getBounds piece).1)
    (hfit : fits (getBounds piece) pos) :
    ∃ M, ToGameBoard piece pos.X pos.Y = some M ∧ M &&& (2 ^ 64 - 1) ≠ 0 := by
  obtain ⟨h1, h2, h3, h4⟩ := hfit
  obtain ⟨M, hM, hbits⟩ := ToGameBoard_bits piece pos.X pos.Y h1 (by omega) h3 (by omega)
  refine ⟨M, hM, ?_⟩
  have hi : i < (getBounds piece).2 := (filled_lt piece i j hf).1
  have hq : ((pos.Y + (i : Int)) * 8 + (pos.X + (j : Int))).toNat < 64 := by omega
  have hbit : M.testBit ((pos.Y + (i : Int)) * 8 + (pos.X + (j : Int))).toNat = true :=
    (hbits _).mpr ⟨hq, i, j, hf, rfl⟩
  intro hzero
  have : (M &&& (2 ^ 64 - 1)).testBit
      ((pos.Y + (i : Int)) * 8 + (pos.X + (j : Int))).toNat = true := by
    rw [Nat.testBit_and, hbit, Nat.testBit_two_pow_sub_one]
    simp [hq]
  rw [hzero] at this
  simp at this

/-- The piece a job places first and the position it places it at. -/
theorem first_piece_of_mem (gs : GameState) (a b c : Piece) (hp : gs.Pieces = [a, b, c])
    (job : Job)
    (hjob : job ∈ jobsFor 0 (getBounds a) (getBounds b) (getBounds c)
        ++ jobsFor 1 (getBounds a) (getBounds c) (getBounds b)
        ++ jobsFor 2 (getBounds b) (getBounds a) (getBounds c)
        ++ jobsFor 3 (getBounds b) (getBounds c) (getBounds a)
        ++ jobsFor 4 (getBounds c) (getBounds a) (getBounds b)
        ++ jobsFor 5 (getBounds c) (getBounds b) (getBounds a)) :
    ∃ piece ∈ gs.Pieces, jobPiece gs job 0 = some piece ∧
      fits (getBounds piece) job.FirstPos := by
  simp only [List.mem_append, mem_jobsFor_iff] at hjob
  rcases hjob with ((((⟨ho, _, h1, _⟩ | ⟨ho, _, h1, _⟩) | ⟨ho, _, h1, _⟩)
    | ⟨ho, _, h1, _⟩) | ⟨ho, _, h1, _⟩) | ⟨ho, _, h1, _⟩
  · exact ⟨a, by rw [hp]; simp, by unfold jobPiece; rw [ho, hp]; rfl, h1⟩
  · exact ⟨a, by rw [hp]; simp, by unfold jobPiece; rw [ho, hp]; rfl, h1⟩
  · exact ⟨b, by rw [hp]; simp, by unfold jobPiece; rw [ho, hp]; rfl, h1⟩
  · exact ⟨b, by rw [hp]; simp, by unfold jobPiece; rw [ho, hp]; rfl, h1⟩
  · exact ⟨c, by rw [hp]; simp, by unfold jobPiece; rw [ho, hp]; rfl, h1⟩
  · exact ⟨c, by rw [hp]; simp, by unfold jobPiece; rw [ho, hp]; rfl, h1⟩

theorem collect_all_invalid (gs : GameState) (jobs : List Job)
    (h : ∀ job ∈ jobs, evalJob gs job = some none) : collect gs jobs = some [] := by
  induction jobs with
  | nil => rfl
  | cons job t ih =>
    unfold collect
    rw [h job (List.mem_cons_self _ _)]
    exact ih (fun j hj => h j (List.mem_cons_of_mem _ hj))

theorem evalJob_of_first_collision (gs : GameState) (job : Job) (piece : Piece) (M : Nat)
    (hpiece : jobPiece gs job 0 = some piece)
    (hM : ToGameBoard piece job.FirstPos.X job.FirstPos.Y = some M)
    (hcol : M &&& gs.Board ≠ 0) : evalJob gs job = some none := by
  have hstep : placeStep gs job (startState gs) 0 = some none := by
    unfold placeStep
    rw [hpiece]
    have hpos : jobPos job 0 = job.FirstPos := rfl
    simp only [hpos, hM]
    have : (M &&& (startState gs).Board != 0) = true := by
      simp only [startState, bne_iff_ne, ne_eq]
      exact hcol
    rw [if_pos this]
  unfold evalJob placeAll
  rw [hstep]

theorem ranged_single {α : Type} (a : α) : ranged [a] = [(0, a)] := by
  unfold ranged
  rw [List.take_of_length_le]
  · rfl
  · rw [maxSlice_eq]
    simp

theorem single_mask (pos : Postion) (hfit : fits (1, 1) pos) :
    ToGameBoard [[true]] pos.X pos.Y = some (2 ^ cellIndex pos) ∧ cellIndex pos < 64 := by
  obtain ⟨h1, h2, h3, h4⟩ := hfit
  simp only [Nat.cast_one] at h2 h4
  have hlt : cellIndex pos < 64 := by
    unfold cellIndex
    omega
  refine ⟨?_, hlt⟩
  have hpos : cellPos pos.X pos.Y 0 0 = pos.Y * 8 + pos.X := by
    rw [cellPos_coord pos.X pos.Y h1 (by omega) h3 (by omega) 0 0
      (by rw [maxSlice_eq]; decide) (by rw [maxSlice_eq]; decide)]
    simp
  have hs : shl1 (cellPos pos.X pos.Y 0 0) = some (oneShl (cellIndex pos)) := by
    rw [hpos]
    unfold shl1 cellIndex
    rw [if_neg (by omega)]
  unfold ToGameBoard toRow
  simp only [ranged_single, List.foldlM_cons, List.foldlM_nil, if_true, hs,
    Option.map_some', Option.some_bind, Option.bind_eq_bind, Nat.zero_or, pure]
  rw [oneShl_eq hlt]

/-- A board with at most two occupied cells has no full line. -/
theorem sparse_no_full_line (b p1 p2 : Nat)
    (hs : ∀ q, b.testBit q = true → q = p1 ∨ q = p2) :
    (∀ y, ¬ rowIsFull b y) ∧ (∀ x, ¬ colIsFull b x) := by
  constructor
  · intro y hfull
    have h0 := hs _ (hfull 0 (by decide))
    have h1 := hs _ (hfull 1 (by decide))
    have h2 := hs _ (hfull 2 (by decide))
    omega
  · intro x hfull
    have h0 := hs _ (hfull 0 (by decide))
    have h1 := hs _ (hfull 1 (by decide))
    have h2 := hs _ (hfull 2 (by decide))
    omega

theorem removeLines_sparse (score : Int) (b p1 p2 : Nat) (hb : b < 2 ^ 64)
    (hs : ∀ q, b.testBit q = true → q = p1 ∨ q = p2) (q : Nat) :
    (removeLines score b).Board.testBit q = b.testBit q := by
  obtain ⟨hrow, hcol⟩ := sparse_no_full_line b p1 p2 hs
  by_cases hq : q < 64
  · rw [testBit_removeLines score b hq, fullRow_eq_decide b (by omega),
      fullCol_eq_decide b (Nat.mod_lt _ (by decide))]
    simp [hrow, hcol]
  · have h1 : b.testBit q = false :=
      Nat.testBit_lt_two_pow (Nat.lt_of_lt_of_le hb (Nat.pow_le_pow_right (by decide) (by omega)))
    have h2 : (removeLines score b).Board.testBit q = false :=
      Nat.testBit_lt_two_pow (Nat.lt_of_lt_of_le (removeLines_board_lt score b hb)
        (Nat.pow_le_pow_right (by decide) (by omega)))
    rw [h1, h2]

/-- Placing a single cell on a board with at most one occupied cell: the target cell was
free, and the new board holds the old cells and the new one. -/
theorem single_place (curr ns : GameState) (r : PlaceResult) (pos : Postion) (p1 : Nat)
    (hfit : fits (1, 1) pos) (hb : curr.Board < 2 ^ 64)
    (hs : ∀ q, curr.Board.testBit q = true → q = p1)
    (h : PlacePiece curr [[true]] pos = some r) (hns : r.newState = some ns) :
    curr.Board.testBit (cellIndex pos) = false ∧ ns.Board < 2 ^ 64 ∧
      ∀ q, ns.Board.testBit q = true ↔ curr.Board.testBit q = true ∨ q = cellIndex pos := by
  obtain ⟨hmask, hlt⟩ := single_mask pos hfit
  obtain ⟨M, hM, hfree, hboard, _⟩ := PlacePiece_success_inv curr [[true]] pos r ns h hns
  rw [hmask] at hM
  cases hM
  have hfreebit : curr.Board.testBit (cellIndex pos) = false := by
    have : (curr.Board &&& 2 ^ cellIndex pos).testBit (cellIndex pos) = false := by
      rw [hfree]
      simp
    rw [Nat.testBit_and, Nat.testBit_two_pow_self, Bool.and_true] at this
    exact this
  have hb2 : curr.Board ||| 2 ^ cellIndex pos < 2 ^ 64 :=
    Nat.or_lt_two_pow hb (Nat.pow_lt_pow_right (by decide) hlt)
  have hs2 : ∀ q, (curr.Board ||| 2 ^ cellIndex pos).testBit q = true →
      q = p1 ∨ q = cellIndex pos := by
    intro q hq
    rw [Nat.testBit_or, Bool.or_eq_true, Nat.testBit_two_pow, decide_eq_true_eq] at hq
    rcases hq with hq | hq
    · exact Or.inl (hs q hq)
    · exact Or.inr hq.symm
  refine ⟨hfreebit, ?_, ?_⟩
  · rw [hboard]
    exact removeLines_board_lt _ _ hb2
  · intro q
    rw [hboard, removeLines_sparse _ _ p1 (cellIndex pos) hb2 hs2 q, Nat.testBit_or,
      Bool.or_eq_true, Nat.testBit_two_pow, decide_eq_true_eq]
    constructor
    · rintro (h | h)
      · exact Or.inl h
      · exact Or.inr h.symm
    · rintro (h | h)
      · exact Or.inl h
      · exact Or.inr h.symm

/-- The target cell of a successful single-cell placement was free. -/
theorem single_place_free (curr ns : GameState) (r : PlaceResult) (pos : Postion)
    (hfit : fits (1, 1) pos)
    (h : PlacePiece curr [[true]] pos = some r) (hns : r.newState = some ns) :
    curr.Board.testBit (cellIndex pos) = false := by
  obtain ⟨hmask, _⟩ := single_mask pos hfit
  obtain ⟨M, hM, hfree, _⟩ := PlacePiece_success_inv curr [[true]] pos r ns h hns
  rw [hmask] at hM
  cases hM
  have : (curr.Board &&& 2 ^ cellIndex pos).testBit (cellIndex pos) = false := by
    rw [hfree]
    simp
  rw [Nat.testBit_and, Nat.testBit_two_pow_self, Bool.and_true] at this
  exact this

theorem jobPiece_mem (gs : GameState) (job : Job) (k : Nat) (piece : Piece)
    (h : jobPiece gs job k = some piece) : piece ∈ gs.Pieces := by
  unfold jobPiece at h
  cases h1 : orderAt job.OrderIndex with
  | none => rw [h1] at h; cases h
  | some row =>
    rw [h1] at h
    cases h2 : row[k]? with
    | none => simp [h2] at h
    | some idx =>
      simp only [Option.bind_eq_bind, Option.some_bind, h2] at h
      exact List.getElem?_mem h

theorem two_pow_and_two_pow (p q : Nat) (h : p ≠ q) : (2 : Nat) ^ p &&& 2 ^ q = 0 := by
  rw [and_two_pow_eq, Nat.testBit_two_pow]
  simp [h]

theorem single_pieces (piece : Piece) (h : piece ∈ singleState.Pieces) : piece = [[true]] := by
  simp only [singleState, List.mem_cons, List.mem_singleton, or_self, List.mem_nil_iff,
    or_false] at h
  exact h

/-! ## The worker on a store simulates the pure worker -/

/-- `PlacePieceAt` through a pointer `recv` does what `PlacePiece` does on the object it
points to; of the objects in the store it writes that one alone (the addresses below `n`,
all different from `recv`, keep their objects), and the returned state is a new object. -/
theorem PlacePieceAt_sim (store : Store) (g : GameState) (n recv : Nat) (piece : Piece)
    (pos : Postion) (hr : store[recv]? = some g) (hpos : n ≤ recv) :
    (PlacePiece g piece pos = none → PlacePieceAt store recv piece pos = none) ∧
    (∀ r, PlacePiece g piece pos = some r → r.newState = none →
      ∃ store1, PlacePieceAt store recv piece pos = some (store1, none) ∧
        ∀ b, b < n → store1[b]? = store[b]?) ∧
    (∀ r ns, PlacePiece g piece pos = some r → r.newState = some ns →
      ∃ store1 a, PlacePieceAt store recv piece pos = some (store1, some a) ∧
        (∀ b, b < n → store1[b]? = store[b]?) ∧ n ≤ a ∧ store1[a]? = some ns) := by
  have hlen : recv < store.length := (List.getElem?_eq_some.mp hr).1
  have hset : ∀ (x : GameState) (b : Nat), b < n → (store.set recv x)[b]? = store[b]? := by
    intro x b hb
    rw [List.getElem?_set_ne (by omega)]
  refine ⟨?_, ?_, ?_⟩
  · intro hp
    unfold PlacePieceAt
    rw [hr]
    simp only [hp]
  · intro r hp hn
    refine ⟨store.set recv r.receiver, ?_, hset _⟩
    unfold PlacePieceAt
    rw [hr]
    simp only [hp, hn]
  · intro r ns hp hn
    refine ⟨store.set recv r.receiver ++ [ns], store.length, ?_, ?_, by omega, ?_⟩
    · unfold PlacePieceAt
      rw [hr]
      simp only [hp, hn]
    · intro b hb
      rw [List.getElem?_append_left (by rw [List.length_set]; omega)]
      exact hset _ b hb
    · have := List.getElem?_concat_length (store.set recv r.receiver) ns
      rw [List.length_set] at this
      exact this

/-- One placement of a worker on the store does what `placeStep` does from `gs` and the
worker's own `CurrBoard`; it writes no object at an address below `n`. -/
theorem placeStepAt_sim (store : Store) (gs c : GameState) (job : Job) (n curr k : Nat)
    (h0 : store[0]? = some gs) (hc : store[curr]? = some c) (hpos : n ≤ curr) :
    (placeStep gs job c k = none → placeStepAt store job curr k = none) ∧
    (placeStep gs job c k = some none →
      ∃ store1, placeStepAt store job curr k = some (store1, none) ∧
        ∀ b, b < n → store1[b]? = store[b]?) ∧
    (∀ next, placeStep gs job c k = some (some next) →
      ∃ store1 a, placeStepAt store job curr k = some (store1, some a) ∧
        (∀ b, b < n → store1[b]? = store[b]?) ∧ n ≤ a ∧ store1[a]? = some next) := by
  cases hpiece : jobPiece gs job k with
  | none =>
    have e1 : placeStep gs job c k = none := by unfold placeStep; rw [hpiece]
    have e2 : placeStepAt store job curr k = none := by
      unfold placeStepAt; rw [h0]; simp only [hpiece]
    rw [e1, e2]
    refine ⟨fun _ => rfl, ?_, ?_⟩
    · intro h
      cases h
    · intro _ h
      cases h
  | some piece =>
    cases hM : ToGameBoard piece (jobPos job k).X (jobPos job k).Y with
    | none =>
      have e1 : placeStep gs job c k = none := by unfold placeStep; rw [hpiece]; simp only [hM]
      have e2 : placeStepAt store job curr k = none := by
        unfold placeStepAt; rw [h0]; simp only [hpiece, hc, hM]
      rw [e1, e2]
      refine ⟨fun _ => rfl, ?_, ?_⟩
      · intro h
        cases h
      · intro _ h
        cases h
    | some m =>
      by_cases hcol : (m &&& c.Board != 0) = true
      · have e1 : placeStep gs job c k = some none := by
          unfold placeStep; rw [hpiece]; simp only [hM]; rw [if_pos hcol]
        have e2 : placeStepAt store job curr k
            = some (store.set curr { c with Score := -1000000000000 }, none) := by
          unfold placeStepAt; rw [h0]; simp only [hpiece, hc, hM]; rw [if_pos hcol]
        rw [e1, e2]
        refine ⟨?_, ?_, ?_⟩
        · intro h
          cases h
        · intro _
          refine ⟨_, rfl, ?_⟩
          intro b hb
          rw [List.getElem?_set_ne (by omega)]
        · intro _ h
          cases h
      · have e2 : placeStepAt store job curr k
            = PlacePieceAt store curr piece (jobPos job k) := by
          unfold placeStepAt; rw [h0]; simp only [hpiece, hc, hM]; rw [if_neg hcol]
        obtain ⟨s1, s2, s3⟩ := PlacePieceAt_sim store c n curr piece (jobPos job k) hc hpos
        cases hp : PlacePiece c piece (jobPos job k) with
        | none =>
          have e1 : placeStep gs job c k = none := by
            unfold placeStep; rw [hpiece]; simp only [hM]; rw [if_neg hcol, hp]
          rw [e1, e2, s1 hp]
          refine ⟨fun _ => rfl, ?_, ?_⟩
          · intro h
            cases h
          · intro _ h
            cases h
        | some r =>
          have e1 : placeStep gs job c k = some r.newState := by
            unfold placeStep; rw [hpiece]; simp only [hM]; rw [if_neg hcol, hp]
          rw [e1, e2]
          refine ⟨?_, ?_, ?_⟩
          · intro h
            cases h
          · intro h
            exact s2 r hp (Option.some.inj h)
          · intro next h
            exact s3 r next hp (Option.some.inj h)

theorem placeAllAt_sim (gs : GameState) (job : Job) (n : Nat) (hn : 1 ≤ n) (ks : List Nat)
    (store : Store) (c : GameState) (curr : Nat)
    (h0 : store[0]? = some gs) (hc : store[curr]? = some c) (hpos : n ≤ curr) :
    (placeAll gs job ks c = none → placeAllAt job ks store curr = none) ∧
    (placeAll gs job ks c = some none →
      ∃ store1, placeAllAt job ks store curr = some (store1, none) ∧
        ∀ b, b < n → store1[b]? = store[b]?) ∧
    (∀ final, placeAll gs job ks c = some (some final) →
      ∃ store1 a, placeAllAt job ks store curr = some (store1, some a) ∧
        (∀ b, b < n → store1[b]? = store[b]?) ∧ n ≤ a ∧ store1[a]? = some final) := by
  induction ks generalizing store c curr with
  | nil =>
    refine ⟨?_, ?_, ?_⟩
    · intro h
      simp [placeAll] at h
    · intro h
      simp [placeAll] at h
    · intro final h
      simp only [placeAll, Option.some.injEq] at h
      subst h
      exact ⟨store, curr, rfl, fun _ _ => rfl, hpos, hc⟩
  | cons k t ih =>
    obtain ⟨s1, s2, s3⟩ := placeStepAt_sim store gs c job n curr k h0 hc hpos
    cases hp : placeStep gs job c k with
    | none =>
      have e1 : placeAll gs job (k :: t) c = none := by unfold placeAll; rw [hp]
      have e2 : placeAllAt job (k :: t) store curr = none := by
        unfold placeAllAt; rw [s1 hp]
      rw [e1, e2]
      refine ⟨fun _ => rfl, ?_, ?_⟩
      · intro h
        cases h
      · intro _ h
        cases h
    | some o =>
      cases o with
      | none =>
        obtain ⟨store1, hs1, h01⟩ := s2 hp
        have e1 : placeAll gs job (k :: t) c = some none := by unfold placeAll; rw [hp]
        have e2 : placeAllAt job (k :: t) store curr = some (store1, none) := by
          unfold placeAllAt; rw [hs1]
        rw [e1, e2]
        refine ⟨?_, ?_, ?_⟩
        · intro h
          cases h
        · intro _
          exact ⟨store1, rfl, h01⟩
        · intro _ h
          cases h
      | some next =>
        obtain ⟨store1, a, hs1, h01, ha, hnext⟩ := s3 next hp
        have e1 : placeAll gs job (k :: t) c = placeAll gs job t next := by
          rw [placeAll, hp]
        have e2 : placeAllAt job (k :: t) store curr = placeAllAt job t store1 a := by
          rw [placeAllAt, hs1]
        rw [e1, e2]
        have h01' : store1[0]? = some gs := by
          rw [h01 0 (by omega)]
          exact h0
        obtain ⟨i1, i2, i3⟩ := ih store1 next a h01' hnext ha
        refine ⟨i1, ?_, ?_⟩
        · intro h
          obtain ⟨store2, hs2, h02⟩ := i2 h
          exact ⟨store2, hs2, fun b hb => (h02 b hb).trans (h01 b hb)⟩
        · intro final h
          obtain ⟨store2, a2, hs2, h02, ha2, hfin⟩ := i3 final h
          exact ⟨store2, a2, hs2, fun b hb => (h02 b hb).trans (h01 b hb), ha2, hfin⟩

theorem length_le_of_frame (store store1 : Store)
    (h : ∀ b, b < store.length → store1[b]? = store[b]?) : store.length ≤ store1.length := by
  by_contra hlt
  have hb := h store1.length (by omega)
  rw [List.getElem?_eq_none (Nat.le_refl _)] at hb
  have := List.getElem?_eq_none_iff.mp hb.symm
  omega

/-- A worker's job on a store whose address 0 holds `gs`, whatever else the store holds:
the result is that of `evalJob gs job`, and no object that was in the store when the job
started is written; the worker writes objects it has allocated itself. -/
theorem evalJobAt_sim (store : Store) (gs : GameState) (job : Job)
    (h0 : store[0]? = some gs) :
    (evalJob gs job = none → evalJobAt store job = none) ∧
    (∀ r, evalJob gs job = some r →
      ∃ store1, evalJobAt store job = some (store1, r) ∧
        ∀ b, b < store.length → store1[b]? = store[b]?) := by
  have hlen : 0 < store.length := (List.getElem?_eq_some.mp h0).1
  have h0' : (store ++ [startState gs])[0]? = some gs := by
    rw [List.getElem?_append_left hlen]
    exact h0
  have hc : (store ++ [startState gs])[store.length]? = some (startState gs) :=
    List.getElem?_concat_length store (startState gs)
  have happ : ∀ b, b < store.length → (store ++ [startState gs])[b]? = store[b]? :=
    fun b hb => List.getElem?_append_left hb
  obtain ⟨s1, s2, s3⟩ := placeAllAt_sim gs job store.length hlen [0, 1, 2]
    (store ++ [startState gs]) (startState gs) store.length h0' hc (Nat.le_refl _)
  cases hp : placeAll gs job [0, 1, 2] (startState gs) with
  | none =>
    have e1 : evalJob gs job = none := by unfold evalJob; rw [hp]
    have e2 : evalJobAt store job = none := by
      unfold evalJobAt; rw [h0]; simp only [s1 hp]
    rw [e1, e2]
    refine ⟨fun _ => rfl, ?_⟩
    intro r h
    cases h
  | some o =>
    cases o with
    | none =>
      obtain ⟨store1, hs1, h01⟩ := s2 hp
      have e1 : evalJob gs job = some none := by unfold evalJob; rw [hp]
      have e2 : evalJobAt store job = some (store1, none) := by
        unfold evalJobAt; rw [h0]; simp only [hs1]
      rw [e1, e2]
      refine ⟨?_, ?_⟩
      · intro h
        cases h
      · intro r h
        cases h
        exact ⟨store1, rfl, fun b hb => (h01 b hb).trans (happ b hb)⟩
    | some final =>
      obtain ⟨store1, a, hs1, h01, ha, hfinal⟩ := s3 final hp
      have e1 : evalJob gs job = some (some { job with Score := (Penalize final).Score }) := by
        unfold evalJob; rw [hp]
      have e2 : evalJobAt store job
          = some (store1.set a (Penalize final),
              some { job with Score := (Penalize final).Score }) := by
        unfold evalJobAt
        rw [h0]
        simp only [hs1]
        rw [if_neg (by omega)]
        simp only [hfinal]
      rw [e1, e2]
      refine ⟨?_, ?_⟩
      · intro h
        cases h
      · intro r h
        cases h
        refine ⟨_, rfl, ?_⟩
        intro b hb
        rw [List.getElem?_set_ne (by omega)]
        exact (h01 b hb).trans (happ b hb)

/-- The pass over the jobs on the store yields the `ValidJobs` of the pass that evaluates
every job from `gs` alone, and leaves the objects the store held at the start, the one at
address 0 among them, as they were. -/
theorem collectAt_sim (gs : GameState) (jobs : List Job) (store : Store)
    (h0 : store[0]? = some gs) :
    (collect gs jobs = none → collectAt store jobs = none) ∧
    (∀ valid, collect gs jobs = some valid →
      ∃ store1, collectAt store jobs = some (store1, valid) ∧
        ∀ b, b < store.length → store1[b]? = store[b]?) := by
  induction jobs generalizing store with
  | nil =>
    refine ⟨?_, ?_⟩
    · intro h
      simp [collect] at h
    · intro valid h
      simp only [collect, Option.some.injEq] at h
      subst h
      exact ⟨store, rfl, fun _ _ => rfl⟩
  | cons job t ih =>
    obtain ⟨s1, s2⟩ := evalJobAt_sim store gs job h0
    cases he : evalJob gs job with
    | none =>
      have e1 : collect gs (job :: t) = none := by unfold collect; rw [he]
      have e2 : collectAt store (job :: t) = none := by unfold collectAt; rw [s1 he]
      rw [e1, e2]
      refine ⟨fun _ => rfl, ?_⟩
      intro valid h
      cases h
    | some o =>
      obtain ⟨store1, hs1, h01⟩ := s2 o he
      have hlen : 0 < store.length := (List.getElem?_eq_some.mp h0).1
      have hle := length_le_of_frame store store1 h01
      obtain ⟨i1, i2⟩ := ih store1 ((h01 0 hlen).trans h0)
      cases o with
      | none =>
        have e1 : collect gs (job :: t) = collect gs t := by rw [collect, he]
        have e2 : collectAt store (job :: t) = collectAt store1 t := by rw [collectAt, hs1]
        rw [e1, e2]
        refine ⟨i1, ?_⟩
        intro valid h
        obtain ⟨store2, hs2, h02⟩ := i2 valid h
        exact ⟨store2, hs2, fun b hb => (h02 b (by omega)).trans (h01 b hb)⟩
      | some scored =>
        have e1 : collect gs (job :: t) = (collect gs t).map (fun rest => scored :: rest) := by
          rw [collect, he]
        have e2 : collectAt store (job :: t)
            = (collectAt store1 t).map (fun r => (r.1, scored :: r.2)) := by
          rw [collectAt, hs1]
        rw [e1, e2]
        cases hc : collect gs t with
        | none =>
          rw [i1 hc]
          refine ⟨fun _ => rfl, ?_⟩
          intro valid h
          cases h
        | some rest =>
          obtain ⟨store2, hs2, h02⟩ := i2 rest hc
          rw [hs2]
          refine ⟨?_, ?_⟩
          · intro h
            cases h
          · intro valid h
            simp only [Option.map_some', Option.some.injEq] at h
            subst h
            exact ⟨store2, rfl, fun b hb => (h02 b (by omega)).trans (h01 b hb)⟩

theorem FindBestMoveAt_sim (schedule : List Job → List Job) (gs : GameState) :
    (FindBestMoveIn schedule gs = none → FindBestMoveAt schedule gs = none) ∧
    (∀ result, FindBestMoveIn schedule gs = some result →
      ∃ store, FindBestMoveAt schedule gs = some (store, result) ∧ store[0]? = some gs) := by
  cases hjobs : enumerate gs with
  | none =>
    have e1 : FindBestMoveIn schedule gs = none := by unfold FindBestMoveIn; rw [hjobs]
    have e2 : FindBestMoveAt schedule gs = none := by unfold FindBestMoveAt; rw [hjobs]
    rw [e1, e2]
    refine ⟨fun _ => rfl, ?_⟩
    intro r h
    cases h
  | some jobs =>
    obtain ⟨s1, s2⟩ := collectAt_sim gs (schedule jobs) [gs] rfl
    cases hvalid : collect gs (schedule jobs) with
    | none =>
      have e1 : FindBestMoveIn schedule gs = none := by
        unfold FindBestMoveIn; rw [hjobs]; simp only [hvalid]
      have e2 : FindBestMoveAt schedule gs = none := by
        unfold FindBestMoveAt; rw [hjobs]; simp only [s1 hvalid]
      rw [e1, e2]
      refine ⟨fun _ => rfl, ?_⟩
      intro r h
      cases h
    | some valid =>
      obtain ⟨store, hs, hframe⟩ := s2 valid hvalid
      have h0 : store[0]? = some gs := hframe 0 (Nat.zero_lt_succ 0)
      have e1 : FindBestMoveIn schedule gs = selectMoves gs valid :=
        FindBestMoveIn_eq schedule gs jobs valid hjobs hvalid
      have e2 : FindBestMoveAt schedule gs
          = (selectMoves gs valid).map (fun r => (store, r)) := by
        unfold FindBestMoveAt; rw [hjobs]; simp only [hs, h0]
      rw [e1, e2]
      cases hsel : selectMoves gs valid with
      | none =>
        refine ⟨fun _ => rfl, ?_⟩
        intro r h
        cases h
      | some res =>
        refine ⟨?_, ?_⟩
        · intro h
          cases h
        · intro r h
          cases h
          exact ⟨store, rfl, h0⟩

/-! ## The claims -/

/-- C1: when the projected mask `M` does not overlap the board `B`, `PlacePiece` succeeds
and bit `y * 8 + x` of the returned board is set iff it is set in `B ||| M` and neither
row `y` nor column `x` of `B ||| M` is full; the returned board is again a `uint64`. -/
theorem PlacePiece_clears_full_lines (gs : GameState) (piece : Piece) (pos : Postion) (M : Nat)
    (hM : ToGameBoard piece pos.X pos.Y = some M) (hfree : gs.Board &&& M = 0) :
    ∃ r ns, PlacePiece gs piece pos = some r ∧ r.newState = some ns ∧
      (∀ x y, x < 8 → y < 8 →
        (ns.Board.testBit (y * 8 + x) = true ↔
          (gs.Board ||| M).testBit (y * 8 + x) = true
            ∧ ¬ rowIsFull (gs.Board ||| M) y ∧ ¬ colIsFull (gs.Board ||| M) x)) ∧
      (gs.Board < 2 ^ 64 → ns.Board < 2 ^ 64) := by
  refine ⟨_, _, PlacePiece_of_free gs piece pos M hM hfree, rfl, ?_, ?_⟩
  · intro x y hx hy
    exact removeLines_cell gs.Score (gs.Board ||| M) hx hy
  · intro hB
    exact removeLines_board_lt gs.Score _ (Nat.or_lt_two_pow hB (ToGameBoard_lt piece _ _ M hM))

/-- Witness of C1: the cell that completes row 0 of the board `0x7F`. -/
theorem PlacePiece_clears_full_lines_witness :
    ToGameBoard [[true]] 7 0 = some 128 ∧ (0x7F : Nat) &&& 128 = 0 ∧
    ∃ r ns, PlacePiece { Board := 0x7F, Pieces := [], Score := 0 } [[true]] { X := 7, Y := 0 }
        = some r ∧ r.newState = some ns ∧
      (∀ x y, x < 8 → y < 8 →
        (ns.Board.testBit (y * 8 + x) = true ↔
          ((0x7F : Nat) ||| 128).testBit (y * 8 + x) = true
            ∧ ¬ rowIsFull ((0x7F : Nat) ||| 128) y ∧ ¬ colIsFull ((0x7F : Nat) ||| 128) x)) ∧
      ((0x7F : Nat) < 2 ^ 64 → ns.Board < 2 ^ 64) :=
  ⟨by decide, by decide,
    PlacePiece_clears_full_lines { Board := 0x7F, Pieces := [], Score := 0 } [[true]]
      { X := 7, Y := 0 } 128 (by decide) (by decide)⟩

/-- C2: when `ToGameBoard` returns the mask `M`, `PlacePiece` returns, and it returns an
error (no state) iff the board and `M` share a set bit; in that case the receiver is
left as it was. -/
theorem PlacePiece_error_iff_collision (gs : GameState) (piece : Piece) (pos : Postion)
    (M : Nat) (hM : ToGameBoard piece pos.X pos.Y = some M) :
    ∃ r, PlacePiece gs piece pos = some r ∧
      (r.newState = none ↔ gs.Board &&& M ≠ 0) ∧
      (r.newState = none → r.receiver.Board = gs.Board ∧ r.receiver.Score = gs.Score
        ∧ r.receiver = gs) := by
  by_cases hcol : gs.Board &&& M = 0
  · refine ⟨_, PlacePiece_of_free gs piece pos M hM hcol, ?_, ?_⟩
    · simp [hcol]
    · intro h
      cases h
  · refine ⟨_, PlacePiece_of_collision gs piece pos M hM hcol, ?_, ?_⟩
    · simp [hcol]
    · intro _
      exact ⟨rfl, rfl, rfl⟩

/-- Witness of C2: a single cell placed on an occupied cell. -/
theorem PlacePiece_error_iff_collision_witness :
    ToGameBoard [[true]] 0 0 = some 1 ∧
    ∃ r, PlacePiece { Board := 1, Pieces := [], Score := 7 } [[true]] { X := 0, Y := 0 }
        = some r ∧
      (r.newState = none ↔ (1 : Nat) &&& 1 ≠ 0) ∧
      (r.newState = none → r.receiver.Board = 1 ∧ r.receiver.Score = 7
        ∧ r.receiver = { Board := 1, Pieces := [], Score := 7 }) :=
  ⟨by decide,
    PlacePiece_error_iff_collision { Board := 1, Pieces := [], Score := 7 } [[true]]
      { X := 0, Y := 0 } 1 (by decide)⟩

/-- C3: the board returned by a successful `PlacePiece` has no full row and no full
column. -/
theorem PlacePiece_no_full_line (gs : GameState) (piece : Piece) (pos : Postion)
    (r : PlaceResult) (ns : GameState) (h : PlacePiece gs piece pos = some r)
    (hns : r.newState = some ns) :
    (∀ y, y < 8 → ¬ rowIsFull ns.Board y) ∧ (∀ x, x < 8 → ¬ colIsFull ns.Board x) := by
  obtain ⟨M, _, _, hboard, _⟩ := PlacePiece_success_inv gs piece pos r ns h hns
  rw [hboard]
  constructor
  · intro y hy hfull
    by_cases hrow : rowIsFull (gs.Board ||| M) y
    · have h0 := hfull 0 (by decide)
      rw [removeLines_cell gs.Score _ (by decide) hy] at h0
      exact h0.2.1 hrow
    · apply hrow
      intro x hx
      have hx0 := hfull x hx
      rw [removeLines_cell gs.Score _ hx hy] at hx0
      exact hx0.1
  · intro x hx hfull
    by_cases hcolumn : colIsFull (gs.Board ||| M) x
    · have h0 := hfull 0 (by decide)
      have h0' : (removeLines gs.Score (gs.Board ||| M)).Board.testBit (0 * 8 + x) = true := h0
      rw [removeLines_cell gs.Score _ hx (by decide)] at h0'
      exact h0'.2.2 hcolumn
    · apply hcolumn
      intro y hy
      have hy0 := hfull y hy
      rw [removeLines_cell gs.Score _ hx hy] at hy0
      exact hy0.1

/-- Witness of C3: a row of 8 cells placed on the empty board. -/
theorem PlacePiece_no_full_line_witness :
    PlacePiece { Board := 0, Pieces := [], Score := 0 }
        [[true, true, true, true, true, true, true, true]] { X := 0, Y := 0 }
      = some { receiver := { Board := 0, Pieces := [], Score := 50 }
               newState := some { Board := 0, Pieces := [], Score := 0 } } ∧
    (some { Board := 0, Pieces := [], Score := 0 } : Option GameState)
      = some { Board := 0, Pieces := [], Score := 0 } ∧
    (∀ y, y < 8 → ¬ rowIsFull (0 : Nat) y) ∧ (∀ x, x < 8 → ¬ colIsFull (0 : Nat) x) :=
  ⟨by set_option maxRecDepth 100000 in decide, rfl,
    PlacePiece_no_full_line { Board := 0, Pieces := [], Score := 0 }
      [[true, true, true, true, true, true, true, true]] { X := 0, Y := 0 }
      { receiver := { Board := 0, Pieces := [], Score := 50 }
        newState := some { Board := 0, Pieces := [], Score := 0 } }
      { Board := 0, Pieces := [], Score := 0 }
      (by set_option maxRecDepth 100000 in decide) rfl⟩

/-- Counterexample to C4: on the board `3` (two neighbouring cells, penalty 6) with the
score `-2 ^ 63`, the smallest `int`, `Penalize` does not leave the score lowered by 6: the
subtraction wraps around and the score becomes `2 ^ 63 - 6`. -/
theorem Penalize_penalty_counterexample :
    penalty 3 = 6 ∧
    (Penalize { Board := 3, Pieces := [], Score := -9223372036854775808 }).Score
      = 9223372036854775802 ∧
    (Penalize { Board := 3, Pieces := [], Score := -9223372036854775808 }).Score
      ≠ (-9223372036854775808 : Int) - penalty 3 := by
  have hp : penalty 3 = 6 := penalty_three
  have hs : (Penalize { Board := 3, Pieces := [], Score := -9223372036854775808 }).Score
      = 9223372036854775802 := by decide
  refine ⟨hp, hs, ?_⟩
  rw [hs, hp]
  decide

/-- C4 as amended: `Penalize` changes only `Score`; it lowers it by `penalty Board`, which
depends on the board alone (5 per empty cell whose in-bounds orthogonal neighbours are all
occupied, 10 per occupied cell whose in-bounds orthogonal neighbours are all empty, and 1
per pair of an occupied cell and an orthogonal direction whose neighbour is out of bounds
or empty), in 64-bit wrap-around arithmetic: the new score is `Score - penalty Board` when
that is at least `-2 ^ 63`, and `Score - penalty Board + 2 ^ 64` otherwise. -/
theorem Penalize_penalty (gs : GameState) :
    (Penalize gs).Board = gs.Board ∧ (Penalize gs).Pieces = gs.Pieces ∧
    (Penalize gs).Score = wrapInt (gs.Score - penalty gs.Board) ∧
    (isInt gs.Score → -2 ^ 63 ≤ gs.Score - penalty gs.Board →
      (Penalize gs).Score = gs.Score - penalty gs.Board) ∧
    (isInt gs.Score → gs.Score - penalty gs.Board < -2 ^ 63 →
      (Penalize gs).Score = gs.Score - penalty gs.Board + 2 ^ 64) := by
  refine ⟨rfl, rfl, Penalize_score gs, ?_, ?_⟩
  · intro hs hlow
    rw [Penalize_score, wrapInt_sub_penalty gs.Score gs.Board hs hlow]
  · intro hs hlow
    rw [Penalize_score, wrapInt_sub_penalty_low gs.Score gs.Board hs hlow]

/-- Witness of C4 as amended: the board `3` with the score 0 and with the score `-2 ^ 63`. -/
theorem Penalize_penalty_witness :
    (Penalize { Board := 3, Pieces := [], Score := 0 }).Score = 0 - penalty 3 ∧
    (Penalize { Board := 3, Pieces := [], Score := -2 ^ 63 }).Score
      = -2 ^ 63 - penalty 3 + 2 ^ 64 :=
  ⟨(Penalize_penalty { Board := 3, Pieces := [], Score := 0 }).2.2.2.1 (by decide)
      (by show -2 ^ 63 ≤ 0 - penalty 3; rw [penalty_three]; norm_num),
    (Penalize_penalty { Board := 3, Pieces := [], Score := -2 ^ 63 }).2.2.2.2 (by decide)
      (by
        show -2 ^ 63 - penalty 3 < -2 ^ 63
        rw [penalty_three]
        norm_num)⟩

/-- Counterexample to C5: with three `fullBlock` pieces on the empty board and the score
`-1000000`, the six jobs are all valid, yet `FindBestMove` returns neither `nil` nor the
moves of a valid job: no score exceeds the sentinel, `bestJob` stays the placeholder and
the lookup `Order[-1]` panics. -/
theorem FindBestMove_select_counterexample :
    (enumerate (blockState (-1000000))).map List.length = some 6 ∧
    ((enumerate (blockState (-1000000))).bind (collect (blockState (-1000000)))).map
      (List.map Job.Score) = some [-1000000, -1000000, -1000000, -1000000, -1000000, -1000000] ∧
    FindBestMove (blockState (-1000000)) = none := by
  set_option maxRecDepth 1000000 in decide

/-- C5 as amended: for a starting state with three pieces, the enumeration and the
sequential pass over the jobs return; `FindBestMove` returns `nil` exactly when no job
has all three of its placements go through; and when some valid job scores above the
sentinel `-1000000`, the returned moves are those of a valid job whose score is the
maximum over all valid jobs, the first such job in `ValidJobs`. -/
theorem FindBestMove_select (gs : GameState) (hlen : gs.Pieces.length = 3) :
    ∃ jobs valid, enumerate gs = some jobs ∧ collect gs jobs = some valid ∧
      (∀ scored, scored ∈ valid ↔ ∃ job ∈ jobs, ∃ final,
        placeAll gs job [0, 1, 2] (startState gs) = some (some final) ∧
          scored = { job with Score := (Penalize final).Score }) ∧
      (FindBestMove gs = some none ↔
        ∀ job ∈ jobs, ∀ final, placeAll gs job [0, 1, 2] (startState gs) ≠ some (some final)) ∧
      ((∃ j ∈ valid, j.Score > -1000000) →
        ∃ (i : Nat) (best : Job) (moves : List Move),
          valid[i]? = some best ∧ reconstruct gs best = some moves ∧
          FindBestMove gs = some (some moves) ∧
          (∀ j ∈ valid, j.Score ≤ best.Score) ∧
          ∀ (k : Nat) (j : Job), k < i → valid[k]? = some j → j.Score < best.Score) := by
  obtain ⟨jobs, hjobs, hshape⟩ := enumerate_isSome gs hlen
  obtain ⟨valid, hvalid⟩ := collect_isSome gs jobs
    (fun job hjob => evalJob_isSome gs hlen job (hshape job hjob))
  have hmem := mem_collect gs jobs valid hvalid
  refine ⟨jobs, valid, hjobs, hvalid, hmem, ?_, ?_⟩
  · rw [FindBestMove_eq gs jobs valid hjobs hvalid, selectMoves_eq_nil_iff]
    constructor
    · intro hnil job hjob final hfinal
      have : ({ job with Score := (Penalize final).Score } : Job) ∈ valid :=
        (hmem _).mpr ⟨job, hjob, final, hfinal, rfl⟩
      rw [hnil] at this
      cases this
    · intro hnone
      apply List.eq_nil_iff_forall_not_mem.mpr
      intro scored hscored
      obtain ⟨job, hjob, final, hfinal, _⟩ := (hmem scored).mp hscored
      exact hnone job hjob final hfinal
  · rintro ⟨j, hj, hjscore⟩
    rcases selectBest_cases valid with ⟨_, hall⟩ | ⟨i, best, hi, hbest, _, hmax, hfirst⟩
    · have := hall j hj
      omega
    · have hbmem : best ∈ valid := List.getElem?_mem hi
      obtain ⟨job, hjob, final, _, hscored⟩ := (hmem best).mp hbmem
      have hshape' : enumerated best := by
        rw [hscored]
        exact enumerated_of_scored job _ (hshape job hjob)
      obtain ⟨moves, hmoves⟩ := reconstruct_isSome gs hlen best hshape'.1 hshape'.2.1
      refine ⟨i, best, moves, hi, hmoves, ?_, hmax, hfirst⟩
      rw [FindBestMove_eq gs jobs valid hjobs hvalid]
      unfold selectMoves
      have hne : ¬ valid.length = 0 := by
        intro h0
        rw [List.length_eq_zero.mp h0] at hj
        cases hj
      rw [if_neg hne, hbest, hmoves]
      rfl

/-- Witness of C5 as amended: three `fullBlock` pieces on the empty board. -/
theorem FindBestMove_select_witness :
    (blockState 0).Pieces.length = 3 ∧
    ∃ jobs valid,
      enumerate (blockState 0) = some jobs ∧ collect (blockState 0) jobs = some valid ∧
      (∀ scored, scored ∈ valid ↔ ∃ job ∈ jobs, ∃ final,
        placeAll (blockState 0) job [0, 1, 2] (startState (blockState 0))
            = some (some final) ∧
          scored = { job with Score := (Penalize final).Score }) ∧
      (FindBestMove (blockState 0) = some none ↔
        ∀ job ∈ jobs, ∀ final,
          placeAll (blockState 0) job [0, 1, 2] (startState (blockState 0))
            ≠ some (some final)) ∧
      ((∃ j ∈ valid, j.Score > -1000000) →
        ∃ (i : Nat) (best : Job) (moves : List Move),
          valid[i]? = some best ∧ reconstruct (blockState 0) best = some moves ∧
          FindBestMove (blockState 0) = some (some moves) ∧
          (∀ j ∈ valid, j.Score ≤ best.Score) ∧
          ∀ (k : Nat) (j : Job), k < i → valid[k]? = some j → j.Score < best.Score) :=
  ⟨rfl, FindBestMove_select (blockState 0) rfl⟩

/-- C6: whatever the order in which the workers finish the jobs, a move list returned by
`FindBestMove` has exactly 3 moves; they are built from the winning job `best` of
`ValidJobs`, the scored version of an enumerated job: the piece indices are the row
`Order[best.OrderIndex]`, a permutation of `[0, 1, 2]`, the pieces are
`Pieces[PieceIndex]`, the targets are `FirstPos`, `SecondPos`, `ThirdPos`; and replaying
the moves in list order with `PlacePiece` from the starting state succeeds at every step. -/
theorem FindBestMove_moves_replay (schedule : List Job → List Job) (gs : GameState)
    (moves : List Move) (hsched : ∀ jobs, (schedule jobs).Perm jobs)
    (h : FindBestMoveIn schedule gs = some (some moves)) :
    ∃ (jobs valid : List Job) (best : Job) (i0 i1 i2 : Nat) (p0 p1 p2 : Piece),
      enumerate gs = some jobs ∧ collect gs (schedule jobs) = some valid ∧
      best = selectBest valid ∧ best ∈ valid ∧
      (∃ job ∈ jobs, best = { job with Score := best.Score }) ∧
      orderAt best.OrderIndex = some [i0, i1, i2] ∧ [i0, i1, i2].Perm [0, 1, 2] ∧
      gs.Pieces[i0]? = some p0 ∧ gs.Pieces[i1]? = some p1 ∧ gs.Pieces[i2]? = some p2 ∧
      moves = [{ Piece := p0, PieceIndex := i0, To := best.FirstPos },
               { Piece := p1, PieceIndex := i1, To := best.SecondPos },
               { Piece := p2, PieceIndex := i2, To := best.ThirdPos }] ∧
      moves.length = 3 ∧
      ∃ r1 s1 r2 s2 r3 s3,
        PlacePiece gs p0 best.FirstPos = some r1 ∧ r1.newState = some s1 ∧
        PlacePiece s1 p1 best.SecondPos = some r2 ∧ r2.newState = some s2 ∧
        PlacePiece s2 p2 best.ThirdPos = some r3 ∧ r3.newState = some s3 := by
  obtain ⟨jobs, valid, hjobs, hvalid, h⟩ := FindBestMoveIn_inv schedule gs (some moves) h
  unfold selectMoves at h
  by_cases hlen0 : valid.length = 0
  · rw [if_pos hlen0] at h
    cases h
  · rw [if_neg hlen0] at h
    cases hrec : reconstruct gs (selectBest valid) with
    | none => rw [hrec] at h; cases h
    | some ms =>
      rw [hrec] at h
      simp only [Option.map_some', Option.some.injEq] at h
      subst h
      obtain ⟨i0, i1, i2, p0, p1, p2, horder, hperm, hp0, hp1, hp2, hmoves⟩ :=
        reconstruct_inv gs _ _ hrec
      have hidx := (orderAt_some _ _ horder).1
      have hbmem : selectBest valid ∈ valid := by
        rcases selectBest_cases valid with ⟨hph, _⟩ | ⟨i, r, hi, hr, _⟩
        · rw [hph] at hidx
          exact absurd hidx (by decide)
        · rw [hr]
          exact List.getElem?_mem hi
      obtain ⟨job, hjob, final, hfinal, hscored⟩ :=
        (mem_collect gs (schedule jobs) valid hvalid _).mp hbmem
      obtain ⟨q0, q1, q2, r1, s1, r2, s2, r3, hq0, hq1, hq2, hr1, hs1, hr2, hs2, hr3,
        hs3⟩ := placeAll_success_inv gs job _ final hfinal
      have horder' : orderAt job.OrderIndex = some [i0, i1, i2] := by
        rw [hscored] at horder
        exact horder
      obtain ⟨e0, e1, e2⟩ := jobPiece_of_order gs job i0 i1 i2 horder'
      have hq0' : q0 = p0 := by
        rw [e0, hp0] at hq0
        exact (Option.some.inj hq0).symm
      have hq1' : q1 = p1 := by
        rw [e1, hp1] at hq1
        exact (Option.some.inj hq1).symm
      have hq2' : q2 = p2 := by
        rw [e2, hp2] at hq2
        exact (Option.some.inj hq2).symm
      subst hq0' hq1' hq2'
      have hF : (selectBest valid).FirstPos = job.FirstPos := by rw [hscored]
      have hS : (selectBest valid).SecondPos = job.SecondPos := by rw [hscored]
      have hT : (selectBest valid).ThirdPos = job.ThirdPos := by rw [hscored]
      obtain ⟨r1b, s1b, hr1b, hs1b, hb1⟩ :=
        PlacePiece_board_congr (startState gs) gs q0 job.FirstPos r1 s1 rfl hr1 hs1
      obtain ⟨r2b, s2b, hr2b, hs2b, hb2⟩ :=
        PlacePiece_board_congr s1 s1b q1 job.SecondPos r2 s2 hb1 hr2 hs2
      obtain ⟨r3b, s3b, hr3b, hs3b, _⟩ :=
        PlacePiece_board_congr s2 s2b q2 job.ThirdPos r3 final hb2 hr3 hs3
      have hjob' : ∃ job ∈ jobs, selectBest valid
          = { job with Score := (selectBest valid).Score } := by
        refine ⟨job, (hsched jobs).subset hjob, ?_⟩
        rw [hscored]
      refine ⟨jobs, valid, selectBest valid, i0, i1, i2, q0, q1, q2, hjobs, hvalid, rfl, hbmem,
        hjob', horder, hperm, hp0, hp1, hp2, hmoves, by rw [hmoves]; rfl, ?_⟩
      rw [hF, hS, hT]
      exact ⟨r1b, s1b, r2b, s2b, r3b, s3b, hr1b, hs1b, hr2b, hs2b, hr3b, hs3b⟩

/-- Witness of C6: three `fullBlock` pieces on the empty board, the six jobs finished in
reverse order; the last job of the queue, appended first, wins the tie, where the run in
queue order returns the moves of the first job. -/
theorem FindBestMove_moves_replay_witness :
    (∀ jobs : List Job, jobs.reverse.Perm jobs) ∧
    FindBestMoveIn id (blockState 0) = some (some blockMoves) ∧
    FindBestMoveIn List.reverse (blockState 0) = some (some blockMovesRev) ∧
    ∃ (jobs valid : List Job) (best : Job) (i0 i1 i2 : Nat) (p0 p1 p2 : Piece),
      enumerate (blockState 0) = some jobs ∧
      collect (blockState 0) (List.reverse jobs) = some valid ∧
      best = selectBest valid ∧ best ∈ valid ∧
      (∃ job ∈ jobs, best = { job with Score := best.Score }) ∧
      orderAt best.OrderIndex = some [i0, i1, i2] ∧ [i0, i1, i2].Perm [0, 1, 2] ∧
      (blockState 0).Pieces[i0]? = some p0 ∧ (blockState 0).Pieces[i1]? = some p1 ∧
      (blockState 0).Pieces[i2]? = some p2 ∧
      blockMovesRev = [{ Piece := p0, PieceIndex := i0, To := best.FirstPos },
                       { Piece := p1, PieceIndex := i1, To := best.SecondPos },
                       { Piece := p2, PieceIndex := i2, To := best.ThirdPos }] ∧
      blockMovesRev.length = 3 ∧
      ∃ r1 s1 r2 s2 r3 s3,
        PlacePiece (blockState 0) p0 best.FirstPos = some r1 ∧ r1.newState = some s1 ∧
        PlacePiece s1 p1 best.SecondPos = some r2 ∧ r2.newState = some s2 ∧
        PlacePiece s2 p2 best.ThirdPos = some r3 ∧ r3.newState = some s3 :=
  have hsched : ∀ jobs : List Job, jobs.reverse.Perm jobs := fun jobs => List.reverse_perm jobs
  have h : FindBestMoveIn List.reverse (blockState 0) = some (some blockMovesRev) := by
    set_option maxRecDepth 1000000 in decide
  ⟨hsched, by set_option maxRecDepth 1000000 in decide, h,
    FindBestMove_moves_replay List.reverse (blockState 0) blockMovesRev hsched h⟩

/-- Counterexample to C7: on the board `0x7F` with the score `2 ^ 63 - 1`, the largest
`int`, the cell placed at `(7, 0)` completes row 0 (one full line, bonus 50), and the
receiver's score is not `2 ^ 63 - 1 + 50`: the addition wraps around to `-2 ^ 63 + 49`. -/
theorem PlacePiece_bonus_counterexample :
    ToGameBoard [[true]] 7 0 = some 128 ∧ (0x7F : Nat) &&& 128 = 0 ∧
    fullLineCount (0x7F ||| 128) = 1 ∧ lineBonus 1 = 50 ∧
    PlacePiece { Board := 0x7F, Pieces := [], Score := 9223372036854775807 } [[true]]
        { X := 7, Y := 0 }
      = some { receiver := { Board := 0x7F, Pieces := [], Score := -9223372036854775759 }
               newState := some { Board := 0, Pieces := [], Score := 9223372036854775807 } } ∧
    (-9223372036854775759 : Int) ≠ 9223372036854775807 + lineBonus 1 := by
  set_option maxRecDepth 100000 in
  refine ⟨by decide, by decide, by decide, by decide, by decide, by decide⟩

/-- C7 as amended: on a successful `PlacePiece` whose post-placement board `B ||| M` has
`m` full lines, the bonus is `50 * 1 + ... + 50 * m = 25 * m * (m + 1)`; it is added to
the score of the receiver in 64-bit wrap-around arithmetic (the sum itself when that is
below `2 ^ 63`, the sum less `2 ^ 64` otherwise), the receiver's board is untouched, and
the returned state carries the score the receiver had before the call. -/
theorem PlacePiece_bonus (gs : GameState) (piece : Piece) (pos : Postion) (M : Nat)
    (hM : ToGameBoard piece pos.X pos.Y = some M) (hfree : gs.Board &&& M = 0)
    (hscore : isInt gs.Score) :
    ∃ r ns, PlacePiece gs piece pos = some r ∧ r.newState = some ns ∧
      r.receiver.Score = wrapInt (gs.Score + lineBonus (fullLineCount (gs.Board ||| M))) ∧
      (gs.Score + lineBonus (fullLineCount (gs.Board ||| M)) < 2 ^ 63 →
        r.receiver.Score = gs.Score + lineBonus (fullLineCount (gs.Board ||| M))) ∧
      (2 ^ 63 ≤ gs.Score + lineBonus (fullLineCount (gs.Board ||| M)) →
        r.receiver.Score
          = gs.Score + lineBonus (fullLineCount (gs.Board ||| M)) - 2 ^ 64) ∧
      lineBonus (fullLineCount (gs.Board ||| M))
        = 25 * (fullLineCount (gs.Board ||| M) : Int)
            * ((fullLineCount (gs.Board ||| M) : Int) + 1) ∧
      r.receiver.Board = gs.Board ∧ ns.Score = gs.Score := by
  have hs : (removeLines gs.Score (gs.Board ||| M)).Score
      = wrapInt (gs.Score + lineBonus (fullLineCount (gs.Board ||| M))) :=
    removeLines_score_wrap gs.Score (gs.Board ||| M) hscore
  have hb := lineBonus_bounds (gs.Board ||| M)
  rw [isInt_iff] at hscore
  refine ⟨_, _, PlacePiece_of_free gs piece pos M hM hfree, rfl, hs, ?_, ?_, lineBonus_eq _,
    rfl, rfl⟩
  · intro hlt
    norm_num at hlt
    show (removeLines gs.Score (gs.Board ||| M)).Score = _
    rw [hs, wrapInt_eq]
    omega
  · intro hge
    norm_num at hge
    show (removeLines gs.Score (gs.Board ||| M)).Score = _
    rw [hs, wrapInt_eq]
    norm_num
    omega

/-- Witness of C7 as amended: the cell that completes row 0 and column 0 at once earns
150. -/
theorem PlacePiece_bonus_witness :
    ToGameBoard [[true]] 0 0 = some 1 ∧ (0x01010101010101FE : Nat) &&& 1 = 0 ∧ isInt 3 ∧
    ∃ r ns, PlacePiece { Board := 0x01010101010101FE, Pieces := [], Score := 3 } [[true]]
        { X := 0, Y := 0 } = some r ∧ r.newState = some ns ∧
      r.receiver.Score = wrapInt (3 + lineBonus (fullLineCount (0x01010101010101FE ||| 1))) ∧
      (3 + lineBonus (fullLineCount (0x01010101010101FE ||| 1)) < 2 ^ 63 →
        r.receiver.Score = 3 + lineBonus (fullLineCount (0x01010101010101FE ||| 1))) ∧
      (2 ^ 63 ≤ 3 + lineBonus (fullLineCount (0x01010101010101FE ||| 1)) →
        r.receiver.Score
          = 3 + lineBonus (fullLineCount (0x01010101010101FE ||| 1)) - 2 ^ 64) ∧
      lineBonus (fullLineCount (0x01010101010101FE ||| 1))
        = 25 * (fullLineCount (0x01010101010101FE ||| 1) : Int)
            * ((fullLineCount (0x01010101010101FE ||| 1) : Int) + 1) ∧
      r.receiver.Board = 0x01010101010101FE ∧ ns.Score = 3 :=
  ⟨by decide, by decide, by decide,
    PlacePiece_bonus { Board := 0x01010101010101FE, Pieces := [], Score := 3 } [[true]]
      { X := 0, Y := 0 } 1 (by decide) (by decide) (by decide)⟩

/-- C8 at a failing input: on `lineState` the enumerated job `lineJob` is valid; its first
placement completes row 0 and the bonus 50 goes to the receiver, a state the worker then
drops; the final board is `3` with penalty 6, and the score attached to the job in
`ValidJobs` is `-6`, not `0 + 50 - 6 = 44`. -/
theorem FindBestMove_drops_bonus :
    ∃ jobs valid, enumerate lineState = some jobs ∧ collect lineState jobs = some valid ∧
      lineJob ∈ jobs ∧ { lineJob with Score := -6 } ∈ valid ∧
      PlacePiece (startState lineState) [[true]] { X := 7, Y := 0 }
        = some { receiver := { Board := 0x7F, Pieces := [[], [], []], Score := 50 }
                 newState := some { Board := 0, Pieces := [[], [], []], Score := 0 } } ∧
      placeAll lineState lineJob [0, 1, 2] (startState lineState)
        = some (some { Board := 3, Pieces := [[], [], []], Score := 0 }) ∧
      evalJob lineState lineJob = some (some { lineJob with Score := -6 }) ∧
      lineState.Score + lineBonus 1 + lineBonus 0 + lineBonus 0 - penalty 3 = 44 := by
  have hlen : lineState.Pieces.length = 3 := rfl
  obtain ⟨valid, hvalid⟩ := collect_isSome lineState _
    (fun job hjob => evalJob_isSome lineState hlen job
      ((enumerate_isSome_of_three lineState [[true]] [[true]] [[true]] rfl).2 job hjob))
  have hplace : placeAll lineState lineJob [0, 1, 2] (startState lineState)
      = some (some { Board := 3, Pieces := [[], [], []], Score := 0 }) := by
    set_option maxRecDepth 100000 in decide
  have hmemjob : lineJob ∈ jobsFor 0 (getBounds [[true]]) (getBounds [[true]])
      (getBounds [[true]]) := by
    unfold jobsFor positions
    simp only [List.mem_flatMap, List.mem_map, List.mem_range]
    exact ⟨{ X := 7, Y := 0 }, ⟨7, by decide, 0, by decide, rfl⟩,
      { X := 0, Y := 0 }, ⟨0, by decide, 0, by decide, rfl⟩,
      { X := 1, Y := 0 }, ⟨1, by decide, 0, by decide, rfl⟩, rfl⟩
  have hmem : lineJob ∈
      jobsFor 0 (getBounds [[true]]) (getBounds [[true]]) (getBounds [[true]])
        ++ jobsFor 1 (getBounds [[true]]) (getBounds [[true]]) (getBounds [[true]])
        ++ jobsFor 2 (getBounds [[true]]) (getBounds [[true]]) (getBounds [[true]])
        ++ jobsFor 3 (getBounds [[true]]) (getBounds [[true]]) (getBounds [[true]])
        ++ jobsFor 4 (getBounds [[true]]) (getBounds [[true]]) (getBounds [[true]])
        ++ jobsFor 5 (getBounds [[true]]) (getBounds [[true]]) (getBounds [[true]]) := by
    simp only [List.mem_append]
    exact Or.inl (Or.inl (Or.inl (Or.inl (Or.inl hmemjob))))
  refine ⟨_, valid, enumerate_of_three lineState [[true]] [[true]] [[true]] rfl, hvalid,
    hmem, ?_, by set_option maxRecDepth 100000 in decide, hplace,
    by set_option maxRecDepth 100000 in decide, ?_⟩
  · exact (mem_collect lineState _ valid hvalid _).mpr ⟨lineJob, hmem, _, hplace, by decide⟩
  · rw [penalty_three]
    decide

/-- Counterexample to C9: a row of 8 cells placed on the empty board does not overlap
it, yet the returned board is empty, so `R &&& M` is `0` and not `M = 255`. -/
theorem PlacePiece_mask_kept_counterexample :
    ToGameBoard [[true, true, true, true, true, true, true, true]] 0 0 = some 255 ∧
    (0 : Nat) &&& 255 = 0 ∧
    ∃ r ns, PlacePiece { Board := 0, Pieces := [], Score := 0 }
        [[true, true, true, true, true, true, true, true]] { X := 0, Y := 0 } = some r ∧
      r.newState = some ns ∧ ns.Board &&& 255 ≠ 255 :=
  ⟨by decide, by decide, _, _, (by decide :
      PlacePiece { Board := 0, Pieces := [], Score := 0 }
        [[true, true, true, true, true, true, true, true]] { X := 0, Y := 0 }
      = some { receiver := { Board := 0, Pieces := [], Score := 50 }
               newState := some { Board := 0, Pieces := [], Score := 0 } }), rfl, by decide⟩

/-- C9 as amended: when the mask `M` does not overlap `B`, a cell of `M` is set in the
returned board `R` iff neither its row nor its column is full in `B ||| M`; so when
`B ||| M` has no full row and no full column, `R &&& M = M`. -/
theorem PlacePiece_mask_kept (gs : GameState) (piece : Piece) (pos : Postion) (M : Nat)
    (hM : ToGameBoard piece pos.X pos.Y = some M) (hfree : gs.Board &&& M = 0) :
    ∃ r ns, PlacePiece gs piece pos = some r ∧ r.newState = some ns ∧
      (∀ x y, x < 8 → y < 8 →
        ((ns.Board &&& M).testBit (y * 8 + x) = true ↔
          M.testBit (y * 8 + x) = true
            ∧ ¬ rowIsFull (gs.Board ||| M) y ∧ ¬ colIsFull (gs.Board ||| M) x)) ∧
      ((∀ y, y < 8 → ¬ rowIsFull (gs.Board ||| M) y) →
        (∀ x, x < 8 → ¬ colIsFull (gs.Board ||| M) x) → ns.Board &&& M = M) := by
  refine ⟨_, _, PlacePiece_of_free gs piece pos M hM hfree, rfl, ?_, ?_⟩
  · intro x y hx hy
    rw [Nat.testBit_and, Bool.and_eq_true, removeLines_cell gs.Score _ hx hy, Nat.testBit_or]
    constructor
    · rintro ⟨⟨_, h2, h3⟩, hm⟩
      exact ⟨hm, h2, h3⟩
    · rintro ⟨hm, h2, h3⟩
      exact ⟨⟨by simp [hm], h2, h3⟩, hm⟩
  · intro hrows hcols
    apply Nat.eq_of_testBit_eq
    intro p
    by_cases hp : p < 64
    · have hcell := removeLines_cell gs.Score (gs.Board ||| M)
        (x := p % 8) (y := p / 8) (Nat.mod_lt _ (by decide)) (by omega)
      have hpe : p / 8 * 8 + p % 8 = p := by omega
      rw [hpe] at hcell
      rw [Nat.testBit_and]
      cases hm : M.testBit p with
      | false => simp
      | true =>
        have : (removeLines gs.Score (gs.Board ||| M)).Board.testBit p = true :=
          hcell.mpr ⟨by simp [hm], hrows _ (by omega), hcols _ (Nat.mod_lt _ (by decide))⟩
        simp [this]
    · have hM64 := ToGameBoard_lt piece _ _ M hM
      have : M.testBit p = false :=
        Nat.testBit_lt_two_pow
          (Nat.lt_of_lt_of_le hM64 (Nat.pow_le_pow_right (by decide) (by omega)))
      rw [Nat.testBit_and, this, Bool.and_false]

/-- Witness of C9 as amended: a single cell placed next to an occupied cell. -/
theorem PlacePiece_mask_kept_witness :
    ToGameBoard [[true]] 1 0 = some 2 ∧ (1 : Nat) &&& 2 = 0 ∧
    ∃ r ns, PlacePiece { Board := 1, Pieces := [], Score := 0 } [[true]] { X := 1, Y := 0 }
        = some r ∧ r.newState = some ns ∧
      (∀ x y, x < 8 → y < 8 →
        ((ns.Board &&& 2).testBit (y * 8 + x) = true ↔
          (2 : Nat).testBit (y * 8 + x) = true
            ∧ ¬ rowIsFull ((1 : Nat) ||| 2) y ∧ ¬ colIsFull ((1 : Nat) ||| 2) x)) ∧
      ((∀ y, y < 8 → ¬ rowIsFull ((1 : Nat) ||| 2) y) →
        (∀ x, x < 8 → ¬ colIsFull ((1 : Nat) ||| 2) x) → ns.Board &&& 2 = 2) :=
  ⟨by decide, by decide,
    PlacePiece_mask_kept { Board := 1, Pieces := [], Score := 0 } [[true]]
      { X := 1, Y := 0 } 2 (by decide) (by decide)⟩

/-- Counterexample to C10: on the board `0xFFFFFFFFFFFFFF00` the row of 8 cells placed at
`(0, 0)` does not clear exactly one line with a bonus of 50: the removal list holds all
8 rows and all 8 columns and the bonus is 6800. -/
theorem PlacePiece_last_row_counterexample :
    ¬ ∃ r ns, PlacePiece { Board := 0xFFFFFFFFFFFFFF00, Pieces := [], Score := 0 }
        [[true, true, true, true, true, true, true, true]] { X := 0, Y := 0 } = some r ∧
      r.newState = some ns ∧
      removingPieces (0xFFFFFFFFFFFFFF00 ||| 255) = [0] ∧
      r.receiver.Score = 0 + 50 := by
  rintro ⟨r, ns, _, _, hlines, _⟩
  have h16 : removingPieces (0xFFFFFFFFFFFFFF00 ||| 255)
      = [0, 1, 2, 3, 4, 5, 6, 7, 8, 9, 10, 11, 12, 13, 14, 15] := by decide
  rw [h16] at hlines
  cases hlines

/-- C10 as amended: on the board whose row 0 is empty and whose other cells are occupied,
placing the row of 8 cells at `(0, 0)` succeeds; every row and every column is then full,
so the removal list holds the 8 rows and the 8 columns, the returned board is empty, and
the bonus added to the receiver is `50 * (1 + ... + 16) = 6800` (added in `int`
arithmetic: the receiver's score is `score + 6800` unless that exceeds the largest `int`). -/
theorem PlacePiece_last_row (pieces : List Piece) (score : Int) :
    PlacePiece { Board := 0xFFFFFFFFFFFFFF00, Pieces := pieces, Score := score }
        [[true, true, true, true, true, true, true, true]] { X := 0, Y := 0 }
      = some { receiver := { Board := 0xFFFFFFFFFFFFFF00, Pieces := pieces,
                             Score := wrapInt (score + 6800) }
               newState := some { Board := 0, Pieces := pieces, Score := score } } ∧
    removingPieces (0xFFFFFFFFFFFFFF00 ||| 255)
      = [0, 1, 2, 3, 4, 5, 6, 7, 8, 9, 10, 11, 12, 13, 14, 15] ∧
    lineBonus 16 = 6800 ∧
    (isInt score → score + 6800 < 2 ^ 63 → wrapInt (score + 6800) = score + 6800) := by
  refine ⟨?_, by decide, by decide, ?_⟩
  · have hfree : (0xFFFFFFFFFFFFFF00 : Nat) &&& 255 = 0 := by decide
    rw [PlacePiece_of_free _ _ _ 255 (by set_option maxRecDepth 100000 in decide) hfree]
    have hs : (removeLines score (0xFFFFFFFFFFFFFF00 ||| 255)).Score
        = wrapInt (score + 6800) := by
      rw [removeLines_score]
      have h16 : fullLineCount (0xFFFFFFFFFFFFFF00 ||| 255) = 16 := by decide
      have : lineBonus 16 = 6800 := by decide
      rw [h16, this, if_neg (by decide)]
    have hb : (removeLines score (0xFFFFFFFFFFFFFF00 ||| 255)).Board = 0 := by
      rw [removeLines_board_score score 0]
      set_option maxRecDepth 100000 in decide
    simp only [hs, hb]
  · intro hs hlt
    apply wrapInt_of_isInt
    rw [isInt_iff] at hs ⊢
    norm_num at hlt
    omega

/-- Witness of C10 as amended: the receiver's score 0 becomes 6800. -/
theorem PlacePiece_last_row_witness :
    isInt 0 ∧ (0 : Int) + 6800 < 2 ^ 63 ∧ wrapInt ((0 : Int) + 6800) = 0 + 6800 :=
  ⟨by decide, by decide,
    (PlacePiece_last_row [] 0).2.2.2 (by decide) (by decide)⟩

/-- Counterexample to C11: on the fully occupied board with three copies of the non-empty
piece `[[false, true]]` (bounds `(1, 1)`), the enumerated job placing each piece at `(7, 7)`
is valid: the only filled cell has position `7 * 8 + 7 + 1 = 64`, its bit is shifted out and
the mask is `0`, so nothing collides, and `FindBestMove` returns moves instead of `nil`. -/
theorem FindBestMove_full_board_counterexample :
    shiftedState.Board = 2 ^ 64 - 1 ∧
    (∀ piece ∈ shiftedState.Pieces, ∃ i j, filled piece i j = true) ∧
    ToGameBoard [[false, true]] 7 7 = some 0 ∧
    FindBestMove shiftedState ≠ some none := by
  refine ⟨by decide, ?_, by set_option maxRecDepth 100000 in decide, ?_⟩
  · intro piece hpiece
    have : piece = [[false, true]] := by
      simp only [shiftedState, List.mem_cons, List.mem_singleton, or_self, List.mem_nil_iff,
        or_false] at hpiece
      exact hpiece
    rw [this]
    exact ⟨0, 1, by decide⟩
  · have hen := enumerate_isSome_of_three shiftedState [[false, true]] [[false, true]]
      [[false, true]] rfl
    obtain ⟨valid, hvalid⟩ := collect_isSome shiftedState _
      (fun job hjob => evalJob_isSome shiftedState rfl job (hen.2 job hjob))
    have hmemjob : shiftedJob ∈ jobsFor 0 (getBounds [[false, true]])
        (getBounds [[false, true]]) (getBounds [[false, true]]) := by
      rw [mem_jobsFor_iff]
      exact ⟨rfl, rfl, by decide, by decide, by decide⟩
    have hmem : shiftedJob ∈
        jobsFor 0 (getBounds [[false, true]]) (getBounds [[false, true]])
            (getBounds [[false, true]])
          ++ jobsFor 1 (getBounds [[false, true]]) (getBounds [[false, true]])
            (getBounds [[false, true]])
          ++ jobsFor 2 (getBounds [[false, true]]) (getBounds [[false, true]])
            (getBounds [[false, true]])
          ++ jobsFor 3 (getBounds [[false, true]]) (getBounds [[false, true]])
            (getBounds [[false, true]])
          ++ jobsFor 4 (getBounds [[false, true]]) (getBounds [[false, true]])
            (getBounds [[false, true]])
          ++ jobsFor 5 (getBounds [[false, true]]) (getBounds [[false, true]])
            (getBounds [[false, true]]) := by
      simp only [List.mem_append]
      exact Or.inl (Or.inl (Or.inl (Or.inl (Or.inl hmemjob))))
    have hplace : placeAll shiftedState shiftedJob [0, 1, 2] (startState shiftedState)
        = some (some { Board := 0, Pieces := [[], [], []], Score := 0 }) := by
      set_option maxRecDepth 100000 in decide
    have hin : ({ shiftedJob with Score := (Penalize
        { Board := 0, Pieces := [[], [], []], Score := 0 }).Score } : Job) ∈ valid :=
      (mem_collect shiftedState _ valid hvalid _).mpr ⟨shiftedJob, hmem, _, hplace, rfl⟩
    rw [FindBestMove_eq shiftedState _ valid hen.1 hvalid, Ne, selectMoves_eq_nil_iff]
    intro hnil
    rw [hnil] at hin
    cases hin

/-- C11 as amended: on the fully occupied board (all 64 bits set), with three pieces each
having a filled cell `(i, j)` inside its box width (`j < w`, `w` the width of `getBounds`),
`FindBestMove` returns `nil`. -/
theorem FindBestMove_full_board (gs : GameState) (a b c : Piece) (hp : gs.Pieces = [a, b, c])
    (hfull : gs.Board = 2 ^ 64 - 1)
    (hcell : ∀ piece ∈ gs.Pieces, ∃ i j, filled piece i j = true ∧ j < (getBounds piece).1) :
    FindBestMove gs = some none := by
  have hjobs := enumerate_of_three gs a b c hp
  have hall : ∀ job ∈ jobsFor 0 (getBounds a) (getBounds b) (getBounds c)
        ++ jobsFor 1 (getBounds a) (getBounds c) (getBounds b)
        ++ jobsFor 2 (getBounds b) (getBounds a) (getBounds c)
        ++ jobsFor 3 (getBounds b) (getBounds c) (getBounds a)
        ++ jobsFor 4 (getBounds c) (getBounds a) (getBounds b)
        ++ jobsFor 5 (getBounds c) (getBounds b) (getBounds a),
      evalJob gs job = some none := by
    intro job hjob
    obtain ⟨piece, hmem, hpiece, hfit⟩ := first_piece_of_mem gs a b c hp job hjob
    obtain ⟨i, j, hf, hj⟩ := hcell piece hmem
    obtain ⟨M, hM, hne⟩ := mask_hits_full_board piece job.FirstPos i j hf hj hfit
    rw [← hfull] at hne
    exact evalJob_of_first_collision gs job piece M hpiece hM hne
  rw [FindBestMove_eq gs _ [] hjobs (collect_all_invalid gs _ hall)]
  rfl

/-- Witness of C11 as amended: three single-cell pieces on the fully occupied board. -/
theorem FindBestMove_full_board_witness :
    ({ lineState with Board := 2 ^ 64 - 1 } : GameState).Pieces = [[[true]], [[true]], [[true]]] ∧
    ({ lineState with Board := 2 ^ 64 - 1 } : GameState).Board = 2 ^ 64 - 1 ∧
    (∀ piece ∈ ({ lineState with Board := 2 ^ 64 - 1 } : GameState).Pieces,
      ∃ i j, filled piece i j = true ∧ j < (getBounds piece).1) ∧
    FindBestMove { lineState with Board := 2 ^ 64 - 1 } = some none :=
  have hcell : ∀ piece ∈ ({ lineState with Board := 2 ^ 64 - 1 } : GameState).Pieces,
      ∃ i j, filled piece i j = true ∧ j < (getBounds piece).1 := by
    intro piece hpiece
    have : piece = [[true]] := by
      simp only [lineState, List.mem_cons, List.mem_singleton, or_self, List.mem_nil_iff,
        or_false] at hpiece
      exact hpiece
    rw [this]
    exact ⟨0, 0, by decide, by decide⟩
  ⟨rfl, rfl, hcell,
    FindBestMove_full_board { lineState with Board := 2 ^ 64 - 1 } [[true]] [[true]] [[true]]
      rfl rfl hcell⟩

/-- C12: on the empty board with score 0 and three pieces `[[true]]`, whatever the order in
which the workers finish the jobs, `FindBestMove` returns a list of 3 moves, the moves of
the winning job `best` of `ValidJobs`; their targets are pairwise distinct, their masks
pairwise disjoint, and the score of `best` is above the sentinel `-1000000`. -/
theorem FindBestMove_single_cells (schedule : List Job → List Job)
    (hsched : ∀ jobs, (schedule jobs).Perm jobs) :
    ∃ (jobs valid : List Job) (best : Job) (m1 m2 m3 : Move) (M1 M2 M3 : Nat),
      enumerate singleState = some jobs ∧ collect singleState (schedule jobs) = some valid ∧
      best = selectBest valid ∧ best ∈ valid ∧
      FindBestMoveIn schedule singleState = some (some [m1, m2, m3]) ∧
      m1.To = best.FirstPos ∧ m2.To = best.SecondPos ∧ m3.To = best.ThirdPos ∧
      m1.To ≠ m2.To ∧ m1.To ≠ m3.To ∧ m2.To ≠ m3.To ∧
      ToGameBoard m1.Piece m1.To.X m1.To.Y = some M1 ∧
      ToGameBoard m2.Piece m2.To.X m2.To.Y = some M2 ∧
      ToGameBoard m3.Piece m3.To.X m3.To.Y = some M3 ∧
      M1 &&& M2 = 0 ∧ M1 &&& M3 = 0 ∧ M2 &&& M3 = 0 ∧
      -1000000 < best.Score := by
  have hen := enumerate_isSome_of_three singleState [[true]] [[true]] [[true]] rfl
  obtain ⟨valid, hvalid⟩ := collect_isSome singleState (schedule _)
    (fun job hjob => evalJob_isSome singleState rfl job
      (hen.2 job ((hsched _).subset hjob)))
  have hfits : ∀ job ∈ jobsFor 0 (getBounds [[true]]) (getBounds [[true]]) (getBounds [[true]])
        ++ jobsFor 1 (getBounds [[true]]) (getBounds [[true]]) (getBounds [[true]])
        ++ jobsFor 2 (getBounds [[true]]) (getBounds [[true]]) (getBounds [[true]])
        ++ jobsFor 3 (getBounds [[true]]) (getBounds [[true]]) (getBounds [[true]])
        ++ jobsFor 4 (getBounds [[true]]) (getBounds [[true]]) (getBounds [[true]])
        ++ jobsFor 5 (getBounds [[true]]) (getBounds [[true]]) (getBounds [[true]]),
      fits (1, 1) job.FirstPos ∧ fits (1, 1) job.SecondPos ∧ fits (1, 1) job.ThirdPos := by
    intro job hjob
    simp only [List.mem_append, mem_jobsFor_iff] at hjob
    rcases hjob with ((((⟨_, _, h⟩ | ⟨_, _, h⟩) | ⟨_, _, h⟩) | ⟨_, _, h⟩) | ⟨_, _, h⟩)
      | ⟨_, _, h⟩ <;> exact h
  have hsingle : singleJob ∈
      jobsFor 0 (getBounds [[true]]) (getBounds [[true]]) (getBounds [[true]])
        ++ jobsFor 1 (getBounds [[true]]) (getBounds [[true]]) (getBounds [[true]])
        ++ jobsFor 2 (getBounds [[true]]) (getBounds [[true]]) (getBounds [[true]])
        ++ jobsFor 3 (getBounds [[true]]) (getBounds [[true]]) (getBounds [[true]])
        ++ jobsFor 4 (getBounds [[true]]) (getBounds [[true]]) (getBounds [[true]])
        ++ jobsFor 5 (getBounds [[true]]) (getBounds [[true]]) (getBounds [[true]]) := by
    simp only [List.mem_append, mem_jobsFor_iff]
    exact Or.inl (Or.inl (Or.inl (Or.inl (Or.inl
      ⟨rfl, rfl, by decide, by decide, by decide⟩))))
  have hplace : placeAll singleState singleJob [0, 1, 2] (startState singleState)
      = some (some { Board := 7, Pieces := [[], [], []], Score := 0 }) := by
    set_option maxRecDepth 100000 in decide
  have hne : valid ≠ [] := by
    intro hnil
    have hin := (mem_collect singleState _ valid hvalid _).mpr
      ⟨singleJob, (hsched _).mem_iff.mpr hsingle, _, hplace, rfl⟩
    rw [hnil] at hin
    cases hin
  obtain ⟨hbest, hscore, _, _, moves, hmoves, hfind⟩ :=
    selectMoves_of_valid singleState _ (schedule _) valid hen.1
      (fun job hjob => (hsched _).subset hjob) hvalid hne (by decide) (by decide)
  obtain ⟨i0, i1, i2, p0, p1, p2, horder, _, hp0, hp1, hp2, hlist⟩ :=
    reconstruct_inv singleState _ moves hmoves
  have e0 := single_pieces p0 (List.getElem?_mem hp0)
  have e1 := single_pieces p1 (List.getElem?_mem hp1)
  have e2 := single_pieces p2 (List.getElem?_mem hp2)
  subst e0 e1 e2
  obtain ⟨job, hjob, final, hfinal, hscored⟩ :=
    (mem_collect singleState _ valid hvalid _).mp hbest
  obtain ⟨q0, q1, q2, r1, s1, r2, s2, r3, hq0, hq1, hq2, hr1, hs1, hr2, hs2, hr3, hs3⟩ :=
    placeAll_success_inv singleState job _ final hfinal
  have f0 := single_pieces q0 (jobPiece_mem _ _ _ _ hq0)
  have f1 := single_pieces q1 (jobPiece_mem _ _ _ _ hq1)
  have f2 := single_pieces q2 (jobPiece_mem _ _ _ _ hq2)
  subst f0 f1 f2
  obtain ⟨fit1, fit2, fit3⟩ := hfits job ((hsched _).subset hjob)
  have hF : (selectBest valid).FirstPos = job.FirstPos := by rw [hscored]
  have hS : (selectBest valid).SecondPos = job.SecondPos := by rw [hscored]
  have hT : (selectBest valid).ThirdPos = job.ThirdPos := by rw [hscored]
  obtain ⟨_, hb1, hbits1⟩ := single_place (startState singleState) s1 r1 job.FirstPos 0 fit1
    (by decide) (by intro q hq; simp [startState, singleState] at hq) hr1 hs1
  have hsupp1 : ∀ q, s1.Board.testBit q = true → q = cellIndex job.FirstPos := by
    intro q hq
    rcases (hbits1 q).mp hq with h | h
    · simp [startState, singleState] at h
    · exact h
  obtain ⟨hfree2, _, hbits2⟩ := single_place s1 s2 r2 job.SecondPos
    (cellIndex job.FirstPos) fit2 hb1 hsupp1 hr2 hs2
  have hfree3 := single_place_free s2 final r3 job.ThirdPos fit3 hr3 hs3
  have c12 : cellIndex job.FirstPos ≠ cellIndex job.SecondPos := by
    intro heq
    have : s1.Board.testBit (cellIndex job.SecondPos) = true :=
      (hbits1 _).mpr (Or.inr heq.symm)
    rw [hfree2] at this
    cases this
  have c13 : cellIndex job.FirstPos ≠ cellIndex job.ThirdPos := by
    intro heq
    have : s2.Board.testBit (cellIndex job.ThirdPos) = true :=
      (hbits2 _).mpr (Or.inl ((hbits1 _).mpr (Or.inr heq.symm)))
    rw [hfree3] at this
    cases this
  have c23 : cellIndex job.SecondPos ≠ cellIndex job.ThirdPos := by
    intro heq
    have : s2.Board.testBit (cellIndex job.ThirdPos) = true :=
      (hbits2 _).mpr (Or.inr heq.symm)
    rw [hfree3] at this
    cases this
  refine ⟨_, valid, selectBest valid,
    { Piece := [[true]], PieceIndex := i0, To := (selectBest valid).FirstPos },
    { Piece := [[true]], PieceIndex := i1, To := (selectBest valid).SecondPos },
    { Piece := [[true]], PieceIndex := i2, To := (selectBest valid).ThirdPos },
    2 ^ cellIndex job.FirstPos, 2 ^ cellIndex job.SecondPos, 2 ^ cellIndex job.ThirdPos,
    hen.1, hvalid, rfl, hbest, ?_, rfl, rfl, rfl, ?_, ?_, ?_, ?_, ?_, ?_,
    two_pow_and_two_pow _ _ c12, two_pow_and_two_pow _ _ c13, two_pow_and_two_pow _ _ c23,
    hscore⟩
  · rw [FindBestMoveIn_eq schedule singleState _ valid hen.1 hvalid, hfind, hlist]
  · simp only [hF, hS]
    exact fun h => c12 (by rw [h])
  · simp only [hF, hT]
    exact fun h => c13 (by rw [h])
  · simp only [hS, hT]
    exact fun h => c23 (by rw [h])
  · simp only [hF]
    exact (single_mask job.FirstPos fit1).1
  · simp only [hS]
    exact (single_mask job.SecondPos fit2).1
  · simp only [hT]
    exact (single_mask job.ThirdPos fit3).1

/-- Witness of C12: the jobs finished in reverse order. -/
theorem FindBestMove_single_cells_witness :
    (∀ jobs : List Job, jobs.reverse.Perm jobs) ∧
    ∃ (jobs valid : List Job) (best : Job) (m1 m2 m3 : Move) (M1 M2 M3 : Nat),
      enumerate singleState = some jobs ∧ collect singleState (List.reverse jobs) = some valid ∧
      best = selectBest valid ∧ best ∈ valid ∧
      FindBestMoveIn List.reverse singleState = some (some [m1, m2, m3]) ∧
      m1.To = best.FirstPos ∧ m2.To = best.SecondPos ∧ m3.To = best.ThirdPos ∧
      m1.To ≠ m2.To ∧ m1.To ≠ m3.To ∧ m2.To ≠ m3.To ∧
      ToGameBoard m1.Piece m1.To.X m1.To.Y = some M1 ∧
      ToGameBoard m2.Piece m2.To.X m2.To.Y = some M2 ∧
      ToGameBoard m3.Piece m3.To.X m3.To.Y = some M3 ∧
      M1 &&& M2 = 0 ∧ M1 &&& M3 = 0 ∧ M2 &&& M3 = 0 ∧
      -1000000 < best.Score :=
  ⟨fun jobs => List.reverse_perm jobs,
    FindBestMove_single_cells List.reverse (fun jobs => List.reverse_perm jobs)⟩

/-- C13: the score of `bestJob` after the selection loop does not depend on the order of
`ValidJobs`: the loop run over any permutation of the list ends with the same score. -/
theorem selectBest_score_perm (valid permuted : List Job) (h : valid.Perm permuted) :
    (selectBest permuted).Score = (selectBest valid).Score := by
  apply Int.le_antisymm
  · exact selectBest_score_le_of_subset permuted valid (fun j hj => h.mem_iff.mpr hj)
  · exact selectBest_score_le_of_subset valid permuted (fun j hj => h.mem_iff.mp hj)

/-- Witness of C13: two jobs of equal score in both orders; the selected job differs, the
score does not. -/
theorem selectBest_score_perm_witness :
    ([{ lineJob with Score := -6 }, { lineJob with OrderIndex := 1, Score := -6 }] : List Job).Perm
      [{ lineJob with OrderIndex := 1, Score := -6 }, { lineJob with Score := -6 }] ∧
    (selectBest [{ lineJob with OrderIndex := 1, Score := -6 }, { lineJob with Score := -6 }]).Score
      = (selectBest
          [{ lineJob with Score := -6 }, { lineJob with OrderIndex := 1, Score := -6 }]).Score :=
  ⟨List.Perm.swap _ _ _,
    selectBest_score_perm _ _ (List.Perm.swap _ _ _)⟩

/-- C14: for an 8x8 grid `b` (8 rows of 8 cells) and any receiver, after `FromBoard b`
bit `y * 8 + x` of `Board` is set iff `b[y][x]` is true, for all `x, y` in `0..7`; the value
does not depend on the previous board, and `Score` and `Pieces` are unchanged. -/
theorem FromBoard_grid (gs : GameState) (b : List (List Bool)) (hrows : b.length = 8)
    (hcols : ∀ row ∈ b, row.length = 8) :
    (∀ x y, x < 8 → y < 8 →
      ((FromBoard gs b).Board.testBit (y * 8 + x) = true ↔ filled b y x = true)) ∧
    (∀ x y, x < 8 → y < 8 → ∃ row, b[y]? = some row ∧ row[x]? = some (filled b y x)) ∧
    (∀ other : GameState, (FromBoard other b).Board = (FromBoard gs b).Board) ∧
    (FromBoard gs b).Score = gs.Score ∧ (FromBoard gs b).Pieces = gs.Pieces := by
  refine ⟨?_, ?_, fun _ => rfl, rfl, rfl⟩
  · intro x y hx hy
    rw [FromBoard_bits]
    constructor
    · rintro ⟨_, y2, x2, hf, hq⟩
      obtain ⟨_, row, hrow, hx2, _⟩ := filled_lt b y2 x2 hf
      have hlen := hcols row (List.getElem?_mem hrow)
      have e1 : y2 = y := by omega
      have e2 : x2 = x := by omega
      rw [← e1, ← e2]
      exact hf
    · intro hf
      exact ⟨by omega, y, x, hf, rfl⟩
  · intro x y hx hy
    have hy2 : y < b.length := by omega
    refine ⟨b[y], List.getElem?_eq_getElem hy2, ?_⟩
    have hlen := hcols b[y] (List.getElem_mem _)
    have hx2 : x < b[y].length := by omega
    unfold filled
    rw [List.getElem?_eq_getElem hy2, Option.getD_some, List.getElem?_eq_getElem hx2,
      Option.getD_some]

/-- Witness of C14: the grid whose only occupied cell is `(x, y) = (0, 0)`, read into a
state whose board was 5. -/
theorem FromBoard_grid_witness :
    cornerGrid.length = 8 ∧ (∀ row ∈ cornerGrid, row.length = 8) ∧
    (∀ x y, x < 8 → y < 8 →
      ((FromBoard { Board := 5, Pieces := [], Score := 3 } cornerGrid).Board.testBit (y * 8 + x)
          = true ↔ filled cornerGrid y x = true)) ∧
    (∀ x y, x < 8 → y < 8 →
      ∃ row, cornerGrid[y]? = some row ∧ row[x]? = some (filled cornerGrid y x)) ∧
    (∀ other : GameState,
      (FromBoard other cornerGrid).Board
        = (FromBoard { Board := 5, Pieces := [], Score := 3 } cornerGrid).Board) ∧
    (FromBoard { Board := 5, Pieces := [], Score := 3 } cornerGrid).Score = 3 ∧
    (FromBoard { Board := 5, Pieces := [], Score := 3 } cornerGrid).Pieces = [] :=
  ⟨by decide, by decide,
    FromBoard_grid { Board := 5, Pieces := [], Score := 3 } cornerGrid (by decide) (by decide)⟩

/-- C15: for a left-packed piece and a position with `0 <= x <= 8 - w` and
`0 <= y <= 8 - h`, `(w, h) = getBounds`, `ToGameBoard` returns a mask whose bit `q` is set
iff `q = (y + i) * 8 + (x + j)` for a filled cell `(i, j)`; every filled cell lies inside
the bounding box and on the board (`j < w`, `i < h`, `x + j <= 7`, `y + i <= 7`), and the
number of set bits equals the number of filled cells. -/
theorem ToGameBoard_leftPacked (p : Piece) (x y : Int) (hp : leftPacked p)
    (hx : 0 ≤ x) (hxw : x ≤ 8 - ((getBounds p).1 : Int))
    (hy : 0 ≤ y) (hyh : y ≤ 8 - ((getBounds p).2 : Int)) :
    ∃ M, ToGameBoard p x y = some M ∧
      (∀ q : Nat, M.testBit q = true ↔
        ∃ i j : Nat, filled p i j = true ∧ (y + (i : Int)) * 8 + (x + (j : Int)) = (q : Int)) ∧
      (∀ i j : Nat, filled p i j = true →
        j < (getBounds p).1 ∧ i < (getBounds p).2 ∧
          x + (j : Int) ≤ 7 ∧ y + (i : Int) ≤ 7) ∧
      popCount M = (filledCells p).card := by
  obtain ⟨M, hM, hbits⟩ := ToGameBoard_bits p x y hx (by omega) hy (by omega)
  have hbox : ∀ i j : Nat, filled p i j = true →
      j < (getBounds p).1 ∧ i < (getBounds p).2 ∧ x + (j : Int) ≤ 7 ∧ y + (i : Int) ≤ 7 := by
    intro i j hf
    obtain ⟨h1, h2⟩ := filled_in_bounds p hp i j hf
    exact ⟨h1, h2, by omega, by omega⟩
  refine ⟨M, hM, ?_, hbox, ?_⟩
  · intro q
    rw [hbits q]
    constructor
    · rintro ⟨_, i, j, hf, hq⟩
      obtain ⟨_, _, h3, h4⟩ := hbox i j hf
      exact ⟨i, j, hf, by omega⟩
    · rintro ⟨i, j, hf, hq⟩
      obtain ⟨_, _, h3, h4⟩ := hbox i j hf
      exact ⟨by omega, i, j, hf, by omega⟩
  · unfold popCount
    have himg : (Finset.range 64).filter (fun q => M.testBit q = true)
        = (filledCells p).image
            (fun c => ((y + (c.1 : Int)) * 8 + (x + (c.2 : Int))).toNat) := by
      ext q
      rw [Finset.mem_filter, Finset.mem_range, Finset.mem_image, hbits q]
      constructor
      · rintro ⟨_, _, i, j, hf, hq⟩
        exact ⟨(i, j), (mem_filledCells p (i, j)).mpr hf, hq⟩
      · rintro ⟨c, hc, hq⟩
        have hf := (mem_filledCells p c).mp hc
        obtain ⟨_, _, h3, h4⟩ := hbox c.1 c.2 hf
        have hq64 : q < 64 := by omega
        exact ⟨hq64, hq64, c.1, c.2, hf, hq⟩
    rw [himg]
    apply Finset.card_image_of_injOn
    intro c hc d hd hcd
    have hfc := (mem_filledCells p c).mp (Finset.mem_coe.mp hc)
    have hfd := (mem_filledCells p d).mp (Finset.mem_coe.mp hd)
    obtain ⟨_, _, c3, c4⟩ := hbox c.1 c.2 hfc
    obtain ⟨_, _, d3, d4⟩ := hbox d.1 d.2 hfd
    simp only at hcd
    have e1 : c.1 = d.1 := by omega
    have e2 : c.2 = d.2 := by omega
    exact Prod.ext e1 e2

/-- Witness of C15: the L-shaped piece `[[true, false], [true, true]]` at `(6, 6)`. -/
theorem ToGameBoard_leftPacked_witness :
    leftPacked [[true, false], [true, true]] ∧
    (0 : Int) ≤ 6 ∧ (6 : Int) ≤ 8 - ((getBounds [[true, false], [true, true]]).1 : Int) ∧
    (0 : Int) ≤ 6 ∧ (6 : Int) ≤ 8 - ((getBounds [[true, false], [true, true]]).2 : Int) ∧
    ∃ M, ToGameBoard [[true, false], [true, true]] 6 6 = some M ∧
      (∀ q : Nat, M.testBit q = true ↔
        ∃ i j : Nat, filled [[true, false], [true, true]] i j = true ∧
          ((6 : Int) + (i : Int)) * 8 + (6 + (j : Int)) = (q : Int)) ∧
      (∀ i j : Nat, filled [[true, false], [true, true]] i j = true →
        j < (getBounds [[true, false], [true, true]]).1 ∧
          i < (getBounds [[true, false], [true, true]]).2 ∧
          (6 : Int) + (j : Int) ≤ 7 ∧ (6 : Int) + (i : Int) ≤ 7) ∧
      popCount M = (filledCells [[true, false], [true, true]]).card :=
  have hp : leftPacked [[true, false], [true, true]] := by
    intro i j k hk hf
    have hi : i < 2 := (filled_lt _ i j hf).1
    have hj : j < 2 := by
      obtain ⟨_, row, hrow, hjl, _⟩ := filled_lt _ i j hf
      interval_cases i <;> simp at hrow <;> subst hrow <;> simpa using hjl
    interval_cases i <;> interval_cases j <;> interval_cases k <;> first | exact hf | rfl
  ⟨hp, by decide, by decide, by decide, by decide,
    ToGameBoard_leftPacked [[true, false], [true, true]] 6 6 hp
      (by decide) (by decide) (by decide) (by decide)⟩

/-- Counterexample to C17: the single cell `[[true]]` at `(0, 8)` has position 64; the
claim has it set bit `64 % 64 = 0`, but the returned mask is `0`: the bit is shifted out
of the 64-bit word and nothing wraps. -/
theorem ToGameBoard_wrap_counterexample :
    filled [[true]] 0 0 = true ∧
    (((8 : Int) + ((0 : Nat) : Int)) * 8 + (0 + ((0 : Nat) : Int))).toNat = 64 ∧
    ¬ ∃ M, ToGameBoard [[true]] 0 8 = some M ∧ M.testBit (64 % 64) = true := by
  refine ⟨by decide, by decide, ?_⟩
  rintro ⟨M, hM, hbit⟩
  have h0 : ToGameBoard [[true]] 0 8 = some 0 := by
    set_option maxRecDepth 100000 in decide
  rw [h0] at hM
  cases hM
  simp at hbit

/-- C17 as amended: `ToGameBoard` does no bound check, and nothing wraps modulo 64. The
position `(y + i) * 8 + (x + j)` of a filled cell is computed in 64-bit wrap-around `int`
arithmetic (`cellPos`); a negative position, which for `x, y >= 0` needs an overflow, is
a run-time panic; otherwise the cell sets bit `pos` of the mask when `pos < 64` and no bit
when `pos >= 64`. So for `x, y >= 0` without overflow, bit `q` of the mask is set iff
`q < 64` and `q` is the position `(y + i) * 8 + (x + j)` of a filled cell. -/
theorem ToGameBoard_no_wrap (p : Piece) (x y : Int) (hp : isPiece p) :
    (∀ i j : Nat, cellPos x y i j = wrapInt ((y + (i : Int)) * 8 + (x + (j : Int)))) ∧
    (ToGameBoard p x y = none ↔ ∃ i j : Nat, filled p i j = true ∧ cellPos x y i j < 0) ∧
    (∀ M, ToGameBoard p x y = some M →
      M < 2 ^ 64 ∧
      ∀ q : Nat, M.testBit q = true ↔
        q < 64 ∧ ∃ i j : Nat, filled p i j = true ∧ cellPos x y i j = (q : Int)) ∧
    (0 ≤ x → 0 ≤ y →
      (∀ i j : Nat, filled p i j = true → (y + (i : Int)) * 8 + (x + (j : Int)) < 2 ^ 63) →
      ∃ M, ToGameBoard p x y = some M ∧
        ∀ q : Nat, M.testBit q = true ↔
          q < 64 ∧ ∃ i j : Nat, filled p i j = true ∧
            (y + (i : Int)) * 8 + (x + (j : Int)) = (q : Int)) := by
  have hcases : (∃ i j : Nat, filled p i j = true ∧ cellPos x y i j < 0) →
      ToGameBoard p x y = none := by
    rintro ⟨i, j, hf, hneg⟩
    obtain ⟨hi, hj⟩ := filled_lt_maxSlice p hp i j hf
    exact ToGameBoard_none p x y i j hi hj hf hneg
  have hsome : (¬ ∃ i j : Nat, filled p i j = true ∧ cellPos x y i j < 0) →
      ∃ M, ToGameBoard p x y = some M ∧
        ∀ q : Nat, M.testBit q = true ↔
          q < 64 ∧ ∃ i j : Nat, filled p i j = true ∧ cellPos x y i j = (q : Int) := by
    intro hno
    obtain ⟨M, hM, hbits⟩ := ToGameBoard_some p x y (fun i j _ _ hf => by
      by_contra hneg
      exact hno ⟨i, j, hf, by omega⟩)
    refine ⟨M, hM, ?_⟩
    intro q
    rw [hbits q]
    constructor
    · rintro ⟨h1, i, j, _, _, hf, hq⟩
      exact ⟨h1, i, j, hf, hq⟩
    · rintro ⟨h1, i, j, hf, hq⟩
      obtain ⟨hi, hj⟩ := filled_lt_maxSlice p hp i j hf
      exact ⟨h1, i, j, hi, hj, hf, hq⟩
  refine ⟨cellPos_eq x y, ?_, ?_, ?_⟩
  · constructor
    · intro hnone
      by_contra hno
      obtain ⟨M, hM, _⟩ := hsome hno
      rw [hnone] at hM
      cases hM
    · exact hcases
  · intro M hM
    refine ⟨ToGameBoard_lt p x y M hM, ?_⟩
    have hno : ¬ ∃ i j : Nat, filled p i j = true ∧ cellPos x y i j < 0 := by
      intro hex
      rw [hcases hex] at hM
      cases hM
    obtain ⟨M1, hM1, hbits⟩ := hsome hno
    rw [hM] at hM1
    cases hM1
    exact hbits
  · intro hx hy hexact
    have hpos : ∀ i j : Nat, filled p i j = true →
        cellPos x y i j = (y + (i : Int)) * 8 + (x + (j : Int)) := by
      intro i j hf
      apply cellPos_of_isInt
      have h1 : (0 : Int) ≤ (i : Int) := Int.ofNat_nonneg _
      have h2 : (0 : Int) ≤ (j : Int) := Int.ofNat_nonneg _
      have h3 := hexact i j hf
      rw [isInt_iff]
      norm_num at h3
      constructor
      · have : (0 : Int) ≤ (y + (i : Int)) * 8 + (x + (j : Int)) := by nlinarith
        omega
      · exact h3
    have hno : ¬ ∃ i j : Nat, filled p i j = true ∧ cellPos x y i j < 0 := by
      rintro ⟨i, j, hf, hneg⟩
      rw [hpos i j hf] at hneg
      have h1 : (0 : Int) ≤ (i : Int) := Int.ofNat_nonneg _
      have h2 : (0 : Int) ≤ (j : Int) := Int.ofNat_nonneg _
      have : (0 : Int) ≤ (y + (i : Int)) * 8 + (x + (j : Int)) := by nlinarith
      omega
    obtain ⟨M, hM, hbits⟩ := hsome hno
    refine ⟨M, hM, ?_⟩
    intro q
    rw [hbits q]
    constructor
    · rintro ⟨h1, i, j, hf, hq⟩
      exact ⟨h1, i, j, hf, by rw [← hpos i j hf]; exact hq⟩
    · rintro ⟨h1, i, j, hf, hq⟩
      exact ⟨h1, i, j, hf, by rw [hpos i j hf]; exact hq⟩

/-- Witness of C17 as amended: the single cell at `y = 2 ^ 61`, where `y * 8` overflows to
0 and bit 0 is set, next to the runs at `y = 2 ^ 60` (position `-2 ^ 63`, a panic) and at
`y = 8` (position 64 without overflow: the mask has no bit). -/
theorem ToGameBoard_no_wrap_witness :
    isPiece [[true]] ∧
    ToGameBoard [[true]] 0 2305843009213693952 = some 1 ∧
    ToGameBoard [[true]] 0 1152921504606846976 = none ∧
    ToGameBoard [[true]] 0 8 = some 0 ∧
    ((∀ i j : Nat, cellPos 0 2305843009213693952 i j
      = wrapInt ((2305843009213693952 + (i : Int)) * 8 + (0 + (j : Int)))) ∧
    (ToGameBoard [[true]] 0 2305843009213693952 = none ↔
      ∃ i j : Nat, filled [[true]] i j = true ∧ cellPos 0 2305843009213693952 i j < 0) ∧
    (∀ M, ToGameBoard [[true]] 0 2305843009213693952 = some M →
      M < 2 ^ 64 ∧
      ∀ q : Nat, M.testBit q = true ↔
        q < 64 ∧ ∃ i j : Nat, filled [[true]] i j = true ∧
          cellPos 0 2305843009213693952 i j = (q : Int)) ∧
    ((0 : Int) ≤ 0 → (0 : Int) ≤ 2305843009213693952 →
      (∀ i j : Nat, filled [[true]] i j = true →
        (2305843009213693952 + (i : Int)) * 8 + (0 + (j : Int)) < 2 ^ 63) →
      ∃ M, ToGameBoard [[true]] 0 2305843009213693952 = some M ∧
        ∀ q : Nat, M.testBit q = true ↔
          q < 64 ∧ ∃ i j : Nat, filled [[true]] i j = true ∧
            (2305843009213693952 + (i : Int)) * 8 + (0 + (j : Int)) = (q : Int))) ∧
    (∀ i j : Nat, filled [[true]] i j = true →
      ((8 : Int) + (i : Int)) * 8 + (0 + (j : Int)) < 2 ^ 63) ∧
    ∃ M, ToGameBoard [[true]] 0 8 = some M ∧
      ∀ q : Nat, M.testBit q = true ↔
        q < 64 ∧ ∃ i j : Nat, filled [[true]] i j = true ∧
          ((8 : Int) + (i : Int)) * 8 + (0 + (j : Int)) = (q : Int) :=
  have hsmall : ∀ i j : Nat, filled [[true]] i j = true →
      ((8 : Int) + (i : Int)) * 8 + (0 + (j : Int)) < 2 ^ 63 := by
    intro i j hf
    obtain ⟨hi, row, hrow, hj, _⟩ := filled_lt [[true]] i j hf
    have hi0 : i = 0 := by
      simp only [List.length_cons, List.length_nil] at hi
      omega
    subst hi0
    simp only [List.getElem?_cons_zero, Option.some.injEq] at hrow
    subst hrow
    simp only [List.length_cons, List.length_nil] at hj
    have hj0 : j = 0 := by omega
    subst hj0
    norm_num
  ⟨by decide, by set_option maxRecDepth 100000 in decide,
    by set_option maxRecDepth 100000 in decide, by set_option maxRecDepth 100000 in decide,
    ToGameBoard_no_wrap [[true]] 0 2305843009213693952 (by decide), hsmall,
    (ToGameBoard_no_wrap [[true]] 0 8 (by decide)).2.2.2 (by decide) (by decide) hsmall⟩

/-- Counterexample to C18: on `lowState`, whose score is `-2 ^ 63`, the enumerated job
`lineJob` is valid and ends on the board `3` of penalty 6, yet its score is not
`-2 ^ 63 - 6`: the subtraction of `Penalize` wraps around and the job scores `2 ^ 63 - 6`. -/
theorem FindBestMove_frame_counterexample :
    ∃ jobs valid, enumerate lowState = some jobs ∧ collect lowState jobs = some valid ∧
      lineJob ∈ jobs ∧
      placeAll lowState lineJob [0, 1, 2] (startState lowState)
        = some (some { Board := 3, Pieces := [[], [], []], Score := -9223372036854775808 }) ∧
      evalJob lowState lineJob = some (some { lineJob with Score := 9223372036854775802 }) ∧
      { lineJob with Score := 9223372036854775802 } ∈ valid ∧
      penalty 3 = 6 ∧ (9223372036854775802 : Int) ≠ lowState.Score - penalty 3 := by
  have hlen : lowState.Pieces.length = 3 := rfl
  obtain ⟨valid, hvalid⟩ := collect_isSome lowState _
    (fun job hjob => evalJob_isSome lowState hlen job
      ((enumerate_isSome_of_three lowState [[true]] [[true]] [[true]] rfl).2 job hjob))
  have hplace : placeAll lowState lineJob [0, 1, 2] (startState lowState)
      = some (some { Board := 3, Pieces := [[], [], []], Score := -9223372036854775808 }) := by
    set_option maxRecDepth 100000 in decide
  have hmemjob : lineJob ∈ jobsFor 0 (getBounds [[true]]) (getBounds [[true]])
      (getBounds [[true]]) := by
    rw [mem_jobsFor_iff]
    exact ⟨rfl, rfl, by decide, by decide, by decide⟩
  have hmem : lineJob ∈
      jobsFor 0 (getBounds [[true]]) (getBounds [[true]]) (getBounds [[true]])
        ++ jobsFor 1 (getBounds [[true]]) (getBounds [[true]]) (getBounds [[true]])
        ++ jobsFor 2 (getBounds [[true]]) (getBounds [[true]]) (getBounds [[true]])
        ++ jobsFor 3 (getBounds [[true]]) (getBounds [[true]]) (getBounds [[true]])
        ++ jobsFor 4 (getBounds [[true]]) (getBounds [[true]]) (getBounds [[true]])
        ++ jobsFor 5 (getBounds [[true]]) (getBounds [[true]]) (getBounds [[true]]) := by
    simp only [List.mem_append]
    exact Or.inl (Or.inl (Or.inl (Or.inl (Or.inl hmemjob))))
  have heval : evalJob lowState lineJob
      = some (some { lineJob with Score := 9223372036854775802 }) := by
    set_option maxRecDepth 100000 in decide
  refine ⟨_, valid, enumerate_of_three lowState [[true]] [[true]] [[true]] rfl, hvalid,
    hmem, hplace, heval, ?_, penalty_three, ?_⟩
  · exact (mem_collect lowState _ valid hvalid _).mpr
      ⟨lineJob, hmem, _, hplace, by set_option maxRecDepth 100000 in decide⟩
  · rw [penalty_three]
    decide

/-- C18 as amended: run on the store that holds the starting state `gs` at address 0,
whatever the order in which the workers finish the jobs, `FindBestMove` leaves that object
as it was (board, pieces and score) and yields the `ValidJobs` of the pass that evaluates
every job from `gs` alone, a rearrangement of the `ValidJobs` of the run in queue order;
the score of a valid job is the starting score minus the penalty
of the final board of the job in 64-bit wrap-around arithmetic (that difference itself
when it is at least `-2 ^ 63`), with no term for the lines its placements cleared; and on
any store, whatever objects the other workers hold in it, a worker's job writes no object
that was there when it started and has the result of `evalJob gs job`. -/
theorem FindBestMove_frame (schedule : List Job → List Job) (gs : GameState) (store : Store)
    (result : Option (List Move)) (hsched : ∀ jobs, (schedule jobs).Perm jobs)
    (h : FindBestMoveAt schedule gs = some (store, result)) :
    store[0]? = some gs ∧ FindBestMoveIn schedule gs = some result ∧
    (∃ jobs valid store1, enumerate gs = some jobs ∧
      collectAt [gs] (schedule jobs) = some (store1, valid) ∧ store1[0]? = some gs ∧
      collect gs (schedule jobs) = some valid ∧
      (∃ queued, collect gs jobs = some queued ∧ queued.Perm valid) ∧
      ∀ scored ∈ valid, ∃ job ∈ jobs, ∃ final,
        placeAll gs job [0, 1, 2] (startState gs) = some (some final) ∧
        evalJob gs job = some (some scored) ∧
        scored = { job with Score := wrapInt (gs.Score - penalty final.Board) } ∧
        (isInt gs.Score → -2 ^ 63 ≤ gs.Score - penalty final.Board →
          scored.Score = gs.Score - penalty final.Board)) ∧
    (∀ (others : Store) (job : Job) (store1 : Store) (r : Option Job),
      evalJobAt (gs :: others) job = some (store1, r) →
        (∀ b, b < (gs :: others).length → store1[b]? = (gs :: others)[b]?) ∧
        evalJob gs job = some r) := by
  obtain ⟨s1, s2⟩ := FindBestMoveAt_sim schedule gs
  have hworker : ∀ (others : Store) (job : Job) (store1 : Store) (r : Option Job),
      evalJobAt (gs :: others) job = some (store1, r) →
        (∀ b, b < (gs :: others).length → store1[b]? = (gs :: others)[b]?) ∧
        evalJob gs job = some r := by
    intro others job store1 r hrun
    obtain ⟨e1, e2⟩ := evalJobAt_sim (gs :: others) gs job (List.getElem?_cons_zero)
    cases he : evalJob gs job with
    | none =>
      rw [e1 he] at hrun
      cases hrun
    | some r1 =>
      obtain ⟨store2, hs2, hframe⟩ := e2 r1 he
      rw [hs2] at hrun
      cases hrun
      exact ⟨hframe, rfl⟩
  cases hfind : FindBestMoveIn schedule gs with
  | none =>
    rw [s1 hfind] at h
    cases h
  | some res =>
    obtain ⟨store2, hs2, h02⟩ := s2 res hfind
    rw [hs2] at h
    cases h
    refine ⟨h02, rfl, ?_, hworker⟩
    obtain ⟨jobs, valid, hjobs, hvalid, _⟩ := FindBestMoveIn_inv schedule gs _ hfind
    obtain ⟨store1, hc1, h01⟩ := (collectAt_sim gs (schedule jobs) [gs] rfl).2 valid hvalid
    refine ⟨jobs, valid, store1, hjobs, hc1, h01 0 (Nat.zero_lt_succ 0), hvalid,
      collect_perm gs (schedule jobs) jobs valid (hsched jobs).symm hvalid, ?_⟩
    intro scored hscored
    obtain ⟨job, hjob, final, hfinal, heq⟩ :=
      scored_score gs (schedule jobs) valid hvalid scored hscored
    refine ⟨job, (hsched jobs).subset hjob, final, hfinal, ?_, heq, ?_⟩
    · rw [evalJob_some_iff]
      refine ⟨final, hfinal, ?_⟩
      rw [heq]
      have hsc := (placeAll_score gs job _ _ final hfinal).1
      rw [Penalize_score, hsc]
      rfl
    · intro hs hlow
      rw [heq]
      exact wrapInt_sub_penalty gs.Score final.Board hs hlow

/-- Witness of C18 as amended: `FindBestMove` on `blockState 0`, the jobs finished in
reverse order; the bonuses sit in the intermediate objects of `blockStore`, the object at
address 0 and the job scores are untouched. -/
theorem FindBestMove_frame_witness :
    (∀ jobs : List Job, jobs.reverse.Perm jobs) ∧
    FindBestMoveAt List.reverse (blockState 0) = some (blockStore, some blockMovesRev) ∧
    blockStore[0]? = some (blockState 0) ∧
    FindBestMoveIn List.reverse (blockState 0) = some (some blockMovesRev) ∧
    (∃ jobs valid store1, enumerate (blockState 0) = some jobs ∧
      collectAt [blockState 0] (List.reverse jobs) = some (store1, valid) ∧
      store1[0]? = some (blockState 0) ∧
      collect (blockState 0) (List.reverse jobs) = some valid ∧
      (∃ queued, collect (blockState 0) jobs = some queued ∧ queued.Perm valid) ∧
      ∀ scored ∈ valid, ∃ job ∈ jobs, ∃ final,
        placeAll (blockState 0) job [0, 1, 2] (startState (blockState 0))
          = some (some final) ∧
        evalJob (blockState 0) job = some (some scored) ∧
        scored = { job with Score := wrapInt ((blockState 0).Score - penalty final.Board) } ∧
        (isInt (blockState 0).Score → -2 ^ 63 ≤ (blockState 0).Score - penalty final.Board →
          scored.Score = (blockState 0).Score - penalty final.Board)) ∧
    (∀ (others : Store) (job : Job) (store1 : Store) (r : Option Job),
      evalJobAt (blockState 0 :: others) job = some (store1, r) →
        (∀ b, b < (blockState 0 :: others).length →
          store1[b]? = (blockState 0 :: others)[b]?) ∧
        evalJob (blockState 0) job = some r) :=
  have hsched : ∀ jobs : List Job, jobs.reverse.Perm jobs := fun jobs => List.reverse_perm jobs
  have h : FindBestMoveAt List.reverse (blockState 0)
      = some (blockStore, some blockMovesRev) := by
    set_option maxRecDepth 1000000 in decide
  ⟨hsched, h,
    FindBestMove_frame List.reverse (blockState 0) blockStore (some blockMovesRev) hsched h⟩

/-- C19: the penalty `Penalize` subtracts lies between 0 and 896 for every board, and a
score from 0 up is lowered by exactly that much; so with a starting score of at least 0
and a non-empty `ValidJobs`, whatever the order in which the workers finish the jobs,
every valid job scores above the sentinel `-1000000`, the selection loop ends on a job of
`ValidJobs` and not on the placeholder, the index `bestJob.OrderIndex` lies in `0..5`, the
lookup in `Order` succeeds and `FindBestMove` returns a move list. -/
theorem FindBestMove_index_in_range (schedule : List Job → List Job) (gs : GameState)
    (jobs valid : List Job) (hsched : ∀ jobs, (schedule jobs).Perm jobs)
    (hjobs : enumerate gs = some jobs) (hvalid : collect gs (schedule jobs) = some valid)
    (hne : valid ≠ []) (hscore : 0 ≤ gs.Score) (hint : gs.Score < 2 ^ 63) :
    (∀ board : Nat, 0 ≤ penalty board ∧ penalty board ≤ 896) ∧
    (∀ s : GameState, (Penalize s).Score = wrapInt (s.Score - penalty s.Board)) ∧
    (∀ s : GameState, 0 ≤ s.Score → s.Score < 2 ^ 63 →
      (Penalize s).Score = s.Score - penalty s.Board ∧
      0 ≤ s.Score - (Penalize s).Score ∧ s.Score - (Penalize s).Score ≤ 896) ∧
    (∀ scored ∈ valid, -1000000 < scored.Score) ∧
    selectBest valid ≠ placeholder ∧ selectBest valid ∈ valid ∧
    0 ≤ (selectBest valid).OrderIndex ∧ (selectBest valid).OrderIndex < 6 ∧
    (∃ row, orderAt (selectBest valid).OrderIndex = some row) ∧
    ∃ moves, FindBestMoveIn schedule gs = some (some moves) := by
  obtain ⟨hmem, _, hlo, hhi, moves, _, hfind⟩ :=
    selectMoves_of_valid gs jobs (schedule jobs) valid hjobs
      (fun job hjob => (hsched jobs).subset hjob) hvalid hne hscore hint
  refine ⟨penalty_bounds, Penalize_score, ?_, ?_, ?_, hmem, hlo, hhi, orderAt_isSome _ hlo hhi,
    moves, ?_⟩
  · intro s h0 hlt
    have hb := penalty_bounds s.Board
    have hw : (Penalize s).Score = s.Score - penalty s.Board := by
      rw [Penalize_score]
      apply wrapInt_sub_penalty
      · rw [isInt_iff]
        norm_num at hlt
        omega
      · norm_num
        omega
    rw [hw]
    omega
  · intro scored hs
    exact scored_above gs (schedule jobs) valid hvalid hscore hint scored hs
  · intro hph
    rw [hph] at hlo
    exact absurd hlo (by decide)
  · rw [FindBestMoveIn_eq schedule gs jobs valid hjobs hvalid]
    exact hfind

/-- Witness of C19: three `fullBlock` pieces on the empty board, score 0, the jobs finished
in reverse order; in queue order the six jobs are valid as well, each with the score 0. -/
theorem FindBestMove_index_in_range_witness :
    (∀ jobs : List Job, jobs.reverse.Perm jobs) ∧
    collect (blockState 0) blockJobs = some blockJobs ∧
    (∃ j ∈ blockJobs, j.Score > -1000000) ∧
    enumerate (blockState 0) = some blockJobs ∧
    collect (blockState 0) (List.reverse blockJobs) = some blockJobs.reverse ∧
    blockJobs.reverse ≠ [] ∧ 0 ≤ (blockState 0).Score ∧ (blockState 0).Score < 2 ^ 63 ∧
    (∀ board : Nat, 0 ≤ penalty board ∧ penalty board ≤ 896) ∧
    (∀ s : GameState, (Penalize s).Score = wrapInt (s.Score - penalty s.Board)) ∧
    (∀ s : GameState, 0 ≤ s.Score → s.Score < 2 ^ 63 →
      (Penalize s).Score = s.Score - penalty s.Board ∧
      0 ≤ s.Score - (Penalize s).Score ∧ s.Score - (Penalize s).Score ≤ 896) ∧
    (∀ scored ∈ blockJobs.reverse, -1000000 < scored.Score) ∧
    selectBest blockJobs.reverse ≠ placeholder ∧
    selectBest blockJobs.reverse ∈ blockJobs.reverse ∧
    0 ≤ (selectBest blockJobs.reverse).OrderIndex ∧
    (selectBest blockJobs.reverse).OrderIndex < 6 ∧
    (∃ row, orderAt (selectBest blockJobs.reverse).OrderIndex = some row) ∧
    ∃ moves, FindBestMoveIn List.reverse (blockState 0) = some (some moves) :=
  have hsched : ∀ jobs : List Job, jobs.reverse.Perm jobs := fun jobs => List.reverse_perm jobs
  have h1 : enumerate (blockState 0) = some blockJobs := by
    set_option maxRecDepth 1000000 in decide
  have h2 : collect (blockState 0) (List.reverse blockJobs) = some blockJobs.reverse := by
    set_option maxRecDepth 1000000 in decide
  have h3 : blockJobs.reverse ≠ [] := by decide
  have h4 : 0 ≤ (blockState 0).Score := by decide
  have h5 : (blockState 0).Score < 2 ^ 63 := by decide
  have h6 : collect (blockState 0) blockJobs = some blockJobs := by
    set_option maxRecDepth 1000000 in decide
  have h7 : ∃ j ∈ blockJobs, j.Score > -1000000 := by decide
  ⟨hsched, h6, h7, h1, h2, h3, h4, h5,
    FindBestMove_index_in_range List.reverse (blockState 0) blockJobs blockJobs.reverse
      hsched h1 h2 h3 h4 h5⟩

end BlockBlast
